import Mathlib

/-!
Verification of the storage-engine family of the repository
(B+Tree, Sequential File, ISAM, Extendible Hashing, Record Codec)
against its natural-language specification.

Each Python structure is shallowly embedded as pure Lean definitions:
file-backed state becomes an explicit state record, byte offsets into
append-only heaps become list indices, and machine integers become
`Int`/`Nat` (serialization of keys is modelled as the identity on the
in-range values the operations exchange).  Loops whose termination is
not structural are written with an explicit fuel argument that is
always instantiated large enough to reproduce the Python control flow.
-/

/-! ## ISAM (`src/ISAM/ISAM.py`, class `ISAMIndex`)

State: `leaves` (primary pages of `(key, heap_offset)` entries),
`dir_keys` (per-page minima), `overflow` (page index to overflow
entries, a total function standing for the Python dict with default
`[]`), the two upper directory levels `root` and `super_root`, and the
JSONL heap modelled as a list of rows whose offsets are list indices. -/

namespace ISAM

/-- Rows are opaque payloads; the claims only inspect keys and offsets. -/
abbrev Row := Nat

/-- An index entry `(key, offset_in_heap)` as stored in pages and overflow. -/
abbrev Entry := Int × Nat

/-- The placeholder "infinity" key `2**63-1` used for empty buckets. -/
def placeholder : Int := 9223372036854775807

structure State where
  block_factor : Nat
  root_factor : Nat
  super_factor : Nat
  leaves : List (List Entry)
  dir_keys : List Int
  overflow : Nat → List Entry
  root : List (Int × Nat)
  super_root : List (Int × Nat)
  heap : List Row

/-- The `_init_empty` state: one empty bucket, everything else empty. -/
def initState (bf rf sf : Nat) : State :=
  { block_factor := bf, root_factor := rf, super_factor := sf,
    leaves := [[]], dir_keys := [], overflow := fun _ => [],
    root := [], super_root := [], heap := [] }

/-- Python `bucket.insert(i, e)` at the first `i` with `bucket[i][0] > key`:
the sorted insertion used for both primary pages and overflow lists. -/
def insertAfterLE (e : Entry) : List Entry → List Entry
  | [] => [e]
  | x :: xs => if x.1 ≤ e.1 then x :: insertAfterLE e xs else e :: x :: xs

/-- Maximum of a list of keys, seeded by its first element
(Python `max(mx for mx, _ in group)` over a nonempty group). -/
def listMax : List Int → Int
  | [] => placeholder
  | a :: as => as.foldl max a

/-- Chunks of size `n` (fuel-driven; `fuel ≥ length` reproduces the
Python slicing loop `range(0, len(l), n)` for `n ≥ 1`). -/
def chunksAux (n : Nat) : Nat → List α → List (List α)
  | _, [] => []
  | 0, l => [l]
  | fuel + 1, a :: as => (a :: as.take (n - 1)) :: chunksAux n fuel (as.drop (n - 1))

def chunks (n : Nat) (l : List α) : List (List α) := chunksAux n l.length l

/-- Chunks of size `n` paired with the start index of each chunk
(for the super-root, whose entries carry `gstart`). -/
def chunksIdx (n : Nat) : Nat → Nat → List α → List (Nat × List α)
  | _, _, [] => []
  | 0, start, l => [(start, l)]
  | fuel + 1, start, a :: as =>
      (start, a :: as.take (n - 1)) :: chunksIdx n fuel (start + n) (as.drop (n - 1))

/-- Python `ISAMIndex._rebuild_directories`: recompute `dir_keys` (first
key of each bucket, placeholder if empty), `root` (per `root_factor`
group of buckets: max of the buckets' last keys, index of first bucket)
and `super_root` (per `super_factor` group of root entries: max key,
group start index). -/
def rebuildDirectories (s : State) : State :=
  let dk := s.leaves.map (fun b => match b.head? with
    | some e => e.1
    | none => placeholder)
  let leafMax : List (Int × Nat) := s.leaves.enum.map (fun p => ((match p.2.getLast? with
    | some e => e.1
    | none => placeholder), p.1))
  let root : List (Int × Nat) := if dk.isEmpty then []
    else (chunks s.root_factor leafMax).map
      (fun g => (listMax (g.map Prod.fst), (g.head?.map Prod.snd).getD 0))
  let superRoot : List (Int × Nat) := if root.isEmpty then []
    else (chunksIdx s.super_factor root.length 0 root).map
      (fun p => (listMax (p.2.map Prod.fst), p.1))
  { s with dir_keys := dk, root := root, super_root := superRoot }

/-- One step of `bisect_right`: binary search for the insertion point
to the right of existing entries equal to `key` (fuel-driven). -/
def bisectRightAux (l : List Int) (key : Int) : Nat → Nat → Nat → Nat
  | 0, lo, _ => lo
  | fuel + 1, lo, hi =>
      if lo < hi then
        let mid := (lo + hi) / 2
        if key < l.getD mid 0 then bisectRightAux l key fuel lo mid
        else bisectRightAux l key fuel (mid + 1) hi
      else lo

/-- Python `bisect_right(l, key)`. -/
def bisectRight (l : List Int) (key : Int) : Nat :=
  bisectRightAux l key (l.length + 1) 0 l.length

/-- Python `ISAMIndex._leaf_index_for_key`: bisect into `dir_keys`,
then clamp to `[0, len(leaves) - 1]`. -/
def leafIndexForKey (s : State) (key : Int) : Nat :=
  if s.dir_keys.isEmpty then 0
  else
    let idx : Int := (bisectRight s.dir_keys key : Int) - 1
    let idx := if idx < 0 then 0 else idx.toNat
    if idx ≥ s.leaves.length then s.leaves.length - 1 else idx

/-- Python `ISAMIndex.add`: append the row to the heap, descend to the
target bucket; insert in sorted position if the bucket has room
(updating `dir_keys` and rebuilding the directory when the key is a new
minimum or `dir_keys` is empty), otherwise insert in sorted position
into that bucket's overflow list.  The page index only depends on
`dir_keys` and `leaves`, so it is computed from `s` and the heap append
is carried into each resulting state. -/
def add (s : State) (key : Int) (row : Row) : State :=
  let off := s.heap.length
  let heap2 := s.heap ++ [row]
  let bi := leafIndexForKey s key
  let bucket := s.leaves.getD bi []
  if bucket.length < s.block_factor then
    let leaves2 := s.leaves.set bi (insertAfterLE (key, off) bucket)
    if s.dir_keys.isEmpty then
      rebuildDirectories { s with
        heap := heap2, leaves := leaves2,
        dir_keys := key :: List.replicate (s.leaves.length - 1) placeholder }
    else if key < s.dir_keys.getD bi 0 then
      rebuildDirectories { s with
        heap := heap2, leaves := leaves2,
        dir_keys := s.dir_keys.set bi key }
    else { s with heap := heap2, leaves := leaves2 }
  else
    { s with
      heap := heap2,
      overflow := fun j => if j = bi then insertAfterLE (key, off) (s.overflow bi)
        else s.overflow j }

/-- Stable sorted insertion by key (new element before strictly larger
keys, after earlier equal ones), the building block of `sortByKey`. -/
def sortInsert (e : Int × Row) : List (Int × Row) → List (Int × Row)
  | [] => [e]
  | x :: xs => if e.1 ≤ x.1 then e :: x :: xs else x :: sortInsert e xs

/-- Python `sorted(items, key=...)`: a stable ascending sort by key. -/
def sortByKey : List (Int × Row) → List (Int × Row)
  | [] => []
  | x :: xs => sortInsert x (sortByKey xs)

/-- Python `ISAMIndex.build_from_records`: sort the items by key, write
rows to a fresh heap, chunk the `(key, offset)` entries into pages of
`block_factor` (at least one, possibly empty, page), clear overflow and
rebuild the directory. -/
def buildFromRecords (s : State) (items : List (Int × Row)) : State :=
  let items := sortByKey items
  let heap := items.map Prod.snd
  let entries : List Entry := items.enum.map (fun p => (p.2.1, p.1))
  let leaves0 := chunks s.block_factor entries
  let leaves := if leaves0.isEmpty then [[]] else leaves0
  rebuildDirectories
    { s with leaves := leaves, overflow := fun _ => [], heap := heap }

end ISAM

/-! ## Record codec (`src/Utils/Registro.py`, class `RegistroType`)

`to_bytes`/`from_bytes` are embedded at byte level (bytes are `Nat`s
below 256, little-endian as `struct` produces on the target platform).
Fields cover the format characters `i`, `q`, `Q`, `d`, `b`, `?`, `Ns`;
Python `float` values of a `d` field are carried as their IEEE-754
binary64 bit pattern, which `struct.pack`/`unpack` move verbatim, and
`math.isnan` becomes the bit-pattern NaN test.  Text values are carried
as their UTF-8 byte strings.  The 4-byte `f` format, whose encode step
rounds binary64 to binary32, is outside this embedding. -/

namespace Registro

inductive FieldType where
  | int32
  | int64
  | uint64
  | float32
  | float64
  | int8
  | boolean
  | text (n : Nat)
deriving DecidableEq

inductive Value where
  | vint (n : Int)
  | vfloat (bits : Nat)
  | vbool (b : Bool)
  | vbytes (bs : List Nat)
  | vnone
deriving DecidableEq

abbrev Schema := List FieldType

/-- Byte width of a field (`struct.calcsize` of its format character). -/
def fieldSize : FieldType → Nat
  | .int32 => 4
  | .int64 => 8
  | .uint64 => 8
  | .float32 => 4
  | .float64 => 8
  | .int8 => 1
  | .boolean => 1
  | .text n => n

/-- Total record size (`struct.calcsize(self.struct_format)`). -/
def size (sch : Schema) : Nat := (sch.map fieldSize).sum

/-- Little-endian bytes of `v mod 2^(8w)`, width `w`. -/
def natToBytesLE : Nat → Nat → List Nat
  | 0, _ => []
  | w + 1, v => v % 256 :: natToBytesLE w (v / 256)

/-- Value of a little-endian byte string. -/
def bytesToNatLE : List Nat → Nat
  | [] => 0
  | b :: bs => b + 256 * bytesToNatLE bs

/-- Two's-complement bit pattern of `n` at width `w`. -/
def toUnsigned (w : Nat) (n : Int) : Nat := (n % ((2 ^ (8 * w) : Nat) : Int)).toNat

/-- Signed reading of a width-`w` little-endian byte string. -/
def decodeSigned (w : Nat) (bs : List Nat) : Int :=
  let u := bytesToNatLE bs
  if u < 2 ^ (8 * w - 1) then (u : Int) else (u : Int) - ((2 ^ (8 * w) : Nat) : Int)

/-- IEEE-754 binary64 NaN test on the bit pattern (`math.isnan`). -/
def isNan64 (u : Nat) : Bool := decide ((u / 2 ^ 52) % 2 ^ 11 = 2047) && decide (u % 2 ^ 52 ≠ 0)

/-- Python `bytes.rstrip(b"\x00")` / `str.rstrip("\x00")` at byte level. -/
def dropTrailingZeros (l : List Nat) : List Nat :=
  (l.reverse.dropWhile (fun b => b == 0)).reverse

/-- Floor base-2 logarithm by structural recursion on a step budget
(64 steps cover every value below `2^64`), so that it reduces in the
kernel. -/
def log2Aux : Nat → Nat → Nat
  | 0, _ => 0
  | fuel + 1, n => if n < 2 then 0 else log2Aux fuel (n / 2) + 1

/-- Floor base-2 logarithm of a 64-bit value. -/
def log2w (n : Nat) : Nat := log2Aux 64 n

/-- Round to nearest, ties to even: `M / 2^shift` as a real number,
rounded to the nearest integer. -/
def rtneShift (M : Nat) (shift : Nat) : Nat :=
  if shift = 0 then M
  else
    let q := M / 2 ^ shift
    let r := M % 2 ^ shift
    let half := 2 ^ (shift - 1)
    if r < half then q
    else if half < r then q + 1
    else if q % 2 = 0 then q else q + 1

/-- The IEEE-754 binary64-to-binary32 conversion performed by
`struct.pack("f", x)` on the bit patterns: round to nearest even;
`none` when a finite double overflows the binary32 range (Python raises
`OverflowError`); infinities and NaNs carry over. -/
def packFloat32 (u : Nat) : Option Nat :=
  let s := u / 2 ^ 63
  let e := u / 2 ^ 52 % 2 ^ 11
  let m := u % 2 ^ 52
  if e = 2047 then
    if m = 0 then some (s * 2 ^ 31 + 255 * 2 ^ 23)
    else some (s * 2 ^ 31 + 255 * 2 ^ 23 +
      (if m / 2 ^ 29 = 0 then 2 ^ 22 else m / 2 ^ 29))
  else
    let M := if e = 0 then m else 2 ^ 52 + m
    if M = 0 then some (s * 2 ^ 31)
    else
      let E2 := e - 1
      let L := log2w M
      if L + E2 ≤ 947 then
        some (s * 2 ^ 31 +
          (if 925 ≤ E2 then M * 2 ^ (E2 - 925) else rtneShift M (925 - E2)))
      else
        let c := L + E2 - 947
        let n := if L ≤ 23 then M * 2 ^ (23 - L) else rtneShift M (L - 23)
        if n = 2 ^ 24 then
          if 255 ≤ c + 1 then none else some (s * 2 ^ 31 + (c + 1) * 2 ^ 23)
        else
          if 255 ≤ c then none else some (s * 2 ^ 31 + c * 2 ^ 23 + (n - 2 ^ 23))

/-- The exact binary32-to-binary64 widening performed by
`struct.unpack("f", ...)` on the bit patterns. -/
def unpackFloat32 (v : Nat) : Nat :=
  let s := v / 2 ^ 31
  let c := v / 2 ^ 23 % 2 ^ 8
  let t := v % 2 ^ 23
  if c = 255 then s * 2 ^ 63 + 2047 * 2 ^ 52 + t * 2 ^ 29
  else if c = 0 then
    if t = 0 then s * 2 ^ 63
    else
      let L := log2w t
      s * 2 ^ 63 + (L + 874) * 2 ^ 52 + (t - 2 ^ L) * 2 ^ (52 - L)
  else s * 2 ^ 63 + (c + 896) * 2 ^ 52 + t * 2 ^ 29

/-- Encoding of one field value per `RegistroType.to_bytes`:
`struct.pack` of the numeric formats (failing out of range), the byte 1
or 0 for `?`, truncation to `n` bytes then zero-padding for `Ns` (any
non-string value of a text field packs as `n` zero bytes). -/
def encodeField : FieldType → Value → Option (List Nat)
  | .int32, .vint n =>
      if -2147483648 ≤ n ∧ n < 2147483648 then some (natToBytesLE 4 (toUnsigned 4 n)) else none
  | .int64, .vint n =>
      if -9223372036854775808 ≤ n ∧ n < 9223372036854775808 then
        some (natToBytesLE 8 (toUnsigned 8 n)) else none
  | .uint64, .vint n =>
      if 0 ≤ n ∧ n < 18446744073709551616 then some (natToBytesLE 8 n.toNat) else none
  | .int8, .vint n =>
      if -128 ≤ n ∧ n < 128 then some (natToBytesLE 1 (toUnsigned 1 n)) else none
  | .float32, .vfloat bits =>
      if bits < 18446744073709551616 then
        match packFloat32 bits with
        | some v => some (natToBytesLE 4 v)
        | none => none
      else none
  | .float64, .vfloat bits =>
      if bits < 18446744073709551616 then some (natToBytesLE 8 bits) else none
  | .boolean, .vbool b => some [if b then 1 else 0]
  | .text n, .vbytes bs =>
      some (bs.take n ++ List.replicate (n - (bs.take n).length) 0)
  | .text n, _ => some (List.replicate n 0)
  | _, _ => none

/-- Decoding of one field from exactly its bytes per
`RegistroType.from_bytes`: `struct.unpack` of the format, then the NULL
sentinel checks (`-2147483648` for `i`/`q`/`Q`, NaN for `d`, `-128` for
`b`) and trailing-zero stripping for `Ns`. -/
def decodeField : FieldType → List Nat → Value
  | .int32, bs =>
      let v := decodeSigned 4 bs
      if v = -2147483648 then .vnone else .vint v
  | .int64, bs =>
      let v := decodeSigned 8 bs
      if v = -2147483648 then .vnone else .vint v
  | .uint64, bs =>
      let u := bytesToNatLE bs
      if (u : Int) = -2147483648 then .vnone else .vint u
  | .int8, bs =>
      let v := decodeSigned 1 bs
      if v = -128 then .vnone else .vint v
  | .float32, bs =>
      let d := unpackFloat32 (bytesToNatLE bs)
      if isNan64 d then .vnone else .vfloat d
  | .float64, bs =>
      let u := bytesToNatLE bs
      if isNan64 u then .vnone else .vfloat u
  | .boolean, bs => .vbool (bytesToNatLE bs != 0)
  | .text _, bs => .vbytes (dropTrailingZeros bs)

/-- Python `RegistroType.to_bytes`: concatenated field encodings
(extra trailing record values are ignored, missing ones fail). -/
def to_bytes : Schema → List Value → Option (List Nat)
  | [], _ => some []
  | _ :: _, [] => none
  | ft :: fts, v :: vs => do
      let b ← encodeField ft v
      let rest ← to_bytes fts vs
      pure (b ++ rest)

/-- Field-by-field split of the byte stream, as `struct.unpack` of the
concatenated format string performs. -/
def fromBytesAux : Schema → List Nat → List Value
  | [], _ => []
  | ft :: fts, data =>
      decodeField ft (data.take (fieldSize ft)) :: fromBytesAux fts (data.drop (fieldSize ft))

/-- Python `RegistroType.from_bytes`: fails when fewer than `size`
bytes are supplied, else decodes `data[:size]`. -/
def from_bytes (sch : Schema) (data : List Nat) : Option (List Value) :=
  if data.length < size sch then none else some (fromBytesAux sch data)

end Registro

/-! ## Extendible hashing (`src/extendible_hashing/extendible_hashing.py`,
classes `DiskBucket` and `DiskExtendibleHashing`)

Keys and values are `Nat`; the 128-bit MD5 value of a key is an
arbitrary function `hash : Nat → Nat`, so `_get_index` (the lowest
`global_depth` bits) is `hash key % 2 ^ global_depth` and the split
decision bit `bits[-new_ld]` is `hash key / 2 ^ (new_ld - 1) % 2`.
Bucket files become a total function from bucket id to bucket record
(ids at or above `next_bucket_id` hold the initial default and are
never referenced by reachable states); bucket id `0` doubles as the
"no next" sentinel exactly as in the source.  Python dicts are ordered
association lists with overwrite-in-place insertion. -/

namespace EH

structure Bucket where
  local_depth : Nat
  is_overflow : Bool
  next_bucket_id : Nat
  items : List (Nat × Nat)

structure State where
  bucket_capacity : Nat
  global_depth : Nat
  max_global_depth : Nat
  next_bucket_id : Nat
  directory : List Nat
  buckets : Nat → Bucket

/-- Python `key in d` on a dict. -/
def containsKey (k : Nat) : List (Nat × Nat) → Bool
  | [] => false
  | p :: rest => p.1 == k || containsKey k rest

/-- Python `d[k] = v`: overwrite in place, else append. -/
def dictInsert (k v : Nat) : List (Nat × Nat) → List (Nat × Nat)
  | [] => [(k, v)]
  | p :: rest => if p.1 = k then (k, v) :: rest else p :: dictInsert k v rest

/-- Python `d.update(d2)`. -/
def dictUpdate (d d2 : List (Nat × Nat)) : List (Nat × Nat) :=
  d2.foldl (fun acc p => dictInsert p.1 p.2 acc) d

/-- Python `DiskBucket.is_full`: `len(items) >= capacity`. -/
def bucketFull (cap : Nat) (b : Bucket) : Bool := cap ≤ b.items.length

/-- The `_init_` state: `2^initial_global_depth` empty buckets with
ids `0 .. 2^gd0 - 1` and local depth `gd0` (or `1` when `gd0 ≤ 1`). -/
def initState (cap gd0 mgd : Nat) : State :=
  { bucket_capacity := cap, global_depth := gd0, max_global_depth := mgd,
    next_bucket_id := 2 ^ gd0,
    directory := List.range (2 ^ gd0),
    buckets := fun _ =>
      { local_depth := if gd0 > 1 then gd0 else 1, is_overflow := false,
        next_bucket_id := 0, items := [] } }

/-- The dedup/last-bucket scan of `DiskExtendibleHashing.add`
(`while bid != 0`): returns the chain bucket already holding the key,
if any, together with the last recorded bucket id whose `next` is the
sentinel (initially the primary id). -/
def chainScan (s : State) (key : Nat) : Nat → Nat → Nat → Option Nat × Nat
  | 0, _, lastBid => (none, lastBid)
  | fuel + 1, bid, lastBid =>
      if bid = 0 then (none, lastBid)
      else
        let b := s.buckets bid
        if containsKey key b.items then (some bid, lastBid)
        else
          chainScan s key fuel b.next_bucket_id
            (if b.next_bucket_id = 0 then bid else lastBid)

/-- The chain walk of `_gather_chain_items` after the primary bucket:
accumulate each overflow bucket's items with dict-update semantics
(the overflow files are deleted, which the total bucket map keeps as
unreachable garbage). -/
def gatherRest (s : State) : Nat → Nat → List (Nat × Nat) → List (Nat × Nat)
  | 0, _, acc => acc
  | fuel + 1, bid, acc =>
      if bid = 0 then acc
      else
        let b := s.buckets bid
        gatherRest s fuel b.next_bucket_id (dictUpdate acc b.items)

/-- Python `_gather_chain_items`: all chain items, and the state with
the primary bucket emptied and unlinked (its saved local depth is the
one loaded from disk, not the caller's in-memory bump). -/
def gatherChainItems (s : State) (bid : Nat) : List (Nat × Nat) × State :=
  let b := s.buckets bid
  let items := gatherRest s (s.next_bucket_id + 1) b.next_bucket_id (dictUpdate [] b.items)
  (items,
    { s with buckets := fun j => if j = bid then
        { b with items := [], next_bucket_id := 0 } else s.buckets j })

/-- Python `_double_directory`: duplicate every slot, bump the depth. -/
def doubleDirectory (s : State) : State :=
  { s with directory := s.directory ++ s.directory,
           global_depth := s.global_depth + 1 }

/-- Python `_split_bucket`: allocate two buckets of local depth
`old + 1`, gather the chain's items, redistribute them by the decision
bit `bits[-new_ld]`, and repoint every directory slot that referenced
the split bucket according to bit `new_ld - 1` of the slot index. -/
def splitBucket (hash : Nat → Nat) (s : State) (bucket_id : Nat) : State :=
  let primary := s.buckets bucket_id
  let new_ld := primary.local_depth + 1
  let bid1 := s.next_bucket_id
  let bid2 := s.next_bucket_id + 1
  let s1 : State := { s with
    next_bucket_id := s.next_bucket_id + 2,
    buckets := fun j =>
      if j = bid1 ∨ j = bid2 then
        { local_depth := new_ld, is_overflow := false, next_bucket_id := 0, items := [] }
      else s.buckets j }
  let gathered := gatherChainItems s1 bucket_id
  let s2 := gathered.2
  let split := gathered.1.foldl
    (fun (acc : List (Nat × Nat) × List (Nat × Nat)) p =>
      if hash p.1 / 2 ^ (new_ld - 1) % 2 = 0 then (dictInsert p.1 p.2 acc.1, acc.2)
      else (acc.1, dictInsert p.1 p.2 acc.2))
    ([], [])
  let dir2 := s2.directory.enum.map (fun p =>
    if p.2 = bucket_id then (if p.1 / 2 ^ (new_ld - 1) % 2 = 1 then bid2 else bid1)
    else p.2)
  { s2 with
    directory := dir2,
    buckets := fun j =>
      if j = bid1 then
        { local_depth := new_ld, is_overflow := false,
          next_bucket_id := 0, items := split.1 }
      else if j = bid2 then
        { local_depth := new_ld, is_overflow := false,
          next_bucket_id := 0, items := split.2 }
      else s2.buckets j }

/-- Python `DiskExtendibleHashing.add`, with explicit recursion fuel
for the retry after a split (fuel `0` returns the state unchanged; any
fuel large enough to complete the retries reproduces the source). -/
def addFuel (hash : Nat → Nat) : Nat → State → Nat → Nat → State
  | 0, s, _, _ => s
  | fuel + 1, s, key, value =>
      let idx := hash key % 2 ^ s.global_depth
      let bucket_id := s.directory.getD idx 0
      let scan := chainScan s key (s.next_bucket_id + 1) bucket_id bucket_id
      match scan.1 with
      | some bid =>
          { s with buckets := fun j => if j = bid then
              { s.buckets bid with items := dictInsert key value (s.buckets bid).items }
            else s.buckets j }
      | none =>
          let lastBid := scan.2
          if ¬ bucketFull s.bucket_capacity (s.buckets lastBid) then
            { s with buckets := fun j => if j = lastBid then
                { s.buckets lastBid with
                  items := dictInsert key value (s.buckets lastBid).items }
              else s.buckets j }
          else
            let primary := s.buckets bucket_id
            if primary.local_depth < s.global_depth then
              addFuel hash fuel (splitBucket hash s bucket_id) key value
            else if primary.local_depth = s.global_depth ∧
                s.global_depth < s.max_global_depth then
              addFuel hash fuel (splitBucket hash (doubleDirectory s) bucket_id) key value
            else
              let newBid := s.next_bucket_id
              { s with
                next_bucket_id := s.next_bucket_id + 1,
                buckets := fun j =>
                  if j = newBid then
                    { local_depth := primary.local_depth, is_overflow := true,
                      next_bucket_id := 0, items := [(key, value)] }
                  else if j = lastBid then
                    { s.buckets lastBid with next_bucket_id := newBid }
                  else s.buckets j }

/-- A sequence of `add` calls (each with its own recursion fuel). -/
def applyAdds (hash : Nat → Nat) (ops : List (Nat × Nat × Nat)) (s : State) : State :=
  ops.foldl (fun acc op => addFuel hash op.1 acc op.2.1 op.2.2) s

/-- A bucket id reachable from a directory slot, following overflow
chains through nonzero `next_bucket_id` links. -/
inductive ReachableBucket (s : State) : Nat → Prop where
  | dir (bid : Nat) : bid ∈ s.directory → ReachableBucket s bid
  | next (bid : Nat) : ReachableBucket s bid →
      (s.buckets bid).next_bucket_id ≠ 0 →
      ReachableBucket s (s.buckets bid).next_bucket_id

/-- The directory/depth invariant of the claim, plus the freshness of
unallocated ids that the operations maintain alongside it. -/
def Inv (s : State) : Prop :=
  s.directory.length = 2 ^ s.global_depth ∧
  (∀ bid, ReachableBucket s bid → (s.buckets bid).local_depth ≤ s.global_depth) ∧
  (∀ bid, ReachableBucket s bid → bid < s.next_bucket_id)

end EH

/-! ## B+Tree (`src/b_plus_tree/bplustree.py`, classes `BPlusTreeNode`,
`BPlusFile`, `BPlusTree`)

Disk nodes addressed by numeric id become a list `Store` indexed by id:
`write_node` with an explicit id is `List.set`, allocation
(`_get_next_node_id`, max existing id + 1) appends at `store.length`,
which coincides for the contiguously allocated stores the tree produces.
The single Python `node.keys` field holds `(key, ref)` pairs in leaves
and bare separator keys in internal nodes; the embedding splits it into
`pairs` and `keys`.  Payload references are `Nat`; `next_leaf` keeps the
`-1` sentinel as an `Int`.  Recursive descents carry fuel; `none`
results stand for the unbounded recursion or a failed `read_node`,
neither of which occurs on well-formed trees with fuel
`store.length + 1`. -/

namespace BPT

structure Node where
  is_leaf : Bool
  block_factor : Nat
  pairs : List (Int × Nat)
  keys : List Int
  children : List Nat
  next_leaf : Int
  size : Nat

abbrev Store := List Node

structure Tree where
  order : Nat
  store : Store
  root_id : Nat

/-- The constructor's state: one empty leaf written at id 0. -/
def emptyTree (order : Nat) : Tree :=
  { order := order,
    store := [{ is_leaf := true, block_factor := order, pairs := [], keys := [],
                children := [], next_leaf := -1, size := 0 }],
    root_id := 0 }

/-- Stable sorted insertion of a pair by key (earlier elements stay
before equal keys). -/
def sortPairInsert (e : Int × Nat) : List (Int × Nat) → List (Int × Nat)
  | [] => [e]
  | x :: xs => if e.1 ≤ x.1 then e :: x :: xs else x :: sortPairInsert e xs

/-- Python `node.keys.sort(key=lambda x: x[0])`: a stable ascending
sort by key. -/
def sortPairs : List (Int × Nat) → List (Int × Nat)
  | [] => []
  | x :: xs => sortPairInsert x (sortPairs xs)

/-- Python `list.insert(i, a)` (position clamped to the length). -/
def insertAt : Nat → α → List α → List α
  | 0, a, l => a :: l
  | _ + 1, a, [] => [a]
  | n + 1, a, x :: xs => x :: insertAt n a xs

/-- The descent loop `while i < node.size and node.keys[i] < key`:
the first separator index whose key is not below the search key. -/
def descendIndex (node : Node) (key : Int) : Nat :=
  ((node.keys.take node.size).takeWhile (fun x => x < key)).length

/-- The leaf scan of `_search_aux`: first pair with the exact key. -/
def lookupPair (key : Int) : List (Int × Nat) → Option Nat
  | [] => none
  | p :: rest => if p.1 = key then some p.2 else lookupPair key rest

/-- Python `BPlusTree._insert_aux`.  The returned
`Option (Int × Nat)` is the `(split, new_key, new_pointer)` triple:
`none` for `(False, None, -1)` and `some (new_key, new_id)` for a
split. -/
def insertAux (order : Nat) : Nat → Store → Nat → Int → Nat →
    Option (Store × Option (Int × Nat))
  | 0, _, _, _, _ => none
  | fuel + 1, store, node_id, key, ptr =>
      match store.get? node_id with
      | none => none
      | some node =>
          if node.is_leaf then
            let pairs2 := sortPairs (node.pairs ++ [(key, ptr)])
            let size2 := pairs2.length
            if ¬ size2 > node.block_factor then
              some (store.set node_id
                { node with pairs := pairs2, size := size2 }, none)
            else
              let mid := size2 / 2
              let left := pairs2.take mid
              let right := pairs2.drop mid
              let newNode : Node :=
                { is_leaf := true, block_factor := order, pairs := right,
                  keys := [], children := [], next_leaf := node.next_leaf,
                  size := right.length }
              let newId := store.length
              let store2 := (store ++ [newNode]).set node_id
                { node with
                  pairs := left, size := left.length,
                  next_leaf := (newId : Int) }
              some (store2, some (((right.head?.map Prod.fst).getD 0, newId)))
          else
            let i := descendIndex node key
            match store.get? node_id, node.children.get? i with
            | _, none => none
            | _, some child =>
                match insertAux order fuel store child key ptr with
                | none => none
                | some (store2, none) => some (store2, none)
                | some (store2, some (upKey, newPtr)) =>
                    let keys2 := insertAt i upKey node.keys
                    let children2 := insertAt (i + 1) newPtr node.children
                    let size2 := node.size + 1
                    if ¬ size2 > node.block_factor then
                      some (store2.set node_id
                        { node with
                          keys := keys2, children := children2,
                          size := size2 }, none)
                    else
                      let mid := size2 / 2
                      let upKey2 := keys2.getD mid 0
                      let leftKeys := keys2.take mid
                      let rightKeys := keys2.drop (mid + 1)
                      let leftChildren := children2.take (mid + 1)
                      let rightChildren := children2.drop (mid + 1)
                      let newNode : Node :=
                        { is_leaf := false, block_factor := order, pairs := [],
                          keys := rightKeys, children := rightChildren,
                          next_leaf := -1, size := rightKeys.length }
                      let newId := store2.length
                      let store3 := (store2 ++ [newNode]).set node_id
                        { node with
                          keys := leftKeys, children := leftChildren,
                          size := leftKeys.length }
                      some (store3, some (upKey2, newId))

/-- Python `BPlusTree.add`: insert from the root; on a root split,
allocate a new internal root over the two halves. -/
def add (t : Tree) (key : Int) (ptr : Nat) : Option Tree :=
  match insertAux t.order (t.store.length + 1) t.store t.root_id key ptr with
  | none => none
  | some (store2, none) => some { t with store := store2 }
  | some (store2, some (upKey, newPtr)) =>
      let newRoot : Node :=
        { is_leaf := false, block_factor := t.order, pairs := [],
          keys := [upKey], children := [t.root_id, newPtr],
          next_leaf := -1, size := 1 }
      some { t with store := store2 ++ [newRoot], root_id := store2.length }

/-- Python `BPlusTree._search_aux`. The outer `Option` is the failure
monad of the embedding; the inner one is the Python result
(`ref` or `None`). -/
def searchAux : Nat → Store → Nat → Int → Option (Option Nat)
  | 0, _, _, _ => none
  | fuel + 1, store, node_id, key =>
      match store.get? node_id with
      | none => none
      | some node =>
          if node.is_leaf then some (lookupPair key node.pairs)
          else
            match node.children.get? (descendIndex node key) with
            | none => none
            | some child => searchAux fuel store child key

/-- Python `BPlusTree.search`. -/
def search (t : Tree) (key : Int) : Option (Option Nat) :=
  searchAux (t.store.length + 1) t.store t.root_id key

/-- Python `BPlusTree._delete_aux`: filter the key out of the leaf the
descent reaches. -/
def deleteAux : Nat → Store → Nat → Int → Option Store
  | 0, _, _, _ => none
  | fuel + 1, store, node_id, key =>
      match store.get? node_id with
      | none => none
      | some node =>
          if node.is_leaf then
            let pairs2 := node.pairs.filter (fun p => p.1 ≠ key)
            some (store.set node_id
              { node with pairs := pairs2, size := pairs2.length })
          else
            match node.children.get? (descendIndex node key) with
            | none => none
            | some child =>
                match deleteAux fuel store child key with
                | none => none
                | some store2 => some store2

/-- Python `BPlusTree.remove`: delete, then collapse an empty internal
root onto its first child. -/
def remove (t : Tree) (key : Int) : Option Tree :=
  match deleteAux (t.store.length + 1) t.store t.root_id key with
  | none => none
  | some store2 =>
      match store2.get? t.root_id with
      | none => none
      | some root =>
          if ¬ root.is_leaf ∧ root.size = 0 then
            match root.children.head? with
            | some c => some { t with store := store2, root_id := c }
            | none => some { t with store := store2 }
          else some { t with store := store2 }

/-- Python `BPlusTree._find_first_leaf`: follow `children[0]`. -/
def findFirstLeaf : Nat → Store → Nat → Option Nat
  | 0, _, _ => none
  | fuel + 1, store, node_id =>
      match store.get? node_id with
      | none => none
      | some node =>
          if node.is_leaf then some node_id
          else
            match node.children.head? with
            | none => none
            | some c => findFirstLeaf fuel store c

/-- The `while current_id != -1` loop of `get_all`: collect each leaf's
pairs along the `next_leaf` chain. -/
def chainCollect (store : Store) : Nat → Int → Option (List (Int × Nat))
  | 0, _ => none
  | fuel + 1, current =>
      if current = -1 then some []
      else if current < 0 then none
      else
        match store.get? current.toNat with
        | none => none
        | some node =>
            (chainCollect store fuel node.next_leaf).map (fun rest => node.pairs ++ rest)

/-- Python `BPlusTree.get_all`. -/
def get_all (t : Tree) : Option (List (Int × Nat)) :=
  match findFirstLeaf (t.store.length + 1) t.store t.root_id with
  | none => none
  | some leaf => chainCollect t.store (t.store.length + 1) (leaf : Int)

/-!  Abstraction used by the theorems: a `View` is the finite unfolding
of the id graph, `Rep` says the store realizes it, and `Chain` states
the leaf chain linkage. -/

inductive View where
  | leaf (id : Nat) (pairs : List (Int × Nat))
  | node (id : Nat) (keys : List Int) (children : List View)

/-- Root id of a view. -/
def vid : View → Nat
  | .leaf i _ => i
  | .node i _ _ => i

mutual
/-- All node ids of a view, root first. -/
def ids : View → List Nat
  | .leaf i _ => [i]
  | .node i _ cs => i :: idsList cs

def idsList : List View → List Nat
  | [] => []
  | v :: vs => ids v ++ idsList vs
end

mutual
/-- The `(leaf id, pairs)` sequence in left-to-right order. -/
def leafSeq : View → List (Nat × List (Int × Nat))
  | .leaf i ps => [(i, ps)]
  | .node _ _ cs => leafSeqList cs

def leafSeqList : List View → List (Nat × List (Int × Nat))
  | [] => []
  | v :: vs => leafSeq v ++ leafSeqList vs
end

mutual
/-- Height of a view. -/
def height : View → Nat
  | .leaf _ _ => 0
  | .node _ _ cs => heightList cs + 1

def heightList : List View → Nat
  | [] => 0
  | v :: vs => max (height v) (heightList vs)
end

/-- Leaf ids in left-to-right order. -/
def leafIds (v : View) : List Nat := (leafSeq v).map Prod.fst

/-- All leaf pairs in left-to-right order. -/
def flatten (v : View) : List (Int × Nat) := ((leafSeq v).map Prod.snd).flatten

/-- The `next_leaf` pointer stored at a node id (`-2` when the id does
not exist, an impossible id value). -/
def nextOf (store : Store) (l : Nat) : Int :=
  ((store.get? l).map Node.next_leaf).getD (-2)

/-- First element of an id list as an `Int` pointer, or `after` when
the list is empty. -/
def headOr (after : Int) : List Nat → Int
  | [] => after
  | l :: _ => (l : Int)

/-- The ids form a `next_leaf` chain ending at `after`. -/
def Chain (store : Store) : List Nat → Int → Prop
  | [], _ => True
  | l :: rest, after => nextOf store l = headOr after rest ∧ Chain store rest after

/-! Named forms of the intermediate values of `_insert_aux` (the `let`s
of the Python function), used to state its step equations. -/

def leafPairs2 (node : Node) (k : Int) (r : Nat) : List (Int × Nat) :=
  sortPairs (node.pairs ++ [(k, r)])

def leafNoSplitNode (node : Node) (k : Int) (r : Nat) : Node :=
  { node with
    pairs := leafPairs2 node k r,
    size := (leafPairs2 node k r).length }

def leafMid (node : Node) (k : Int) (r : Nat) : Nat :=
  (leafPairs2 node k r).length / 2

def leafLeft (node : Node) (k : Int) (r : Nat) : List (Int × Nat) :=
  (leafPairs2 node k r).take (leafMid node k r)

def leafRight (node : Node) (k : Int) (r : Nat) : List (Int × Nat) :=
  (leafPairs2 node k r).drop (leafMid node k r)

def leafSplitNewNode (order : Nat) (node : Node) (k : Int) (r : Nat) : Node :=
  { is_leaf := true,
    block_factor := order,
    pairs := leafRight node k r,
    keys := [],
    children := [],
    next_leaf := node.next_leaf,
    size := (leafRight node k r).length }

def leafSplitLeftNode (node : Node) (k : Int) (r : Nat) (newId : Nat) : Node :=
  { node with
    pairs := leafLeft node k r,
    size := (leafLeft node k r).length,
    next_leaf := (newId : Int) }

def leafUpKey (node : Node) (k : Int) (r : Nat) : Int :=
  ((leafRight node k r).head?.map Prod.fst).getD 0

def nodeKeys2 (node : Node) (k up : Int) : List Int :=
  insertAt (descendIndex node k) up node.keys

def nodeChildren2 (node : Node) (k : Int) (newPtr : Nat) : List Nat :=
  insertAt (descendIndex node k + 1) newPtr node.children

def nodeNoSplitNode (node : Node) (k up : Int) (newPtr : Nat) : Node :=
  { node with
    keys := nodeKeys2 node k up,
    children := nodeChildren2 node k newPtr,
    size := node.size + 1 }

def nodeMid (node : Node) : Nat := (node.size + 1) / 2

def nodeUpKey2 (node : Node) (k up : Int) : Int :=
  (nodeKeys2 node k up).getD (nodeMid node) 0

def nodeLeftNode (node : Node) (k up : Int) (newPtr : Nat) : Node :=
  { node with
    keys := (nodeKeys2 node k up).take (nodeMid node),
    children := (nodeChildren2 node k newPtr).take (nodeMid node + 1),
    size := ((nodeKeys2 node k up).take (nodeMid node)).length }

def nodeRightNode (order : Nat) (node : Node) (k up : Int) (newPtr : Nat) : Node :=
  { is_leaf := false,
    block_factor := order,
    pairs := [],
    keys := (nodeKeys2 node k up).drop (nodeMid node + 1),
    children := (nodeChildren2 node k newPtr).drop (nodeMid node + 1),
    next_leaf := -1,
    size := ((nodeKeys2 node k up).drop (nodeMid node + 1)).length }

/-- The fresh root allocated by `add` when the old root splits. -/
def rootSplitNode (order : Nat) (rootId newPtr : Nat) (up : Int) : Node :=
  { is_leaf := false,
    block_factor := order,
    pairs := [],
    keys := [up],
    children := [rootId, newPtr],
    next_leaf := -1,
    size := 1 }

/-- The store realizes a view: every view node is backed by a stored
node of the matching kind, internal sizes and child counts agree, and
children line up with the child views. -/
inductive Rep (store : Store) : View → Prop where
  | leaf (nid : Nat) (node : Node) :
      store.get? nid = some node → node.is_leaf = true →
      Rep store (.leaf nid node.pairs)
  | node (nid : Nat) (node : Node) (vs : List View) :
      store.get? nid = some node → node.is_leaf = false →
      node.size = node.keys.length →
      node.children.length = node.keys.length + 1 →
      node.children = vs.map vid →
      (∀ v ∈ vs, Rep store v) →
      Rep store (.node nid node.keys vs)

end BPT

/-! ### SequentialFile (`src/Sequential_Struct/sequential_file.py`)

The index file is the header triple `(pos_root, num_data, num_aux)` plus
a list of `IndexRecord`s; the backing heap is append-only, and records
are abstracted to their keys.  Loops carry explicit fuel, always
instantiated above the bound the Python control flow guarantees. -/

namespace SF

/-- One index-file record `[key, pos_heap, next]`: `next` is `-1` at the
chain end and `-2` for a logically deleted slot. -/
structure IndexRec where
  key : Int
  pos : Nat
  next : Int

/-- Index header and records plus the data heap of a `SequentialFile`. -/
structure State where
  pos_root : Int
  num_data : Nat
  num_aux : Nat
  index : List IndexRec
  max_aux_size : Nat
  heap : List Int

/-- Function `_read_index`; an out-of-range read yields a deleted-looking record. -/
def readIndex (index : List IndexRec) (p : Nat) : IndexRec :=
  (index.get? p).getD { key := 0, pos := 0, next := -2 }

/-- Key stored at an index slot. -/
def keyAt (index : List IndexRec) (p : Nat) : Int := (readIndex index p).key

/-- The fresh file: header `(-1, 0, 0)`, no records, empty heap. -/
def initState (maxAux : Nat) : State :=
  { pos_root := -1, num_data := 0, num_aux := 0, index := [],
    max_aux_size := maxAux, heap := [] }

/-- The downward walk shared by `_binary_search_prev`'s exact-match and
post-loop phases: first position at or below the start holding a live
key below the search key, else `pos_root`. -/
def bsFindPrev (s : State) (key : Int) : Nat → Int → Int
  | 0, _ => s.pos_root
  | fuel + 1, p =>
      if p < 0 then s.pos_root
      else
        let r := readIndex s.index p.toNat
        if r.next ≠ -2 ∧ r.key < key then p
        else bsFindPrev s key fuel (p - 1)

/-- The `while left <= right` loop of `_binary_search_prev`. -/
def bsLoop (s : State) (key : Int) : Nat → Int → Int → Int → Int
  | 0, _, _, prev => prev
  | fuel + 1, left, right, prev =>
      if left ≤ right then
        let mid := (left + right) / 2
        let r := readIndex s.index mid.toNat
        if r.next = -2 then
          if mid > 0 then bsLoop s key fuel left (mid - 1) prev
          else bsLoop s key fuel (mid + 1) right prev
        else if r.key = key then bsFindPrev s key ((mid - 1).toNat + 1) (mid - 1)
        else if r.key < key then bsLoop s key fuel (mid + 1) right mid
        else bsLoop s key fuel left (mid - 1) prev
      else bsFindPrev s key (prev.toNat + 1) prev

/-- Python `_binary_search_prev`. -/
def binarySearchPrev (s : State) (key : Int) : Int :=
  if s.pos_root = -1 then -1
  else if s.num_data = 0 then s.pos_root
  else
    let root := readIndex s.index s.pos_root.toNat
    if key ≤ root.key then s.pos_root
    else bsLoop s key (s.num_data + 2) 0 ((s.num_data : Int) - 1) s.pos_root

/-- The `while current_pos != -1` loop of `_linear_search`. -/
def lsLoop (index : List IndexRec) (key : Int) : Nat → Int → Int → Int × Int
  | 0, prev, _ => (prev, -1)
  | fuel + 1, prev, current =>
      if current = -1 then (prev, -1)
      else
        let r := readIndex index current.toNat
        if r.next = -2 then (prev, -1)
        else if r.key = key then (prev, current)
        else if r.key > key then (prev, -1)
        else lsLoop index key fuel current r.next

/-- Python `_linear_search`. -/
def linearSearch (s : State) (key : Int) (startPos : Int) (fuel : Nat) : Int × Int :=
  if startPos = -1 then (-1, -1)
  else if startPos = s.pos_root then
    let root := readIndex s.index s.pos_root.toNat
    if root.key = key then (-1, s.pos_root)
    else if root.key > key then (-1, -1)
    else lsLoop s.index key fuel s.pos_root root.next
  else lsLoop s.index key fuel (-1) startPos

/-- Python `_append_index`: write one record at slot
`num_data + num_aux` (the end of the file when the header counts the
records) and bump the auxiliary counter. -/
def appendIndex (s : State) (r : IndexRec) : State × Nat :=
  ({ s with index := s.index ++ [r], num_aux := s.num_aux + 1 },
    s.num_data + s.num_aux)

/-- The collection walk of `_reconstruct`. -/
def reconChain (s : State) : Nat → Int → List IndexRec
  | 0, _ => []
  | fuel + 1, current =>
      if current = -1 then []
      else if current < 0 then []
      else
        let r := readIndex s.index current.toNat
        (if r.next = -2 then [] else [r]) ++ reconChain s fuel r.next

/-- Rewriting pass of `_reconstruct`: record `i` points to `i + 1`, the
last one to `-1`. -/
def renumber : Nat → List IndexRec → List IndexRec
  | _, [] => []
  | _, [r] => [{ r with next := -1 }]
  | i, r :: rest => { r with next := ((i + 1 : Nat) : Int) } :: renumber (i + 1) rest

/-- Python `int(math.sqrt(n) + 0.5)`: the nearest integer to the square root. -/
def sqrtRound (n : Nat) : Nat := (Nat.sqrt (4 * n) + 1) / 2

/-- Python `_reconstruct`. -/
def reconstruct (s : State) : State :=
  if s.pos_root = -1 then s
  else
    let valid := reconChain s (s.index.length + 1) s.pos_root
    { s with
      pos_root := 0,
      num_data := valid.length,
      num_aux := 0,
      index := renumber 0 valid,
      max_aux_size := max 10 (sqrtRound valid.length) }

/-- The collection walk of `scan_all`, reading each live record from
the heap. -/
def scanChain (s : State) : Nat → Int → List Int
  | 0, _ => []
  | fuel + 1, current =>
      if current = -1 then []
      else if current < 0 then []
      else
        let r := readIndex s.index current.toNat
        (if r.next = -2 then [] else [(s.heap.get? r.pos).getD 0]) ++
          scanChain s fuel r.next

/-- Python `scan_all`. -/
def scan_all (s : State) : List Int :=
  if s.pos_root = -1 then [] else scanChain s (s.index.length + 1) s.pos_root

/-- Python `insert` (records abstracted to their keys). -/
def insert (s : State) (key : Int) : State × Bool :=
  if s.pos_root = -1 then
    let posHeap := s.heap.length
    let s1 := { s with heap := s.heap ++ [key] }
    let res := appendIndex s1 { key := key, pos := posHeap, next := -1 }
    ({ res.1 with pos_root := ((res.2 : Nat) : Int), num_data := 0, num_aux := 1 },
      true)
  else
    let prev0 := binarySearchPrev s key
    let pf := linearSearch s key prev0 (s.index.length + 1)
    if pf.2 ≠ -1 then (s, false)
    else
      let posHeap := s.heap.length
      let s1 := { s with heap := s.heap ++ [key] }
      let s3 : State :=
        if pf.1 = -1 then
          let res := appendIndex s1 { key := key, pos := posHeap, next := s.pos_root }
          { res.1 with pos_root := ((res.2 : Nat) : Int) }
        else
          let prevRec := readIndex s1.index pf.1.toNat
          let res := appendIndex s1 { key := key, pos := posHeap, next := prevRec.next }
          { res.1 with
            index := res.1.index.set pf.1.toNat
              { prevRec with next := ((res.2 : Nat) : Int) } }
      if s3.num_aux ≥ s3.max_aux_size then (reconstruct s3, true) else (s3, true)

/-- A whole insert-only run. -/
def applyInserts (keys : List Int) (s : State) : State :=
  keys.foldl (fun acc k => (insert acc k).1) s

/-- Python `delete` (logical deletion): locate the key by binary plus
linear search; unlink the record from the chain (rewriting the
predecessor's `next`, or the header root when it is first) and mark its
slot with `next = -2`; the header counts and the heap are untouched. -/
def delete (s : State) (key : Int) : State × Bool :=
  if s.pos_root = -1 then (s, false)
  else
    let prev0 := binarySearchPrev s key
    let pf := linearSearch s key prev0 (s.index.length + 1)
    if pf.2 = -1 then (s, false)
    else
      let toDel := readIndex s.index pf.2.toNat
      let s1 :=
        if pf.1 = -1 then { s with pos_root := toDel.next }
        else
          let prevRec := readIndex s.index pf.1.toNat
          { s with index := List.set s.index pf.1.toNat { key := prevRec.key, pos := prevRec.pos, next := toDel.next } }
      ({ s1 with index := List.set s1.index pf.2.toNat { key := toDel.key, pos := toDel.pos, next := -2 } }, true)

/-- The linked order as a list of positions, mirroring the `next`
pointers (`after` closes the last link). -/
def ChainL (index : List IndexRec) : List Nat → Int → Prop
  | [], _ => True
  | p :: rest, after =>
      (readIndex index p).next = BPT.headOr after rest ∧ ChainL index rest after

/-- Well-formedness of a `SequentialFile` state: `C` lists the chained
positions in linked order; the header counts the index records; the
chain starts at `pos_root` and carries strictly increasing keys; every
in-bounds slot off the chain is a deletion tombstone (`next = -2`); the
primary area is key-sorted by position (tombstones keep their keys);
every chained record's heap slot holds its key. -/
structure Inv (s : State) (C : List Nat) : Prop where
  hlen : s.index.length = s.num_data + s.num_aux
  hheaplen : s.index.length ≤ s.heap.length
  hroot : s.pos_root = BPT.headOr (-1) C
  hchain : ChainL s.index C (-1)
  hnodup : C.Nodup
  hbound : ∀ p ∈ C, p < s.index.length
  hlive : ∀ q : Nat, q < s.index.length → q ∉ C → (readIndex s.index q).next = -2
  hsorted : List.Pairwise (fun p q => keyAt s.index p < keyAt s.index q) C
  hprimary : ∀ q : Nat, q < s.num_data → ∀ p : Nat, p < q →
    keyAt s.index p < keyAt s.index q
  hheap : ∀ p ∈ C, (readIndex s.index p).pos < s.heap.length ∧
    s.heap.get? (readIndex s.index p).pos = some (readIndex s.index p).key

end SF

/-! ## Theorems -/

/-- A concrete B+Tree of order 3 built by adding keys 1, 2, 3, 4 with
payload references 11, 12, 13, 14: the fourth add splits the single
leaf and promotes key 3 as the root separator. -/
def bptFour : Option BPT.Tree :=
  (((BPT.add (BPT.emptyTree 3) 1 11).bind (fun t => BPT.add t 2 12)).bind
    (fun t => BPT.add t 3 13)).bind (fun t => BPT.add t 4 14)

/-- A concrete post-build ISAM state: two records, one primary page. -/
def isamTwoRecs : ISAM.State :=
  ISAM.buildFromRecords (ISAM.initState 4 8 8) [(10, 0), (20, 1)]

/-- A concrete post-build ISAM state whose single page is full
(`block_factor = 1`). -/
def isamFullPage : ISAM.State :=
  ISAM.buildFromRecords (ISAM.initState 1 8 8) [(10, 0)]

/-- A one-node, one-key tree used to instantiate the duplicate-insert
theorem: the leaf with id 0 holds the single pair `(5, 9)`. -/
def bptDemo : BPT.Tree :=
  { order := 3,
    store := [{ is_leaf := true,
                block_factor := 3,
                pairs := [(5, 9)],
                keys := [],
                children := [],
                next_leaf := -1,
                size := 1 }],
    root_id := 0 }

/-- A three-record `SequentialFile` state with a fully rebuilt primary
area (keys 10, 20, 30 at slots 0, 1, 2 with consecutive pointers), as a
reconstruction leaves it. -/
def sfDemo3 : SF.State :=
  { pos_root := 0, num_data := 3, num_aux := 0, max_aux_size := 100,
    index := [{ key := 10, pos := 0, next := 1 },
              { key := 20, pos := 1, next := 2 },
              { key := 30, pos := 2, next := -1 }],
    heap := [10, 20, 30] }

/-- The demo state after `delete 20`: slot 1 of the primary area is a
tombstone (`next = -2`), the chain links slot 0 directly to slot 2, and
the header still counts three records. -/
def sfDemoDel : SF.State := (SF.delete sfDemo3 20).1

/-- C4 counterexample: after bulk-building pages for keys `[10, 20]`,
`add(5, row)` rewrites the leaf-level minima: `dir_keys` changes from
`[10]` to `[5]` (and the root/super-root are rebuilt), so the directory
is not left unchanged by every post-build `add`. -/
theorem isam_add_changes_directory :
    ¬ ((ISAM.add isamTwoRecs 5 2).dir_keys = isamTwoRecs.dir_keys ∧
       (ISAM.add isamTwoRecs 5 2).root = isamTwoRecs.root ∧
       (ISAM.add isamTwoRecs 5 2).super_root = isamTwoRecs.super_root) := by
  intro h
  have h1 : (ISAM.add isamTwoRecs 5 2).dir_keys = [5] := by decide
  have h2 : isamTwoRecs.dir_keys = [10] := by decide
  rw [h1, h2] at h
  simp at h

/-- C4 amended: a post-build `add` leaves `dir_keys`, `root` and
`super_root` unchanged whenever `dir_keys` is nonempty and the inserted
key is not smaller than the target page's recorded minimum
`dir_keys[bi]` — this covers both the room-available and the
overflow path of `add`; the hypothesis cannot be dropped: the C4
counterexample exhibits an add (key `5` into a built index over
`[10, 20]`, undercutting a non-full page's minimum) that rewrites
`dir_keys` and rebuilds the directory. -/
theorem isam_add_directory_frame (s : ISAM.State) (key : Int) (row : ISAM.Row)
    (hne : s.dir_keys ≠ [])
    (hmin : s.dir_keys.getD (ISAM.leafIndexForKey s key) 0 ≤ key) :
    (ISAM.add s key row).dir_keys = s.dir_keys ∧
    (ISAM.add s key row).root = s.root ∧
    (ISAM.add s key row).super_root = s.super_root := by
  have h1 : s.dir_keys.isEmpty = false := by
    cases h : s.dir_keys with
    | nil => exact absurd h hne
    | cons a l => rfl
  have hlt : ¬ key < s.dir_keys.getD (ISAM.leafIndexForKey s key) 0 := not_lt.mpr hmin
  simp only [ISAM.add, h1, Bool.false_eq_true, if_false, hlt]
  split
  · exact ⟨rfl, rfl, rfl⟩
  · exact ⟨rfl, rfl, rfl⟩

/-- Witness for `isam_add_directory_frame`: adding key `25` to the
two-record index satisfies the hypotheses and leaves the directory
unchanged. -/
theorem isam_add_directory_frame_witness :
    isamTwoRecs.dir_keys ≠ [] ∧
    isamTwoRecs.dir_keys.getD (ISAM.leafIndexForKey isamTwoRecs 25) 0 ≤ 25 ∧
    ((ISAM.add isamTwoRecs 25 2).dir_keys = isamTwoRecs.dir_keys ∧
     (ISAM.add isamTwoRecs 25 2).root = isamTwoRecs.root ∧
     (ISAM.add isamTwoRecs 25 2).super_root = isamTwoRecs.super_root) :=
  ⟨by decide, by decide, isam_add_directory_frame isamTwoRecs 25 2 (by decide) (by decide)⟩

/-- Membership in a sorted insertion: the new entry or an old one. -/
theorem isam_insertAfterLE_mem (e a : ISAM.Entry) (l : List ISAM.Entry) :
    a ∈ ISAM.insertAfterLE e l ↔ a = e ∨ a ∈ l := by
  induction l with
  | nil => simp [ISAM.insertAfterLE]
  | cons x xs ih =>
      simp only [ISAM.insertAfterLE]
      split
      · simp only [List.mem_cons, ih]
        tauto
      · simp only [List.mem_cons]

/-- When every existing overflow key is at most the new key, the sorted
insertion degenerates to an append at the end of the list. -/
theorem isam_insertAfterLE_append (e : ISAM.Entry) (l : List ISAM.Entry)
    (h : ∀ x ∈ l, x.1 ≤ e.1) : ISAM.insertAfterLE e l = l ++ [e] := by
  induction l with
  | nil => rfl
  | cons x xs ih =>
      have hx : x.1 ≤ e.1 := h x (List.mem_cons_self x xs)
      simp only [ISAM.insertAfterLE, if_pos hx, List.cons_append]
      rw [ih (fun y hy => h y (List.mem_cons_of_mem x hy))]

/-- Sorted insertion preserves ascending key order. -/
theorem isam_insertAfterLE_sorted (e : ISAM.Entry) (l : List ISAM.Entry)
    (h : List.Sorted (· ≤ ·) (l.map Prod.fst)) :
    List.Sorted (· ≤ ·) ((ISAM.insertAfterLE e l).map Prod.fst) := by
  induction l with
  | nil => simp [ISAM.insertAfterLE]
  | cons x xs ih =>
      simp only [List.map_cons, List.sorted_cons] at h
      simp only [ISAM.insertAfterLE]
      split
      case isTrue hle =>
        simp only [List.map_cons, List.sorted_cons]
        refine ⟨?_, ih h.2⟩
        intro b hb
        simp only [List.mem_map] at hb
        obtain ⟨a, ha, rfl⟩ := hb
        rcases (isam_insertAfterLE_mem e a xs).mp ha with rfl | ha2
        · exact hle
        · exact h.1 a.1 (List.mem_map_of_mem Prod.fst ha2)
      case isFalse hgt =>
        have hel : e.1 ≤ x.1 := le_of_lt (lt_of_not_le hgt)
        simp only [List.map_cons, List.sorted_cons]
        refine ⟨?_, h.1, h.2⟩
        intro b hb
        rcases List.mem_cons.mp hb with rfl | hb2
        · exact hel
        · exact le_trans hel (h.1 b hb2)

/-- The sorted insertion places the new entry directly after the
longest prefix of entries with keys at most the new key (so equal keys
keep their arrival order). -/
theorem isam_insertAfterLE_eq_takeWhile (e : ISAM.Entry) : ∀ l : List ISAM.Entry,
    ISAM.insertAfterLE e l =
      l.takeWhile (fun x => x.1 ≤ e.1) ++ e :: l.dropWhile (fun x => x.1 ≤ e.1) := by
  intro l
  induction l with
  | nil => rfl
  | cons x xs ih =>
      simp only [ISAM.insertAfterLE]
      split
      case isTrue hle =>
        rw [List.takeWhile_cons_of_pos (by simpa using hle),
          List.dropWhile_cons_of_pos (by simpa using hle), ih]
        rfl
      case isFalse hgt =>
        rw [List.takeWhile_cons_of_neg (by simpa using hgt),
          List.dropWhile_cons_of_neg (by simpa using hgt)]
        rfl

/-- The sorted insertion degenerates to an append exactly when no
existing key exceeds the new one. -/
theorem isam_insertAfterLE_append_iff (e : ISAM.Entry) (l : List ISAM.Entry) :
    ISAM.insertAfterLE e l = l ++ [e] ↔ ∀ x ∈ l, x.1 ≤ e.1 := by
  constructor
  · induction l with
    | nil =>
        intro _ x hx
        simp at hx
    | cons x xs ih =>
        intro h y hy
        simp only [ISAM.insertAfterLE] at h
        split at h
        case isTrue hle =>
          rcases List.mem_cons.mp hy with rfl | hy2
          · exact hle
          · simp only [List.cons_append, List.cons.injEq] at h
            exact ih h.2 y hy2
        case isFalse hgt =>
          exfalso
          rw [List.cons_append] at h
          injection h with h1 h2
          rw [← h1] at hgt
          exact hgt (le_refl _)
  · exact isam_insertAfterLE_append e l

/-- C5 amended: when the target primary page is full, `add` inserts the
new `(key, heap-offset)` entry into that page's overflow list directly
after the longest prefix of entries with keys at most `key` (other
pages' overflow untouched): ascending key order is preserved, equal
keys stay in arrival order, and the entry lands at the end exactly when
its key is at least every key already in the overflow list. -/
theorem isam_overflow_sorted_insert (s : ISAM.State) (key : Int) (row : ISAM.Row)
    (hfull : ¬ (s.leaves.getD (ISAM.leafIndexForKey s key) []).length < s.block_factor) :
    (ISAM.add s key row).overflow (ISAM.leafIndexForKey s key)
      = ISAM.insertAfterLE (key, s.heap.length) (s.overflow (ISAM.leafIndexForKey s key)) ∧
    (∀ j, j ≠ ISAM.leafIndexForKey s key → (ISAM.add s key row).overflow j = s.overflow j) ∧
    ((ISAM.add s key row).overflow (ISAM.leafIndexForKey s key)
      = (s.overflow (ISAM.leafIndexForKey s key)).takeWhile (fun x => x.1 ≤ key) ++
        (key, s.heap.length) ::
          (s.overflow (ISAM.leafIndexForKey s key)).dropWhile (fun x => x.1 ≤ key)) ∧
    ((ISAM.add s key row).overflow (ISAM.leafIndexForKey s key)
        = s.overflow (ISAM.leafIndexForKey s key) ++ [(key, s.heap.length)] ↔
      ∀ e ∈ s.overflow (ISAM.leafIndexForKey s key), e.1 ≤ key) ∧
    (List.Sorted (· ≤ ·) ((s.overflow (ISAM.leafIndexForKey s key)).map Prod.fst) →
      List.Sorted (· ≤ ·)
        (((ISAM.add s key row).overflow (ISAM.leafIndexForKey s key)).map Prod.fst)) := by
  have hov : (ISAM.add s key row).overflow = fun j =>
      if j = ISAM.leafIndexForKey s key then
        ISAM.insertAfterLE (key, s.heap.length) (s.overflow (ISAM.leafIndexForKey s key))
      else s.overflow j := by
    simp only [ISAM.add, if_neg hfull]
  refine ⟨?_, ?_, ?_, ?_, ?_⟩
  · rw [hov]
    simp
  · intro j hj
    rw [hov]
    simp [hj]
  · rw [hov]
    simp only [if_pos rfl]
    exact isam_insertAfterLE_eq_takeWhile (key, s.heap.length) _
  · rw [hov]
    simp only [if_pos rfl]
    exact isam_insertAfterLE_append_iff (key, s.heap.length) _
  · intro hsorted
    rw [hov]
    simp only [if_pos rfl]
    exact isam_insertAfterLE_sorted (key, s.heap.length) _ hsorted

/-- Witness for `isam_overflow_sorted_insert`: the full one-page index
after one overflow add satisfies the hypothesis, and the next add is a
sorted insertion into that overflow list. -/
theorem isam_overflow_sorted_insert_witness :
    (¬ ((ISAM.add isamFullPage 50 1).leaves.getD
        (ISAM.leafIndexForKey (ISAM.add isamFullPage 50 1) 40) []).length <
          (ISAM.add isamFullPage 50 1).block_factor) ∧
    (ISAM.add (ISAM.add isamFullPage 50 1) 40 2).overflow
        (ISAM.leafIndexForKey (ISAM.add isamFullPage 50 1) 40)
      = ISAM.insertAfterLE (40, (ISAM.add isamFullPage 50 1).heap.length)
          ((ISAM.add isamFullPage 50 1).overflow
            (ISAM.leafIndexForKey (ISAM.add isamFullPage 50 1) 40)) :=
  ⟨by decide, (isam_overflow_sorted_insert (ISAM.add isamFullPage 50 1) 40 2 (by decide)).1⟩

set_option maxRecDepth 8192 in
/-- The 4-byte float format is genuinely lossy, independently of the
NULL sentinels: `0.1` (binary64 bits `0x3FB999999999999A`) packs under
`"f"` to binary32 `0x3DCCCCCD`, which unpacks to `0.10000000149011612`
(binary64 bits `0x3FB99999A0000000`), so `from_bytes (to_bytes record)`
differs from the record on an `"f"` schema. -/
theorem registro_float32_lossy :
    (Registro.to_bytes [Registro.FieldType.float32]
        [Registro.Value.vfloat 0x3FB999999999999A]).bind
      (Registro.from_bytes [Registro.FieldType.float32]) =
      some [Registro.Value.vfloat 0x3FB99999A0000000] ∧
    Registro.Value.vfloat (0x3FB99999A0000000 : Nat) ≠
      Registro.Value.vfloat 0x3FB999999999999A := by
  constructor
  · decide
  · decide

/-- C5 counterexample: with a full primary page (`block_factor = 1`,
key `10`), adding key `50` and then key `40` leaves the overflow list
`[(40, _), (50, _)]`, not the arrival order `[(50, _), (40, _)]`: the
second entry was not appended at the end of the chain. -/
theorem isam_overflow_not_arrival_order :
    ¬ ((ISAM.add (ISAM.add isamFullPage 50 1) 40 2).overflow 0 =
       (ISAM.add isamFullPage 50 1).overflow 0 ++ [(40, 2)]) := by
  intro h
  have h1 : (ISAM.add (ISAM.add isamFullPage 50 1) 40 2).overflow 0
      = [(40, 2), (50, 1)] := by decide
  have h2 : (ISAM.add isamFullPage 50 1).overflow 0 = [(50, 1)] := by decide
  rw [h1, h2] at h
  simp at h


/-- Split does not change depth bookkeeping, changes the directory only
by repointing slots of the split bucket to the two fresh ids, gives the
fresh buckets local depth one above the split bucket's with no chain,
empties the split bucket in place, and leaves every other bucket
untouched. -/
theorem eh_split_shape (hash : Nat → Nat) (s : EH.State) (bucket_id : Nat)
    (hfresh : bucket_id < s.next_bucket_id) :
    (EH.splitBucket hash s bucket_id).global_depth = s.global_depth ∧
    (EH.splitBucket hash s bucket_id).next_bucket_id = s.next_bucket_id + 2 ∧
    (EH.splitBucket hash s bucket_id).directory.length = s.directory.length ∧
    (∀ b, b ∈ (EH.splitBucket hash s bucket_id).directory →
      b = s.next_bucket_id ∨ b = s.next_bucket_id + 1 ∨ b ∈ s.directory) ∧
    (∀ j, (j = s.next_bucket_id ∨ j = s.next_bucket_id + 1) →
      ((EH.splitBucket hash s bucket_id).buckets j).local_depth =
        (s.buckets bucket_id).local_depth + 1 ∧
      ((EH.splitBucket hash s bucket_id).buckets j).next_bucket_id = 0) ∧
    (((EH.splitBucket hash s bucket_id).buckets bucket_id).local_depth =
        (s.buckets bucket_id).local_depth ∧
      ((EH.splitBucket hash s bucket_id).buckets bucket_id).next_bucket_id = 0) ∧
    (∀ j, j ≠ s.next_bucket_id → j ≠ s.next_bucket_id + 1 → j ≠ bucket_id →
      (EH.splitBucket hash s bucket_id).buckets j = s.buckets j) := by
  have hne1 : bucket_id ≠ s.next_bucket_id := by omega
  have hne2 : bucket_id ≠ s.next_bucket_id + 1 := by omega
  refine ⟨rfl, rfl, ?_, ?_, ?_, ?_, ?_⟩
  · simp [EH.splitBucket, EH.gatherChainItems]
  · intro b hb
    simp only [EH.splitBucket, EH.gatherChainItems, List.mem_map] at hb
    obtain ⟨p, hp, hfp⟩ := hb
    have hp2 : p.2 ∈ s.directory := by
      have := List.enum_map_snd s.directory
      exact this ▸ List.mem_map_of_mem Prod.snd hp
    by_cases hc : p.2 = bucket_id
    · rw [if_pos hc] at hfp
      by_cases hbit : p.1 / 2 ^ ((s.buckets bucket_id).local_depth + 1 - 1) % 2 = 1
      · rw [if_pos hbit] at hfp
        exact Or.inr (Or.inl hfp.symm)
      · rw [if_neg hbit] at hfp
        exact Or.inl hfp.symm
    · simp only [if_neg hc] at hfp
      exact Or.inr (Or.inr (hfp ▸ hp2))
  · intro j hj
    rcases hj with h1 | h1
    · subst h1
      constructor <;> simp [EH.splitBucket, EH.gatherChainItems, hne1]
    · subst h1
      constructor <;>
        simp [EH.splitBucket, EH.gatherChainItems, hne2,
          (by omega : s.next_bucket_id + 1 ≠ s.next_bucket_id)]
  · constructor <;> simp [EH.splitBucket, EH.gatherChainItems, hne1, hne2]
  · intro j h1 h2 h3
    simp [EH.splitBucket, EH.gatherChainItems, h1, h2, h3]

/-- Doubling the directory preserves the invariant. -/
theorem eh_inv_double (s : EH.State) (h : EH.Inv s) : EH.Inv (EH.doubleDirectory s) := by
  obtain ⟨hdir, hld, hfr⟩ := h
  have hreach : ∀ b, EH.ReachableBucket (EH.doubleDirectory s) b →
      EH.ReachableBucket s b := by
    intro b hb
    induction hb with
    | dir b hmem =>
        refine EH.ReachableBucket.dir b ?_
        simp only [EH.doubleDirectory, List.mem_append] at hmem
        tauto
    | next b hr hne ih => exact EH.ReachableBucket.next b ih hne
  refine ⟨?_, ?_, ?_⟩
  · simp only [EH.doubleDirectory, List.length_append, hdir]
    rw [pow_succ]
    omega
  · intro b hb
    exact le_trans (hld b (hreach b hb)) (by simp [EH.doubleDirectory])
  · intro b hb
    exact hfr b (hreach b hb)

/-- Splitting a fresh-bounded bucket whose bumped local depth stays
within the global depth preserves the invariant. -/
theorem eh_inv_split (hash : Nat → Nat) (s : EH.State) (bucket_id : Nat)
    (h : EH.Inv s) (hfresh : bucket_id < s.next_bucket_id)
    (hld : (s.buckets bucket_id).local_depth + 1 ≤ s.global_depth) :
    EH.Inv (EH.splitBucket hash s bucket_id) := by
  obtain ⟨hdir, hldAll, hfr⟩ := h
  obtain ⟨hgd, hnb, hdlen, hdmem, hnew, hbid, hother⟩ :=
    eh_split_shape hash s bucket_id hfresh
  have hcont : ∀ b, EH.ReachableBucket (EH.splitBucket hash s bucket_id) b →
      b = s.next_bucket_id ∨ b = s.next_bucket_id + 1 ∨
        (EH.ReachableBucket s b ∧ b < s.next_bucket_id) := by
    intro b hb
    induction hb with
    | dir b hmem =>
        rcases hdmem b hmem with h1 | h1 | h1
        · exact Or.inl h1
        · exact Or.inr (Or.inl h1)
        · exact Or.inr (Or.inr ⟨EH.ReachableBucket.dir b h1,
            hfr b (EH.ReachableBucket.dir b h1)⟩)
    | next b hr hne ih =>
        rcases ih with h1 | h1 | hin
        · exact absurd (hnew b (Or.inl h1)).2 hne
        · exact absurd (hnew b (Or.inr h1)).2 hne
        · by_cases hb2 : b = bucket_id
          · subst hb2
            exact absurd hbid.2 hne
          · have heq := hother b (by omega) (by omega) hb2
            rw [heq] at hne ⊢
            have hstep := EH.ReachableBucket.next b hin.1 hne
            exact Or.inr (Or.inr ⟨hstep, hfr _ hstep⟩)
  refine ⟨?_, ?_, ?_⟩
  · rw [hdlen, hgd, hdir]
  · intro b hb
    rw [hgd]
    rcases hcont b hb with h1 | h1 | hin
    · rw [(hnew b (Or.inl h1)).1]
      exact hld
    · rw [(hnew b (Or.inr h1)).1]
      exact hld
    · by_cases hb2 : b = bucket_id
      · subst hb2
        rw [hbid.1]
        exact hldAll _ hin.1
      · rw [hother b (by omega) (by omega) hb2]
        exact hldAll _ hin.1
  · intro b hb
    rw [hnb]
    rcases hcont b hb with h1 | h1 | hin
    · omega
    · omega
    · have := hin.2
      omega

/-- The outputs of the dedup/last-bucket scan of `add` are reachable. -/
theorem eh_chainScan_reachable (s : EH.State) (key : Nat) (fuel bid last : Nat)
    (hbid : bid ≠ 0 → EH.ReachableBucket s bid) (hlast : EH.ReachableBucket s last) :
    (∀ b, (EH.chainScan s key fuel bid last).1 = some b → EH.ReachableBucket s b) ∧
    EH.ReachableBucket s (EH.chainScan s key fuel bid last).2 := by
  induction fuel generalizing bid last with
  | zero => exact ⟨fun b hb => by simp [EH.chainScan] at hb, hlast⟩
  | succ fuel ih =>
      by_cases h0 : bid = 0
      · subst h0
        simp only [EH.chainScan, if_pos rfl]
        exact ⟨fun b hb => by simp at hb, hlast⟩
      · simp only [EH.chainScan, if_neg h0]
        split
        next hfound =>
          refine ⟨fun b hb => ?_, hlast⟩
          simp only at hb
          cases hb
          exact hbid h0
        next hfound =>
          by_cases hnx : (s.buckets bid).next_bucket_id = 0
          · rw [hnx]
            simp only [if_pos rfl]
            exact ih 0 bid (fun hc => absurd rfl hc) (hbid h0)
          · simp only [if_neg hnx]
            exact ih (s.buckets bid).next_bucket_id last
              (fun _ => EH.ReachableBucket.next bid (hbid h0) hnx) hlast

/-- One overwrite or in-place item insertion (directory, depths and
links untouched, allocation counter not decreased) preserves the
invariant. -/
theorem eh_inv_items_only (s s2 : EH.State)
    (hdir : s2.directory = s.directory)
    (hgd : s2.global_depth = s.global_depth)
    (hnb : s.next_bucket_id ≤ s2.next_bucket_id)
    (hb : ∀ j, (s2.buckets j).next_bucket_id = (s.buckets j).next_bucket_id ∧
               (s2.buckets j).local_depth = (s.buckets j).local_depth)
    (h : EH.Inv s) : EH.Inv s2 := by
  obtain ⟨h1, h2, h3⟩ := h
  have hreach : ∀ b, EH.ReachableBucket s2 b → EH.ReachableBucket s b := by
    intro b hbr
    induction hbr with
    | dir b hmem => exact EH.ReachableBucket.dir b (hdir ▸ hmem)
    | next b hr hne ih =>
        rw [(hb b).1] at hne ⊢
        exact EH.ReachableBucket.next b ih hne
  refine ⟨?_, ?_, ?_⟩
  · rw [hdir, hgd, h1]
  · intro b hbr
    rw [(hb b).2, hgd]
    exact h2 b (hreach b hbr)
  · intro b hbr
    exact lt_of_lt_of_le (h3 b (hreach b hbr)) hnb

/-- Chaining a fresh overflow bucket of within-bound local depth onto a
reachable chain end preserves the invariant. -/
theorem eh_inv_chain_append (s : EH.State) (lastBid : Nat) (b0 : EH.Bucket)
    (hlast : EH.ReachableBucket s lastBid)
    (hld0 : b0.local_depth ≤ s.global_depth)
    (hnext0 : b0.next_bucket_id = 0)
    (h : EH.Inv s) :
    EH.Inv { s with
      next_bucket_id := s.next_bucket_id + 1,
      buckets := fun j =>
        if j = s.next_bucket_id then b0
        else if j = lastBid then { s.buckets lastBid with
          next_bucket_id := s.next_bucket_id }
        else s.buckets j } := by
  obtain ⟨h1, h2, h3⟩ := h
  have hlastlt : lastBid < s.next_bucket_id := h3 lastBid hlast
  have hcont : ∀ b, EH.ReachableBucket { s with
      next_bucket_id := s.next_bucket_id + 1,
      buckets := fun j =>
        if j = s.next_bucket_id then b0
        else if j = lastBid then { s.buckets lastBid with
          next_bucket_id := s.next_bucket_id }
        else s.buckets j } b →
      b = s.next_bucket_id ∨ (EH.ReachableBucket s b ∧ b < s.next_bucket_id) := by
    intro b hb
    induction hb with
    | dir b hmem =>
        exact Or.inr ⟨EH.ReachableBucket.dir b hmem,
          h3 b (EH.ReachableBucket.dir b hmem)⟩
    | next b hr hne ih =>
        rcases ih with h4 | hin
        · rw [h4] at hne ⊢
          simp only [if_pos rfl] at hne ⊢
          exact absurd hnext0 hne
        · by_cases hb2 : b = lastBid
          · subst hb2
            simp only [if_neg (by omega : ¬ b = s.next_bucket_id), if_pos rfl] at hne ⊢
            exact Or.inl rfl
          · simp only [if_neg (by omega : ¬ b = s.next_bucket_id), if_neg hb2] at hne ⊢
            have hstep := EH.ReachableBucket.next b hin.1 hne
            exact Or.inr ⟨hstep, h3 _ hstep⟩
  refine ⟨h1, ?_, ?_⟩
  · intro b hb
    rcases hcont b hb with h4 | hin
    · rw [h4]
      simpa using hld0
    · have hlt : b < s.next_bucket_id := hin.2
      show (if b = s.next_bucket_id then b0
          else if b = lastBid then { s.buckets lastBid with
            next_bucket_id := s.next_bucket_id }
          else s.buckets b).local_depth ≤ s.global_depth
      by_cases hb2 : b = lastBid
      · rw [if_neg (show ¬ b = s.next_bucket_id by omega), if_pos hb2]
        show (s.buckets lastBid).local_depth ≤ s.global_depth
        rw [← hb2]
        exact h2 b hin.1
      · rw [if_neg (show ¬ b = s.next_bucket_id by omega), if_neg hb2]
        exact h2 b hin.1
  · intro b hb
    rcases hcont b hb with h4 | hin
    · show b < s.next_bucket_id + 1
      omega
    · show b < s.next_bucket_id + 1
      have := hin.2
      omega

/-- Every `add` call preserves the invariant, whatever its fuel. -/
theorem eh_addFuel_inv (hash : Nat → Nat) (fuel : Nat) (s : EH.State)
    (key value : Nat) (h : EH.Inv s) :
    EH.Inv (EH.addFuel hash fuel s key value) := by
  induction fuel generalizing s with
  | zero => exact h
  | succ fuel ih =>
      have hdirne : s.directory.getD (hash key % 2 ^ s.global_depth) 0 ∈ s.directory := by
        have hlt : hash key % 2 ^ s.global_depth < s.directory.length := by
          rw [h.1]
          exact Nat.mod_lt _ (Nat.pos_pow_of_pos _ (by omega))
        rw [List.getD_eq_getElem s.directory 0 hlt]
        exact List.getElem_mem hlt
      have hreachPrim : EH.ReachableBucket s
          (s.directory.getD (hash key % 2 ^ s.global_depth) 0) :=
        EH.ReachableBucket.dir _ hdirne
      have hscan := eh_chainScan_reachable s key (s.next_bucket_id + 1)
        (s.directory.getD (hash key % 2 ^ s.global_depth) 0)
        (s.directory.getD (hash key % 2 ^ s.global_depth) 0)
        (fun _ => hreachPrim) hreachPrim
      simp only [EH.addFuel]
      split
      next bid hbid =>
        refine eh_inv_items_only s _ rfl rfl le_rfl ?_ h
        intro j
        constructor
        · show (if j = bid then { s.buckets bid with
              items := EH.dictInsert key value (s.buckets bid).items }
            else s.buckets j).next_bucket_id = (s.buckets j).next_bucket_id
          split
          next hj => rw [hj]
          next hj => rfl
        · show (if j = bid then { s.buckets bid with
              items := EH.dictInsert key value (s.buckets bid).items }
            else s.buckets j).local_depth = (s.buckets j).local_depth
          split
          next hj => rw [hj]
          next hj => rfl
      next hbid =>
        split
        next hroom =>
          refine eh_inv_items_only s _ rfl rfl le_rfl ?_ h
          intro j
          constructor
          · show (if j = (EH.chainScan s key (s.next_bucket_id + 1)
                (s.directory.getD (hash key % 2 ^ s.global_depth) 0)
                (s.directory.getD (hash key % 2 ^ s.global_depth) 0)).2 then
                { s.buckets ((EH.chainScan s key (s.next_bucket_id + 1)
                    (s.directory.getD (hash key % 2 ^ s.global_depth) 0)
                    (s.directory.getD (hash key % 2 ^ s.global_depth) 0)).2) with
                  items := EH.dictInsert key value
                    (s.buckets ((EH.chainScan s key (s.next_bucket_id + 1)
                      (s.directory.getD (hash key % 2 ^ s.global_depth) 0)
                      (s.directory.getD (hash key % 2 ^ s.global_depth) 0)).2)).items }
              else s.buckets j).next_bucket_id = (s.buckets j).next_bucket_id
            split
            next hj => rw [hj]
            next hj => rfl
          · show (if j = (EH.chainScan s key (s.next_bucket_id + 1)
                (s.directory.getD (hash key % 2 ^ s.global_depth) 0)
                (s.directory.getD (hash key % 2 ^ s.global_depth) 0)).2 then
                { s.buckets ((EH.chainScan s key (s.next_bucket_id + 1)
                    (s.directory.getD (hash key % 2 ^ s.global_depth) 0)
                    (s.directory.getD (hash key % 2 ^ s.global_depth) 0)).2) with
                  items := EH.dictInsert key value
                    (s.buckets ((EH.chainScan s key (s.next_bucket_id + 1)
                      (s.directory.getD (hash key % 2 ^ s.global_depth) 0)
                      (s.directory.getD (hash key % 2 ^ s.global_depth) 0)).2)).items }
              else s.buckets j).local_depth = (s.buckets j).local_depth
            split
            next hj => rw [hj]
            next hj => rfl
        next hroom =>
          split
          next hlow =>
            refine ih _ (eh_inv_split hash s _ h (h.2.2 _ hreachPrim) ?_)
            omega
          next hlow =>
            split
            next hdouble =>
              refine ih _ (eh_inv_split hash (EH.doubleDirectory s) _
                (eh_inv_double s h) (h.2.2 _ hreachPrim) ?_)
              simp only [EH.doubleDirectory]
              omega
            next hdouble =>
              exact eh_inv_chain_append s _
                { local_depth := (s.buckets (s.directory.getD
                    (hash key % 2 ^ s.global_depth) 0)).local_depth,
                  is_overflow := true, next_bucket_id := 0,
                  items := [(key, value)] }
                hscan.2 (h.2.1 _ hreachPrim) rfl h

/-- A whole sequence of `add` calls preserves the invariant. -/
theorem eh_applyAdds_inv (hash : Nat → Nat) (ops : List (Nat × Nat × Nat))
    (s : EH.State) (h : EH.Inv s) : EH.Inv (EH.applyAdds hash ops s) := by
  induction ops generalizing s with
  | nil => exact h
  | cons op rest ih => exact ih _ (eh_addFuel_inv hash op.1 s op.2.1 op.2.2 h)

/-- A fresh directory with `initial_global_depth ≥ 1` satisfies the
invariant. -/
theorem eh_init_inv (cap gd0 mgd : Nat) (hgd : 1 ≤ gd0) :
    EH.Inv (EH.initState cap gd0 mgd) := by
  have hreach : ∀ b, EH.ReachableBucket (EH.initState cap gd0 mgd) b →
      b ∈ List.range (2 ^ gd0) := by
    intro b hb
    induction hb with
    | dir b hmem => exact hmem
    | next b hr hne ih => exact absurd rfl hne
  refine ⟨by simp [EH.initState], ?_, ?_⟩
  · intro b _
    simp only [EH.initState]
    split <;> omega
  · intro b hb
    have := hreach b hb
    simp only [EH.initState]
    exact List.mem_range.mp this

/-- C6 amended: starting from a freshly initialized directory with
`initial_global_depth ≥ 1`, after every sequence of `add` calls the
directory length equals `2^global_depth` and every bucket reachable
from a directory slot (overflow chains included) has
`local_depth ≤ global_depth`. -/
theorem eh_directory_invariant (hash : Nat → Nat) (cap gd0 mgd : Nat) (hgd : 1 ≤ gd0)
    (ops : List (Nat × Nat × Nat)) :
    (EH.applyAdds hash ops (EH.initState cap gd0 mgd)).directory.length =
      2 ^ (EH.applyAdds hash ops (EH.initState cap gd0 mgd)).global_depth ∧
    ∀ bid, EH.ReachableBucket (EH.applyAdds hash ops (EH.initState cap gd0 mgd)) bid →
      ((EH.applyAdds hash ops (EH.initState cap gd0 mgd)).buckets bid).local_depth ≤
        (EH.applyAdds hash ops (EH.initState cap gd0 mgd)).global_depth := by
  have hfold := eh_applyAdds_inv hash ops _ (eh_init_inv cap gd0 mgd hgd)
  exact ⟨hfold.1, hfold.2.1⟩

/-- Witness for `eh_directory_invariant`: one add into a fresh depth-1
directory (with the identity standing for the hash). -/
theorem eh_directory_invariant_witness :
    1 ≤ 1 ∧
    ((EH.applyAdds (fun k => k) [(5, 3, 7)] (EH.initState 2 1 4)).directory.length =
      2 ^ (EH.applyAdds (fun k => k) [(5, 3, 7)] (EH.initState 2 1 4)).global_depth ∧
    ∀ bid, EH.ReachableBucket (EH.applyAdds (fun k => k) [(5, 3, 7)]
        (EH.initState 2 1 4)) bid →
      ((EH.applyAdds (fun k => k) [(5, 3, 7)] (EH.initState 2 1 4)).buckets
          bid).local_depth ≤
        (EH.applyAdds (fun k => k) [(5, 3, 7)] (EH.initState 2 1 4)).global_depth) :=
  ⟨le_rfl, eh_directory_invariant (fun k => k) 2 1 4 le_rfl [(5, 3, 7)]⟩

/-- C6 counterexample: with `initial_global_depth = 0` the freshly
initialized directory (the empty add sequence) already violates the
claimed invariant: the single directory slot reaches bucket `0`, whose
local depth is `1` while the global depth is `0`. -/
theorem eh_invariant_counterexample :
    EH.ReachableBucket (EH.initState 2 0 4) 0 ∧
    ¬ ((EH.initState 2 0 4).buckets 0).local_depth ≤
        (EH.initState 2 0 4).global_depth :=
  ⟨EH.ReachableBucket.dir 0 (by decide), by decide⟩

/-- C1 failing input, evaluated: after adding keys 1, 2, 3, 4 to an
empty order-3 tree, key 3 became the root separator at the leaf split;
the descent (first separator not below the key takes that child) sends
`search(3)` into the left leaf `[1, 2]` and returns `None`, although
`get_all` confirms key 3 is stored (in the right leaf). -/
theorem bpt_search_misses_promoted_separator :
    (bptFour.bind (fun t => BPT.search t 3)) = some none ∧
    ((bptFour.bind (fun t => BPT.get_all t)).map (fun l => l.map Prod.fst)) =
      some [1, 2, 3, 4] := by
  constructor
  · decide
  · decide

/-- C9 failing input, evaluated: on the same tree, `remove(3)` descends
with the same rule into the left leaf and deletes nothing, so `get_all`
still yields the removed key 3. -/
theorem bpt_remove_misses_promoted_separator :
    (((bptFour.bind (fun t => BPT.remove t 3)).bind (fun t => BPT.get_all t)).map
      (fun l => l.map Prod.fst)) = some [1, 2, 3, 4] := by
  decide

/-- Stable sorted insertion is a permutation (cons) at multiset level. -/
theorem bpt_sortPairInsert_perm (e : Int × Nat) (l : List (Int × Nat)) :
    (BPT.sortPairInsert e l : Multiset (Int × Nat)) = e ::ₘ (l : Multiset (Int × Nat)) := by
  induction l with
  | nil => rfl
  | cons x xs ih =>
      simp only [BPT.sortPairInsert]
      split
      · rfl
      · simp only [← Multiset.cons_coe, ih]
        exact Multiset.cons_swap x e xs

/-- The leaf sort is a permutation at multiset level. -/
theorem bpt_sortPairs_perm (l : List (Int × Nat)) :
    (BPT.sortPairs l : Multiset (Int × Nat)) = (l : Multiset (Int × Nat)) := by
  induction l with
  | nil => rfl
  | cons x xs ih => simp [BPT.sortPairs, bpt_sortPairInsert_perm, ih]

/-- Function `insertAt` always grows the list by one (Python `insert` clamps). -/
theorem bpt_insertAt_length (n : Nat) (a : α) (l : List α) :
    (BPT.insertAt n a l).length = l.length + 1 := by
  induction l generalizing n with
  | nil => cases n <;> rfl
  | cons x xs ih => cases n <;> simp [BPT.insertAt, ih]

/-- In-bounds `insertAt` is a take/cons/drop splice. -/
theorem bpt_insertAt_eq (n : Nat) (a : α) (l : List α) (h : n ≤ l.length) :
    BPT.insertAt n a l = l.take n ++ a :: l.drop n := by
  induction l generalizing n with
  | nil =>
      have : n = 0 := by simpa using h
      subst this
      rfl
  | cons x xs ih =>
      cases n with
      | zero => rfl
      | succ n =>
          simp only [BPT.insertAt, List.take_succ_cons, List.drop_succ_cons,
            List.cons_append]
          rw [ih n (by simpa using h)]

/-- Setting an index to the value already there is the identity. -/
theorem bpt_set_self (l : List α) (i : Nat) (a : α) (h : l.get? i = some a) :
    l.set i a = l := by
  induction l generalizing i with
  | nil => simp at h
  | cons x xs ih =>
      cases i with
      | zero =>
          simp only [List.get?_cons_zero, Option.some_inj] at h
          rw [h]
          rfl
      | succ i =>
          simp only [List.get?_cons_succ] at h
          simp [List.set, ih i h]

/-- Function `idsList` distributes over appends. -/
theorem bpt_idsList_append (l1 l2 : List BPT.View) :
    BPT.idsList (l1 ++ l2) = BPT.idsList l1 ++ BPT.idsList l2 := by
  induction l1 with
  | nil => simp [BPT.idsList]
  | cons v vs ih => simp [BPT.idsList, ih]

/-- Function `leafSeqList` distributes over appends. -/
theorem bpt_leafSeqList_append (l1 l2 : List BPT.View) :
    BPT.leafSeqList (l1 ++ l2) = BPT.leafSeqList l1 ++ BPT.leafSeqList l2 := by
  induction l1 with
  | nil => simp [BPT.leafSeqList]
  | cons v vs ih => simp [BPT.leafSeqList, ih]

/-- Ids of a member view are ids of the list. -/
theorem bpt_mem_idsList (v : BPT.View) (vs : List BPT.View) (hv : v ∈ vs) :
    ∀ i ∈ BPT.ids v, i ∈ BPT.idsList vs := by
  induction vs with
  | nil => simp at hv
  | cons w ws ih =>
      intro i hi
      rcases List.mem_cons.mp hv with rfl | hv2
      · simp only [BPT.idsList, List.mem_append]
        exact Or.inl hi
      · simp only [BPT.idsList, List.mem_append]
        exact Or.inr (ih hv2 i hi)

/-- A member view's height bounds below the list height. -/
theorem bpt_height_mem (v : BPT.View) (vs : List BPT.View) (hv : v ∈ vs) :
    BPT.height v ≤ BPT.heightList vs := by
  induction vs with
  | nil => simp at hv
  | cons w ws ih =>
      rcases List.mem_cons.mp hv with rfl | hv2
      · simp only [BPT.heightList]
        omega
      · have := ih hv2
        simp only [BPT.heightList]
        omega

/-- Function `Rep` only depends on the store at the view's own ids. -/
theorem bpt_rep_stable (store store2 : BPT.Store) (v : BPT.View)
    (h : BPT.Rep store v)
    (hagree : ∀ i ∈ BPT.ids v, store2.get? i = store.get? i) :
    BPT.Rep store2 v := by
  induction h with
  | leaf nid node hget hleaf =>
      exact BPT.Rep.leaf nid node
        (by rw [hagree nid (by simp [BPT.ids])]; exact hget) hleaf
  | node nid node vs hget hlf hsz hcl hch hall ih =>
      refine BPT.Rep.node nid node vs ?_ hlf hsz hcl hch ?_
      · rw [hagree nid (by simp [BPT.ids])]
        exact hget
      · intro v hv
        refine ih v hv (fun i hi => hagree i ?_)
        simp only [BPT.ids, List.mem_cons]
        exact Or.inr (bpt_mem_idsList v vs hv i hi)

/-- Chain linkage only depends on the pointers at the listed ids. -/
theorem bpt_chain_frame (store store2 : BPT.Store) (xs : List Nat) (a : Int)
    (hagree : ∀ l ∈ xs, BPT.nextOf store2 l = BPT.nextOf store l)
    (h : BPT.Chain store xs a) : BPT.Chain store2 xs a := by
  induction xs with
  | nil => trivial
  | cons l rest ih =>
      obtain ⟨h1, h2⟩ := h
      exact ⟨by rw [hagree l (by simp)]; exact h1,
        ih (fun x hx => hagree x (by simp [hx])) h2⟩

/-- Chain linkage of a concatenation splits at the junction. -/
theorem bpt_chain_append (store : BPT.Store) (xs ys : List Nat) (a : Int) :
    BPT.Chain store (xs ++ ys) a ↔
      BPT.Chain store xs (BPT.headOr a ys) ∧ BPT.Chain store ys a := by
  induction xs with
  | nil => simp [BPT.Chain]
  | cons l rest ih =>
      simp only [List.cons_append, BPT.Chain, List.append_eq, ih]
      have hh : BPT.headOr a (rest ++ ys) = BPT.headOr (BPT.headOr a ys) rest := by
        cases rest <;> rfl
      rw [hh]
      tauto

/-- Lookup after an in-bounds overwrite. -/
theorem bpt_get?_set_self (l : List α) (i : Nat) (a : α) (h : i < l.length) :
    (l.set i a).get? i = some a := by
  induction l generalizing i with
  | nil => simp at h
  | cons x xs ih =>
      cases i with
      | zero => rfl
      | succ i => exact ih i (by simpa using h)

/-- Lookup away from an overwrite. -/
theorem bpt_get?_set_other (l : List α) (i j : Nat) (a : α) (h : j ≠ i) :
    (l.set i a).get? j = l.get? j := by
  induction l generalizing i j with
  | nil => rfl
  | cons x xs ih =>
      cases i with
      | zero =>
          cases j with
          | zero => exact absurd rfl h
          | succ j => rfl
      | succ i =>
          cases j with
          | zero => rfl
          | succ j => exact ih i j (by omega)

/-- Lookup below an append. -/
theorem bpt_get?_append_left (l l2 : List α) (j : Nat) (h : j < l.length) :
    (l ++ l2).get? j = l.get? j := by
  induction l generalizing j with
  | nil => simp at h
  | cons x xs ih =>
      cases j with
      | zero => rfl
      | succ j => exact ih j (by simpa using h)

/-- Lookup of the freshly appended element. -/
theorem bpt_get?_append_self (l : List α) (a : α) :
    (l ++ [a]).get? l.length = some a := by
  induction l with
  | nil => rfl
  | cons x xs ih =>
      simp only [List.cons_append, List.length_cons, List.get?_cons_succ]
      exact ih

/-- A member view's ids form a contiguous sublist of the list ids. -/
theorem bpt_ids_sublist_of_mem (v : BPT.View) (vs : List BPT.View) (hv : v ∈ vs) :
    List.Sublist (BPT.ids v) (BPT.idsList vs) := by
  induction vs with
  | nil => simp at hv
  | cons w ws ih =>
      rcases List.mem_cons.mp hv with rfl | hv2
      · simp only [BPT.idsList]
        exact List.sublist_append_left (BPT.ids v) (BPT.idsList ws)
      · simp only [BPT.idsList]
        exact (ih hv2).trans (List.sublist_append_right _ _)

/-- Members of `leafSeqList` come from a member view. -/
theorem bpt_mem_leafSeqList (p : Nat × List (Int × Nat)) (vs : List BPT.View)
    (hp : p ∈ BPT.leafSeqList vs) : ∃ v ∈ vs, p ∈ BPT.leafSeq v := by
  induction vs with
  | nil => simp [BPT.leafSeqList] at hp
  | cons w ws ih =>
      simp only [BPT.leafSeqList, List.mem_append] at hp
      rcases hp with hp | hp
      · exact ⟨w, by simp, hp⟩
      · obtain ⟨v, hv, hpv⟩ := ih hp
        exact ⟨v, by simp [hv], hpv⟩

/-- A represented view has at least one leaf. -/
theorem bpt_leafSeq_ne_nil (store : BPT.Store) (v : BPT.View)
    (h : BPT.Rep store v) : BPT.leafSeq v ≠ [] := by
  induction h with
  | leaf nid node hget hleaf => simp [BPT.leafSeq]
  | node nid node vs hget hlf hsz hcl hch hall ih =>
      have hvs : vs ≠ [] := by
        intro hnil
        rw [hnil] at hch
        simp only [List.map_nil] at hch
        rw [hch] at hcl
        simp at hcl
      cases vs with
      | nil => exact absurd rfl hvs
      | cons w ws =>
          simp only [BPT.leafSeq, BPT.leafSeqList]
          intro hcontra
          exact ih w (by simp) (by
            rcases List.append_eq_nil.mp hcontra with ⟨h1, _⟩
            exact h1)

/-- Each `leafSeq` entry of a represented view is backed by a stored
leaf node with exactly those pairs. -/
theorem bpt_leafSeq_nodes (store : BPT.Store) (v : BPT.View)
    (h : BPT.Rep store v) :
    ∀ p ∈ BPT.leafSeq v, ∃ node, store.get? p.1 = some node ∧
      node.pairs = p.2 ∧ node.is_leaf = true := by
  induction h with
  | leaf nid node hget hleaf =>
      intro p hp
      simp only [BPT.leafSeq, List.mem_singleton] at hp
      exact ⟨node, by rw [hp]; exact hget, by rw [hp], hleaf⟩
  | node nid node vs hget hlf hsz hcl hch hall ih =>
      intro p hp
      simp only [BPT.leafSeq] at hp
      obtain ⟨v2, hv2, hpv⟩ := bpt_mem_leafSeqList p vs hp
      exact ih v2 hv2 p hpv

/-- Leaf ids are a sublist of all ids. -/
theorem bpt_leafIds_sublist (store : BPT.Store) (v : BPT.View)
    (h : BPT.Rep store v) : List.Sublist (BPT.leafIds v) (BPT.ids v) := by
  induction h with
  | leaf nid node hget hleaf => simp [BPT.leafIds, BPT.leafSeq, BPT.ids]
  | node nid node vs hget hlf hsz hcl hch hall ih =>
      have hsub : List.Sublist ((BPT.leafSeqList vs).map Prod.fst) (BPT.idsList vs) := by
        clear hch hcl hsz hget
        induction vs with
        | nil => simp [BPT.leafSeqList, BPT.idsList]
        | cons w ws ih2 =>
            simp only [BPT.leafSeqList, BPT.idsList, List.map_append]
            exact List.Sublist.append (ih w (by simp))
              (ih2 (fun v hv => hall v (by simp [hv])) (fun v hv => ih v (by simp [hv])))
      simp only [BPT.leafIds, BPT.leafSeq, BPT.ids]
      exact hsub.trans (List.sublist_cons_self nid (BPT.idsList vs))

/-- Every id list is nonempty and starts at the root id. -/
theorem bpt_ids_head (v : BPT.View) : BPT.ids v = BPT.vid v :: (BPT.ids v).tail := by
  cases v with
  | leaf i ps => simp [BPT.ids, BPT.vid]
  | node i ks cs => simp [BPT.ids, BPT.vid]

/-- The height of a represented view is below its id count. -/
theorem bpt_height_lt_ids (store : BPT.Store) (v : BPT.View)
    (h : BPT.Rep store v) : BPT.height v < (BPT.ids v).length := by
  induction h with
  | leaf nid node hget hleaf => simp [BPT.height, BPT.ids]
  | node nid node vs hget hlf hsz hcl hch hall ih =>
      have hvs : vs ≠ [] := by
        intro hnil
        rw [hnil] at hch
        simp only [List.map_nil] at hch
        rw [hch] at hcl
        simp at hcl
      have hmain : ∀ ws : List BPT.View, ws ≠ [] →
          (∀ w ∈ ws, BPT.height w < (BPT.ids w).length) →
          BPT.heightList ws < (BPT.idsList ws).length := by
        intro ws
        induction ws with
        | nil => intro h1 _; exact absurd rfl h1
        | cons w rest ih2 =>
            intro _ hIH
            cases rest with
            | nil =>
                have h1 := hIH w (by simp)
                simp only [BPT.heightList, BPT.idsList, List.append_nil]
                omega
            | cons w2 rest2 =>
                have h1 := hIH w (by simp)
                have h2 := ih2 (by simp) (fun x hx => hIH x (by simp [hx]))
                simp only [BPT.heightList, BPT.idsList, List.length_append] at h2 ⊢
                omega
      have := hmain vs hvs ih
      simp only [BPT.height, BPT.ids, List.length_cons]
      omega

/-- A represented view has a first leaf. -/
theorem bpt_leafIds_ne_nil (store : BPT.Store) (v : BPT.View)
    (h : BPT.Rep store v) : BPT.leafIds v ≠ [] := by
  intro hcontra
  exact bpt_leafSeq_ne_nil store v h (by simpa [BPT.leafIds] using hcontra)

/-- Function `headOr` only looks at the head: nonempty left factor. -/
theorem bpt_headOr_append (a : Int) (l1 l2 : List Nat) (h : l1 ≠ []) :
    BPT.headOr a (l1 ++ l2) = BPT.headOr a l1 := by
  cases l1 with
  | nil => exact absurd rfl h
  | cons x xs => rfl

/-- Function `headOr` is determined by `head?`. -/
theorem bpt_headOr_congr (a : Int) (l1 l2 : List Nat) (h : l1.head? = l2.head?) :
    BPT.headOr a l1 = BPT.headOr a l2 := by
  cases l1 with
  | nil =>
      cases l2 with
      | nil => rfl
      | cons y ys => simp at h
  | cons x xs =>
      cases l2 with
      | nil => simp at h
      | cons y ys =>
          simp only [List.head?_cons, Option.some_inj] at h
          simp [BPT.headOr, h]

/-- Replacing a middle chain segment by one with the same entry point,
with linkage preserved elsewhere, preserves the whole chain. -/
theorem bpt_chain_splice (store store2 : BPT.Store) (LA LC LB LC2 : List Nat)
    (after : Int) (hLC : LC ≠ []) (hLC2 : LC2 ≠ [])
    (hhead : LC2.head? = LC.head?)
    (hframe : ∀ l, l ∈ LA ∨ l ∈ LB → BPT.nextOf store2 l = BPT.nextOf store l)
    (htrans : ∀ a, BPT.Chain store LC a → BPT.Chain store2 LC2 a)
    (hchain : BPT.Chain store (LA ++ (LC ++ LB)) after) :
    BPT.Chain store2 (LA ++ (LC2 ++ LB)) after := by
  rw [bpt_chain_append, bpt_chain_append] at hchain ⊢
  obtain ⟨h1, h2, h3⟩ := hchain
  have hho : BPT.headOr after (LC2 ++ LB) = BPT.headOr after (LC ++ LB) := by
    rw [bpt_headOr_append after LC2 LB hLC2, bpt_headOr_append after LC LB hLC]
    exact bpt_headOr_congr after LC2 LC hhead
  refine ⟨?_, ?_, ?_⟩
  · rw [hho]
    exact bpt_chain_frame store store2 LA _ (fun l hl => hframe l (Or.inl hl)) h1
  · exact htrans _ h2
  · exact bpt_chain_frame store store2 LB _ (fun l hl => hframe l (Or.inr hl)) h3

/-- Replacing a middle block by a duplicate-free block drawn from the
old block and a fresh id range keeps the whole list duplicate-free, and
every id is an old id or fresh. -/
theorem bpt_splice_nodup (X Y C C2 : List Nat) (n m : Nat)
    (h : (X ++ (C ++ Y)).Nodup)
    (hb : ∀ i ∈ X ++ (C ++ Y), i < n)
    (hc2 : ∀ i ∈ C2, i ∈ C ∨ (n ≤ i ∧ i < m))
    (hc2n : C2.Nodup) :
    (X ++ (C2 ++ Y)).Nodup ∧
      (∀ i ∈ X ++ (C2 ++ Y), i ∈ X ++ (C ++ Y) ∨ (n ≤ i ∧ i < m)) := by
  simp only [List.nodup_append, List.disjoint_left, List.mem_append] at h hb ⊢
  obtain ⟨hX, ⟨hC, hY, hCY⟩, hXCY⟩ := h
  constructor
  · refine ⟨hX, ⟨hc2n, hY, ?_⟩, ?_⟩
    · intro i hi hiY
      rcases hc2 i hi with hiC | ⟨hge, _⟩
      · exact hCY hiC hiY
      · exact absurd (hb i (Or.inr (Or.inr hiY))) (by omega)
    · intro i hiX hiCY
      rcases hiCY with hiC2 | hiY
      · rcases hc2 i hiC2 with hiC | ⟨hge, _⟩
        · exact hXCY hiX (Or.inl hiC)
        · exact absurd (hb i (Or.inl hiX)) (by omega)
      · exact hXCY hiX (Or.inr hiY)
  · intro i hi
    rcases hi with hiX | hiC2 | hiY
    · exact Or.inl (Or.inl hiX)
    · rcases hc2 i hiC2 with hiC | hfresh
      · exact Or.inl (Or.inr (Or.inl hiC))
      · exact Or.inr hfresh
    · exact Or.inl (Or.inr (Or.inr hiY))

/-- Step equation of `_insert_aux` at a leaf with room: the leaf is
rewritten in place with the pair sorted in. -/
theorem bpt_insertAux_leaf_no_split (order f : Nat) (store : BPT.Store) (nid : Nat)
    (k : Int) (r : Nat) (node : BPT.Node) (hget : store.get? nid = some node)
    (hleaf : node.is_leaf = true)
    (hfull : ¬ (BPT.leafPairs2 node k r).length > node.block_factor) :
    BPT.insertAux order (f + 1) store nid k r =
      some (store.set nid (BPT.leafNoSplitNode node k r), none) := by
  unfold BPT.insertAux
  rw [hget]
  simp only [hleaf, if_true, BPT.leafPairs2] at hfull ⊢
  rw [if_pos hfull]
  unfold BPT.leafNoSplitNode BPT.leafPairs2
  rw [hleaf]

/-- Step equation of `_insert_aux` at a full leaf: split at the midpoint,
append the right half as a fresh node and promote its first key. -/
theorem bpt_insertAux_leaf_split (order f : Nat) (store : BPT.Store) (nid : Nat)
    (k : Int) (r : Nat) (node : BPT.Node) (hget : store.get? nid = some node)
    (hleaf : node.is_leaf = true)
    (hfull : (BPT.leafPairs2 node k r).length > node.block_factor) :
    BPT.insertAux order (f + 1) store nid k r =
      some ((store ++ [BPT.leafSplitNewNode order node k r]).set nid
          (BPT.leafSplitLeftNode node k r store.length),
        some (BPT.leafUpKey node k r, store.length)) := by
  unfold BPT.insertAux
  rw [hget]
  simp only [hleaf, if_true, BPT.leafPairs2] at hfull ⊢
  rw [if_neg (not_not_intro hfull)]
  unfold BPT.leafSplitNewNode BPT.leafSplitLeftNode BPT.leafUpKey BPT.leafRight BPT.leafLeft BPT.leafMid BPT.leafPairs2
  rw [hleaf]

/-- Step equation of `_insert_aux` at an internal node whose child call
did not split: the child store is passed through unchanged. -/
theorem bpt_insertAux_node_pass (order f : Nat) (store store2 : BPT.Store) (nid cid : Nat)
    (k : Int) (r : Nat) (node : BPT.Node) (hget : store.get? nid = some node)
    (hleaf : node.is_leaf = false)
    (hcid : node.children.get? (BPT.descendIndex node k) = some cid)
    (hcall : BPT.insertAux order f store cid k r = some (store2, none)) :
    BPT.insertAux order (f + 1) store nid k r = some (store2, none) := by
  unfold BPT.insertAux
  rw [hget]
  simp only [hleaf, if_false, Bool.false_eq_true]
  rw [hcid]
  simp only [hcall]

/-- Step equation of `_insert_aux` at an internal node with room whose
child split: the promoted key and pointer are spliced in. -/
theorem bpt_insertAux_node_absorb (order f : Nat) (store store2 : BPT.Store) (nid cid : Nat)
    (k up : Int) (r newPtr : Nat) (node : BPT.Node) (hget : store.get? nid = some node)
    (hleaf : node.is_leaf = false)
    (hcid : node.children.get? (BPT.descendIndex node k) = some cid)
    (hcall : BPT.insertAux order f store cid k r = some (store2, some (up, newPtr)))
    (hfull : ¬ node.size + 1 > node.block_factor) :
    BPT.insertAux order (f + 1) store nid k r =
      some (store2.set nid (BPT.nodeNoSplitNode node k up newPtr), none) := by
  unfold BPT.insertAux
  rw [hget]
  simp only [hleaf, if_false, Bool.false_eq_true]
  rw [hcid]
  simp only [hcall]
  simp only [if_pos hfull]
  unfold BPT.nodeNoSplitNode BPT.nodeKeys2 BPT.nodeChildren2
  rw [hleaf]

/-- Step equation of `_insert_aux` at a full internal node whose child
split: splice, then split around the middle key, which moves up. -/
theorem bpt_insertAux_node_split (order f : Nat) (store store2 : BPT.Store) (nid cid : Nat)
    (k up : Int) (r newPtr : Nat) (node : BPT.Node) (hget : store.get? nid = some node)
    (hleaf : node.is_leaf = false)
    (hcid : node.children.get? (BPT.descendIndex node k) = some cid)
    (hcall : BPT.insertAux order f store cid k r = some (store2, some (up, newPtr)))
    (hfull : node.size + 1 > node.block_factor) :
    BPT.insertAux order (f + 1) store nid k r =
      some ((store2 ++ [BPT.nodeRightNode order node k up newPtr]).set nid
          (BPT.nodeLeftNode node k up newPtr),
        some (BPT.nodeUpKey2 node k up, store2.length)) := by
  unfold BPT.insertAux
  rw [hget]
  simp only [hleaf, if_false, Bool.false_eq_true]
  rw [hcid]
  simp only [hcall]
  simp only [if_neg (not_not_intro hfull)]
  unfold BPT.nodeRightNode BPT.nodeLeftNode BPT.nodeUpKey2 BPT.nodeMid BPT.nodeKeys2 BPT.nodeChildren2
  rw [hleaf]

/-- A known element splits a list at its index. -/
theorem bpt_get?_splice (l : List α) (i : Nat) (a : α) (h : l.get? i = some a) :
    l = l.take i ++ a :: l.drop (i + 1) := by
  induction l generalizing i with
  | nil => simp at h
  | cons x xs ih =>
      cases i with
      | zero =>
          simp only [List.get?_cons_zero, Option.some_inj] at h
          rw [h]
          rfl
      | succ i =>
          simp only [List.get?_cons_succ] at h
          simp only [List.take_succ_cons, List.drop_succ_cons, List.cons_append,
            List.cons.injEq, true_and]
          exact ih i h

/-- Function `head?` of an append with a nonempty left factor. -/
theorem bpt_head?_append_left (l1 l2 : List α) (h : l1 ≠ []) :
    (l1 ++ l2).head? = l1.head? := by
  cases l1 with
  | nil => exact absurd rfl h
  | cons x xs => rfl

/-- Function `head?` congruence across an append. -/
theorem bpt_head?_append_congr (LA X Y : List α)
    (h : X.head? = Y.head?) : (LA ++ X).head? = (LA ++ Y).head? := by
  cases LA with
  | nil => exact h
  | cons a as => rfl

/-- Function `nextOf` congruence from pointwise store agreement. -/
theorem bpt_nextOf_congr (store store2 : BPT.Store) (l : Nat)
    (h : store2.get? l = store.get? l) : BPT.nextOf store2 l = BPT.nextOf store l := by
  simp only [List.get?_eq_getElem?] at h
  simp [BPT.nextOf, h]

/-- The root id is among a view's ids. -/
theorem bpt_vid_mem_ids (v : BPT.View) : BPT.vid v ∈ BPT.ids v := by
  cases v with
  | leaf i ps => simp [BPT.ids, BPT.vid]
  | node i ks cs => simp [BPT.ids, BPT.vid]

/-- Replacing a middle segment by one with the same multiset plus an
extra pair shifts the whole multiset by that pair. -/
theorem bpt_multiset_splice (FA FB FC FC2 : List (Int × Nat)) (k : Int) (r : Nat)
    (h : (FC2 : Multiset (Int × Nat)) = (k, r) ::ₘ (FC : Multiset (Int × Nat))) :
    ((FA ++ (FC2 ++ FB) : List (Int × Nat)) : Multiset (Int × Nat)) =
      (k, r) ::ₘ ((FA ++ (FC ++ FB) : List (Int × Nat)) : Multiset (Int × Nat)) := by
  have h1 : ((FA ++ (FC2 ++ FB) : List (Int × Nat)) : Multiset (Int × Nat)) =
      (FA : Multiset (Int × Nat)) + ((FC2 : Multiset (Int × Nat)) +
        (FB : Multiset (Int × Nat))) := by
    exact_mod_cast rfl
  have h2 : ((FA ++ (FC ++ FB) : List (Int × Nat)) : Multiset (Int × Nat)) =
      (FA : Multiset (Int × Nat)) + ((FC : Multiset (Int × Nat)) +
        (FB : Multiset (Int × Nat))) := by
    exact_mod_cast rfl
  rw [h1, h2, h]
  simp only [← Multiset.singleton_add]
  abel

/-- Splicing one view into a child list at id level. -/
theorem bpt_idsList_splice1 (A B : List BPT.View) (w : BPT.View) :
    BPT.idsList (A ++ w :: B) = BPT.idsList A ++ (BPT.ids w ++ BPT.idsList B) := by
  rw [bpt_idsList_append]
  rfl

/-- Splicing two views into a child list at id level. -/
theorem bpt_idsList_splice2 (A B : List BPT.View) (w1 w2 : BPT.View) :
    BPT.idsList (A ++ w1 :: w2 :: B) =
      BPT.idsList A ++ ((BPT.ids w1 ++ BPT.ids w2) ++ BPT.idsList B) := by
  rw [bpt_idsList_append]
  simp [BPT.idsList, List.append_assoc]

/-- Splicing one view into a child list at leaf level. -/
theorem bpt_leafSeqList_splice1 (A B : List BPT.View) (w : BPT.View) :
    BPT.leafSeqList (A ++ w :: B) =
      BPT.leafSeqList A ++ (BPT.leafSeq w ++ BPT.leafSeqList B) := by
  rw [bpt_leafSeqList_append]
  rfl

/-- Splicing two views into a child list at leaf level. -/
theorem bpt_leafSeqList_splice2 (A B : List BPT.View) (w1 w2 : BPT.View) :
    BPT.leafSeqList (A ++ w1 :: w2 :: B) =
      BPT.leafSeqList A ++ ((BPT.leafSeq w1 ++ BPT.leafSeq w2) ++ BPT.leafSeqList B) := by
  rw [bpt_leafSeqList_append]
  simp [BPT.leafSeqList, List.append_assoc]

/-- Python `insert` right after a known element. -/
theorem bpt_insertAt_succ_at (n : Nat) (a b : α) (L1 L2 : List α) (h : L1.length = n) :
    BPT.insertAt (n + 1) a (L1 ++ b :: L2) = L1 ++ b :: a :: L2 := by
  induction L1 generalizing n with
  | nil =>
      subst h
      rfl
  | cons x xs ih =>
      cases n with
      | zero => simp at h
      | succ n =>
          simp only [List.cons_append, BPT.insertAt, List.append_eq]
          rw [ih n (by simpa using h)]

/-- Leaf ids of a list of represented views are among its ids. -/
theorem bpt_leafSeqList_fst_sub (store : BPT.Store) (ws : List BPT.View)
    (hws : ∀ w ∈ ws, BPT.Rep store w) :
    ∀ l ∈ (BPT.leafSeqList ws).map Prod.fst, l ∈ BPT.idsList ws := by
  intro l hl
  simp only [List.mem_map] at hl
  obtain ⟨p, hp, hpl⟩ := hl
  obtain ⟨w, hw, hpw⟩ := bpt_mem_leafSeqList p ws hp
  apply bpt_mem_idsList w ws hw
  refine (bpt_leafIds_sublist store w (hws w hw)).subset ?_
  simp only [BPT.leafIds, List.mem_map]
  exact ⟨p, hpw, hpl⟩

/-- Appending one element is a multiset cons. -/
theorem bpt_coe_append_singleton (l : List (Int × Nat)) (e : Int × Nat) :
    ((l ++ [e] : List (Int × Nat)) : Multiset (Int × Nat)) =
      e ::ₘ (l : Multiset (Int × Nat)) := by
  induction l with
  | nil => rfl
  | cons x xs ih =>
      simp only [List.cons_append, ← Multiset.cons_coe, ih]
      exact Multiset.cons_swap x e xs

/-- Function `nextOf` reads the stored node. -/
theorem bpt_nextOf_eq (store : BPT.Store) (l : Nat) (node : BPT.Node)
    (h : store.get? l = some node) : BPT.nextOf store l = node.next_leaf := by
  simp only [List.get?_eq_getElem?] at h
  simp [BPT.nextOf, h]

/-- Simulation of `_insert_aux` over a represented view: the call
succeeds, untouched node ids keep their contents, and the result is a
view (or a split pair of views) of the new store rooted at the same id,
with duplicate-free ids drawn from the old view and freshly appended
ids, the same first leaf, a re-linked leaf chain, and the old leaf
pairs plus the inserted `(key, ptr)` pair. -/
theorem bpt_insertAux_sim (order : Nat) (k : Int) (r : Nat)
    (store : BPT.Store) (v : BPT.View) (hrep : BPT.Rep store v) :
    ∀ fuel, BPT.height v < fuel → (BPT.ids v).Nodup →
    (∀ j ∈ BPT.ids v, j < store.length) →
    ∃ store2 res,
      BPT.insertAux order fuel store (BPT.vid v) k r = some (store2, res) ∧
      store.length ≤ store2.length ∧
      (∀ j, j < store.length → j ∉ BPT.ids v → store2.get? j = store.get? j) ∧
      ((∃ v2, res = none ∧ BPT.Rep store2 v2 ∧ BPT.vid v2 = BPT.vid v ∧
          (∀ j ∈ BPT.ids v2, j ∈ BPT.ids v ∨ (store.length ≤ j ∧ j < store2.length)) ∧
          (BPT.ids v2).Nodup ∧
          (BPT.leafIds v2).head? = (BPT.leafIds v).head? ∧
          (∀ after, BPT.Chain store (BPT.leafIds v) after →
            BPT.Chain store2 (BPT.leafIds v2) after) ∧
          (BPT.flatten v2 : Multiset (Int × Nat)) =
            (k, r) ::ₘ (BPT.flatten v : Multiset (Int × Nat))) ∨
        (∃ vl vr up, res = some (up, BPT.vid vr) ∧
          BPT.Rep store2 vl ∧ BPT.Rep store2 vr ∧
          BPT.vid vl = BPT.vid v ∧
          store.length ≤ BPT.vid vr ∧
          (∀ j ∈ BPT.ids vl ++ BPT.ids vr,
            j ∈ BPT.ids v ∨ (store.length ≤ j ∧ j < store2.length)) ∧
          (BPT.ids vl ++ BPT.ids vr).Nodup ∧
          (BPT.leafIds vl).head? = (BPT.leafIds v).head? ∧
          (∀ after, BPT.Chain store (BPT.leafIds v) after →
            BPT.Chain store2 (BPT.leafIds vl ++ BPT.leafIds vr) after) ∧
          ((BPT.flatten vl ++ BPT.flatten vr : List (Int × Nat)) :
              Multiset (Int × Nat)) =
            (k, r) ::ₘ (BPT.flatten v : Multiset (Int × Nat)))) := by
  induction hrep with
  | leaf nid node hget hleaf =>
      intro fuel hfuel hnodup hbound
      cases fuel with
      | zero => exact absurd hfuel (Nat.not_lt_zero _)
      | succ f =>
          have hnidlt : nid < store.length := hbound nid (by simp [BPT.ids])
          by_cases hfl : (BPT.leafPairs2 node k r).length > node.block_factor
          · -- leaf split
            refine ⟨(store ++ [BPT.leafSplitNewNode order node k r]).set nid
                (BPT.leafSplitLeftNode node k r store.length),
              some (BPT.leafUpKey node k r, store.length), ?_, ?_, ?_, ?_⟩
            · simpa only [BPT.vid] using
                bpt_insertAux_leaf_split order f store nid k r node hget hleaf hfl
            · simp
            · intro j hjlt hjne
              have hjnid : j ≠ nid := by simpa [BPT.ids] using hjne
              rw [bpt_get?_set_other _ _ _ _ hjnid, bpt_get?_append_left _ _ _ hjlt]
            · right
              have hget1 : ((store ++ [BPT.leafSplitNewNode order node k r]).set nid
                  (BPT.leafSplitLeftNode node k r store.length)).get? nid =
                    some (BPT.leafSplitLeftNode node k r store.length) :=
                bpt_get?_set_self _ _ _ (by simp; omega)
              have hget2 : ((store ++ [BPT.leafSplitNewNode order node k r]).set nid
                  (BPT.leafSplitLeftNode node k r store.length)).get? store.length =
                    some (BPT.leafSplitNewNode order node k r) := by
                rw [bpt_get?_set_other _ _ _ _ (by omega)]
                exact bpt_get?_append_self _ _
              refine ⟨.leaf nid (BPT.leafLeft node k r),
                .leaf store.length (BPT.leafRight node k r),
                BPT.leafUpKey node k r, rfl, ?_, ?_, rfl, ?_, ?_, ?_, ?_, ?_, ?_⟩
              · exact BPT.Rep.leaf nid (BPT.leafSplitLeftNode node k r store.length)
                  hget1 hleaf
              · exact BPT.Rep.leaf store.length (BPT.leafSplitNewNode order node k r)
                  hget2 rfl
              · exact le_refl _
              · intro j hj
                simp only [BPT.ids, List.cons_append, List.nil_append, List.mem_cons,
                  List.not_mem_nil, or_false] at hj
                rcases hj with rfl | rfl
                · exact Or.inl (by simp [BPT.ids])
                · exact Or.inr ⟨le_refl _, by simp⟩
              · simp only [BPT.ids, List.cons_append, List.nil_append]
                simp [List.nodup_cons]
                omega
              · simp [BPT.leafIds, BPT.leafSeq]
              · intro after hch
                simp only [BPT.leafIds, BPT.leafSeq, List.map_cons, List.map_nil,
                  List.cons_append, List.nil_append, BPT.Chain, BPT.headOr,
                  and_true] at hch ⊢
                constructor
                · rw [bpt_nextOf_eq _ _ _ hget1]
                  rfl
                · rw [bpt_nextOf_eq _ _ _ hget2]
                  rw [bpt_nextOf_eq _ _ _ hget] at hch
                  exact hch
              · simp only [BPT.flatten, BPT.leafSeq, List.map_cons, List.map_nil,
                  List.flatten_cons, List.flatten_nil, List.append_nil]
                rw [show BPT.leafLeft node k r ++ BPT.leafRight node k r =
                    BPT.leafPairs2 node k r from List.take_append_drop _ _]
                simp only [BPT.leafPairs2, bpt_sortPairs_perm]
                exact bpt_coe_append_singleton node.pairs (k, r)
          · -- leaf stays
            refine ⟨store.set nid (BPT.leafNoSplitNode node k r), none, ?_, ?_, ?_, ?_⟩
            · simpa only [BPT.vid] using
                bpt_insertAux_leaf_no_split order f store nid k r node hget hleaf hfl
            · simp
            · intro j hjlt hjne
              have hjnid : j ≠ nid := by simpa [BPT.ids] using hjne
              rw [bpt_get?_set_other _ _ _ _ hjnid]
            · left
              have hget1 : (store.set nid (BPT.leafNoSplitNode node k r)).get? nid =
                  some (BPT.leafNoSplitNode node k r) :=
                bpt_get?_set_self _ _ _ hnidlt
              refine ⟨.leaf nid (BPT.leafPairs2 node k r), rfl, ?_, rfl, ?_, ?_, ?_, ?_, ?_⟩
              · exact BPT.Rep.leaf nid (BPT.leafNoSplitNode node k r) hget1 hleaf
              · intro j hj
                simp only [BPT.ids, List.mem_cons, List.not_mem_nil, or_false] at hj
                subst hj
                exact Or.inl (by simp [BPT.ids])
              · simp [BPT.ids]
              · simp [BPT.leafIds, BPT.leafSeq]
              · intro after hch
                simp only [BPT.leafIds, BPT.leafSeq, List.map_cons, List.map_nil,
                  BPT.Chain, BPT.headOr, and_true] at hch ⊢
                rw [bpt_nextOf_eq _ _ _ hget1]
                rw [bpt_nextOf_eq _ _ _ hget] at hch
                exact hch
              · simp only [BPT.flatten, BPT.leafSeq, List.map_cons, List.map_nil,
                  List.flatten_cons, List.flatten_nil, List.append_nil]
                simp only [BPT.leafPairs2, bpt_sortPairs_perm]
                exact bpt_coe_append_singleton node.pairs (k, r)
  | node nid node vs hget hlf hsz hcl hch hall ih =>
      intro fuel hfuel hnodup hbound
      cases fuel with
      | zero => exact absurd hfuel (Nat.not_lt_zero _)
      | succ f =>
          have hnidlt : nid < store.length := hbound nid (by simp [BPT.ids])
          have hidsv : BPT.ids (BPT.View.node nid node.keys vs) =
              nid :: BPT.idsList vs := rfl
          have hnodupvs : (BPT.idsList vs).Nodup := by
            rw [hidsv, List.nodup_cons] at hnodup
            exact hnodup.2
          have hnidnotin : nid ∉ BPT.idsList vs := by
            rw [hidsv, List.nodup_cons] at hnodup
            exact hnodup.1
          have hvslen : vs.length = node.keys.length + 1 := by
            have h1 := congrArg List.length hch
            rw [List.length_map] at h1
            omega
          have hile : BPT.descendIndex node k ≤ node.keys.length := by
            have h1 : ((node.keys.take node.size).takeWhile
                (fun x => x < k)).length ≤ (node.keys.take node.size).length :=
              (List.takeWhile_sublist _).length_le
            have h2 : (node.keys.take node.size).length ≤ node.keys.length := by
              simp [List.length_take]
            simp only [BPT.descendIndex]
            omega
          have hilt : BPT.descendIndex node k < vs.length := by omega
          obtain ⟨vchild, hvchild⟩ :
              ∃ w, vs.get? (BPT.descendIndex node k) = some w :=
            ⟨_, List.get?_eq_get hilt⟩
          have hmemchild : vchild ∈ vs := List.get?_mem hvchild
          have hcid : node.children.get? (BPT.descendIndex node k) =
              some (BPT.vid vchild) := by
            rw [hch, List.get?_map, hvchild]
            rfl
          have hhch2 : BPT.height vchild < f := by
            have h1 := bpt_height_mem vchild vs hmemchild
            simp only [BPT.height] at hfuel
            omega
          have hchnodup : (BPT.ids vchild).Nodup :=
            List.Nodup.sublist (bpt_ids_sublist_of_mem vchild vs hmemchild) hnodupvs
          have hchbound : ∀ j ∈ BPT.ids vchild, j < store.length := fun j hj =>
            hbound j (by
              rw [hidsv]
              exact List.mem_cons_of_mem _ (bpt_mem_idsList vchild vs hmemchild j hj))
          obtain ⟨store2, res, hcall, hlen2, hframe2, hpost⟩ :=
            ih vchild hmemchild f hhch2 hchnodup hchbound
          have hnidnotchild : nid ∉ BPT.ids vchild := fun hx =>
            hnidnotin (bpt_mem_idsList vchild vs hmemchild nid hx)
          have hvsdec : vs = vs.take (BPT.descendIndex node k) ++
              vchild :: vs.drop (BPT.descendIndex node k + 1) :=
            bpt_get?_splice vs _ vchild hvchild
          have hmemvs : ∀ w, w ∈ vs.take (BPT.descendIndex node k) ∨
              w ∈ vs.drop (BPT.descendIndex node k + 1) → w ∈ vs := by
            intro w hw
            rw [hvsdec]
            rcases hw with hw | hw
            · exact List.mem_append.mpr (Or.inl hw)
            · exact List.mem_append.mpr (Or.inr (List.mem_cons_of_mem _ hw))
          have hdisjC : ∀ j, j ∈ BPT.idsList (vs.take (BPT.descendIndex node k)) ∨
              j ∈ BPT.idsList (vs.drop (BPT.descendIndex node k + 1)) →
              j ∉ BPT.ids vchild := by
            have hnd := hnodupvs
            rw [hvsdec, bpt_idsList_splice1] at hnd
            simp only [List.nodup_append, List.disjoint_left, List.mem_append] at hnd
            obtain ⟨hA, ⟨hC, hB, hCB⟩, hACB⟩ := hnd
            intro j hj hjc
            rcases hj with hj | hj
            · exact hACB hj (Or.inl hjc)
            · exact hCB hjc hj
          have hABmemv : ∀ j, j ∈ BPT.idsList (vs.take (BPT.descendIndex node k)) ∨
              j ∈ BPT.idsList (vs.drop (BPT.descendIndex node k + 1)) ∨ j = nid →
              j ∈ BPT.ids (BPT.View.node nid node.keys vs) := by
            intro j hj
            rw [hidsv]
            rcases hj with hj | hj | hj
            · refine List.mem_cons_of_mem _ ?_
              rw [hvsdec, bpt_idsList_splice1]
              exact List.mem_append.mpr (Or.inl hj)
            · refine List.mem_cons_of_mem _ ?_
              rw [hvsdec, bpt_idsList_splice1]
              exact List.mem_append.mpr (Or.inr (List.mem_append.mpr (Or.inr hj)))
            · rw [hj]
              exact List.mem_cons_self _ _
          have hframeO : ∀ j, j ∈ BPT.idsList (vs.take (BPT.descendIndex node k)) ∨
              j ∈ BPT.idsList (vs.drop (BPT.descendIndex node k + 1)) ∨ j = nid →
              store2.get? j = store.get? j := by
            intro j hj
            have hjlt : j < store.length := hbound j (hABmemv j hj)
            rcases hj with hj | hj | hj
            · exact hframe2 j hjlt (hdisjC j (Or.inl hj))
            · exact hframe2 j hjlt (hdisjC j (Or.inr hj))
            · exact hframe2 j hjlt (hj ▸ hnidnotchild)
          have hstable : ∀ w, w ∈ vs.take (BPT.descendIndex node k) ∨
              w ∈ vs.drop (BPT.descendIndex node k + 1) → BPT.Rep store2 w := by
            intro w hw
            refine bpt_rep_stable store store2 w (hall w (hmemvs w hw)) ?_
            intro j hj
            refine hframeO j ?_
            rcases hw with hw | hw
            · exact Or.inl (bpt_mem_idsList w _ hw j hj)
            · exact Or.inr (Or.inl (bpt_mem_idsList w _ hw j hj))
          have hleafABsub : ∀ l,
              l ∈ (BPT.leafSeqList (vs.take (BPT.descendIndex node k))).map Prod.fst ∨
              l ∈ (BPT.leafSeqList (vs.drop (BPT.descendIndex node k + 1))).map Prod.fst →
              l ∈ BPT.idsList (vs.take (BPT.descendIndex node k)) ∨
              l ∈ BPT.idsList (vs.drop (BPT.descendIndex node k + 1)) := by
            intro l hl
            rcases hl with hl | hl
            · exact Or.inl (bpt_leafSeqList_fst_sub store _
                (fun w hw => hall w (hmemvs w (Or.inl hw))) l hl)
            · exact Or.inr (bpt_leafSeqList_fst_sub store _
                (fun w hw => hall w (hmemvs w (Or.inr hw))) l hl)
          have hleafv : BPT.leafIds (BPT.View.node nid node.keys vs) =
              (BPT.leafSeqList (vs.take (BPT.descendIndex node k))).map Prod.fst ++
              (BPT.leafIds vchild ++
                (BPT.leafSeqList (vs.drop (BPT.descendIndex node k + 1))).map Prod.fst) := by
            simp only [BPT.leafIds, BPT.leafSeq]
            conv_lhs => rw [hvsdec]
            rw [bpt_leafSeqList_splice1]
            simp [List.map_append]
          have hflatv : BPT.flatten (BPT.View.node nid node.keys vs) =
              ((BPT.leafSeqList (vs.take (BPT.descendIndex node k))).map Prod.snd).flatten ++
              (BPT.flatten vchild ++
                ((BPT.leafSeqList (vs.drop (BPT.descendIndex node k + 1))).map Prod.snd).flatten) := by
            simp only [BPT.flatten, BPT.leafSeq]
            conv_lhs => rw [hvsdec]
            rw [bpt_leafSeqList_splice1]
            simp [List.map_append, List.flatten_append]
          have hashape : (nid :: BPT.idsList (vs.take (BPT.descendIndex node k))) ++
              (BPT.ids vchild ++ BPT.idsList (vs.drop (BPT.descendIndex node k + 1))) =
              BPT.ids (BPT.View.node nid node.keys vs) := by
            rw [hidsv]
            conv_rhs => rw [hvsdec]
            rw [bpt_idsList_splice1]
            rfl
          rcases hpost with ⟨v2, hres, hrepv2, hvid2, hmem2, hnd2, hhead2, hchain2, hmul2⟩ |
            ⟨vl, vr, up, hres, hrepvl, hrepvr, hvidl, hfreshr, hmem2, hnd2, hhead2, hchain2, hmul2⟩
          · -- child absorbed the insert: parent passes the store through
            subst hres
            have hchildren2 : node.children = (vs.take (BPT.descendIndex node k) ++
                v2 :: vs.drop (BPT.descendIndex node k + 1)).map BPT.vid := by
              rw [hch]
              conv_lhs => rw [hvsdec]
              simp only [List.map_append, List.map_cons]
              rw [hvid2]
            have hget2' : store2.get? nid = some node :=
              (hframe2 nid hnidlt hnidnotchild).trans hget
            have hashape2 : (nid :: BPT.idsList (vs.take (BPT.descendIndex node k))) ++
                (BPT.ids v2 ++ BPT.idsList (vs.drop (BPT.descendIndex node k + 1))) =
                BPT.ids (BPT.View.node nid node.keys (vs.take (BPT.descendIndex node k) ++
                  v2 :: vs.drop (BPT.descendIndex node k + 1))) := by
              show _ = nid :: BPT.idsList _
              rw [bpt_idsList_splice1]
              rfl
            obtain ⟨hndout, hmemout⟩ := bpt_splice_nodup
              (nid :: BPT.idsList (vs.take (BPT.descendIndex node k)))
              (BPT.idsList (vs.drop (BPT.descendIndex node k + 1)))
              (BPT.ids vchild) (BPT.ids v2) store.length store2.length
              (by rw [hashape]; exact hnodup)
              (fun j hj => hbound j (hashape ▸ hj)) hmem2 hnd2
            have hleafv2 : BPT.leafIds (BPT.View.node nid node.keys
                (vs.take (BPT.descendIndex node k) ++
                  v2 :: vs.drop (BPT.descendIndex node k + 1))) =
                (BPT.leafSeqList (vs.take (BPT.descendIndex node k))).map Prod.fst ++
                (BPT.leafIds v2 ++
                  (BPT.leafSeqList (vs.drop (BPT.descendIndex node k + 1))).map Prod.fst) := by
              simp only [BPT.leafIds, BPT.leafSeq]
              rw [bpt_leafSeqList_splice1]
              simp [List.map_append]
            have hflatv2 : BPT.flatten (BPT.View.node nid node.keys
                (vs.take (BPT.descendIndex node k) ++
                  v2 :: vs.drop (BPT.descendIndex node k + 1))) =
                ((BPT.leafSeqList (vs.take (BPT.descendIndex node k))).map Prod.snd).flatten ++
                (BPT.flatten v2 ++
                  ((BPT.leafSeqList (vs.drop (BPT.descendIndex node k + 1))).map Prod.snd).flatten) := by
              simp only [BPT.flatten, BPT.leafSeq]
              rw [bpt_leafSeqList_splice1]
              simp [List.map_append, List.flatten_append]
            refine ⟨store2, none, ?_, hlen2, ?_, ?_⟩
            · exact bpt_insertAux_node_pass order f store store2 nid (BPT.vid vchild)
                k r node hget hlf hcid hcall
            · intro j hjlt hjne
              refine hframe2 j hjlt (fun hjc => hjne ?_)
              rw [hidsv]
              exact List.mem_cons_of_mem _ (bpt_mem_idsList vchild vs hmemchild j hjc)
            · left
              refine ⟨BPT.View.node nid node.keys (vs.take (BPT.descendIndex node k) ++
                  v2 :: vs.drop (BPT.descendIndex node k + 1)), rfl, ?_, rfl, ?_, ?_, ?_, ?_, ?_⟩
              · refine BPT.Rep.node nid node _ hget2' hlf hsz hcl hchildren2 ?_
                intro w hw
                rcases List.mem_append.mp hw with hw | hw
                · exact hstable w (Or.inl hw)
                · rcases List.mem_cons.mp hw with hw | hw
                  · exact hw ▸ hrepv2
                  · exact hstable w (Or.inr hw)
              · intro j hj
                have := hmemout j (hashape2 ▸ hj)
                rwa [hashape] at this
              · rw [← hashape2]
                exact hndout
              · rw [hleafv, hleafv2]
                refine bpt_head?_append_congr _ _ _ ?_
                rw [bpt_head?_append_left _ _ (bpt_leafIds_ne_nil store2 v2 hrepv2),
                  bpt_head?_append_left _ _
                    (bpt_leafIds_ne_nil store vchild (hall vchild hmemchild))]
                exact hhead2
              · intro after hchn
                rw [hleafv] at hchn
                rw [hleafv2]
                refine bpt_chain_splice store store2 _ _ _ _ after
                  (bpt_leafIds_ne_nil store vchild (hall vchild hmemchild))
                  (bpt_leafIds_ne_nil store2 v2 hrepv2) hhead2 ?_ hchain2 hchn
                intro l hl
                refine bpt_nextOf_congr store store2 l ?_
                rcases hleafABsub l hl with h1 | h1
                · exact hframeO l (Or.inl h1)
                · exact hframeO l (Or.inr (Or.inl h1))
              · rw [hflatv, hflatv2]
                exact bpt_multiset_splice _ _ _ _ k r hmul2
          · -- child split
            subst hres
            have hchildren2 : BPT.nodeChildren2 node k (BPT.vid vr) =
                (vs.take (BPT.descendIndex node k) ++ vl :: vr :: vs.drop (BPT.descendIndex node k + 1)).map BPT.vid := by
              unfold BPT.nodeChildren2
              rw [hch]
              conv_lhs => rw [hvsdec]
              rw [List.map_append, List.map_cons]
              rw [bpt_insertAt_succ_at _ _ _ _ _
                (by rw [List.length_map, List.length_take]; omega)]
              simp only [List.map_append, List.map_cons]
              rw [hvidl]
            have hget2' : store2.get? nid = some node :=
              (hframe2 nid hnidlt hnidnotchild).trans hget
            have hk2len : (BPT.nodeKeys2 node k up).length = node.keys.length + 1 := by
              unfold BPT.nodeKeys2
              rw [bpt_insertAt_length]
            have hc2len : (BPT.nodeChildren2 node k (BPT.vid vr)).length =
                node.keys.length + 2 := by
              unfold BPT.nodeChildren2
              rw [bpt_insertAt_length, hcl]
            have hids2eq : BPT.idsList (vs.take (BPT.descendIndex node k) ++ vl :: vr :: vs.drop (BPT.descendIndex node k + 1)) =
                BPT.idsList (vs.take (BPT.descendIndex node k)) ++
                  ((BPT.ids vl ++ BPT.ids vr) ++ BPT.idsList (vs.drop (BPT.descendIndex node k + 1))) :=
              bpt_idsList_splice2 _ _ _ _
            obtain ⟨hndout, hmemout⟩ := bpt_splice_nodup
              (nid :: BPT.idsList (vs.take (BPT.descendIndex node k))) (BPT.idsList (vs.drop (BPT.descendIndex node k + 1)))
              (BPT.ids vchild) (BPT.ids vl ++ BPT.ids vr) store.length store2.length
              (by rw [hashape]; exact hnodup)
              (fun j hj => hbound j (hashape ▸ hj)) hmem2 hnd2
            have hnidnot2 : nid ∉ BPT.idsList (vs.take (BPT.descendIndex node k)) ++
                ((BPT.ids vl ++ BPT.ids vr) ++ BPT.idsList (vs.drop (BPT.descendIndex node k + 1))) := by
              have h1 := hndout
              rw [List.cons_append, List.nodup_cons] at h1
              exact h1.1
            have hboundvs2 : ∀ j, j ∈ (nid :: BPT.idsList (vs.take (BPT.descendIndex node k))) ++
                ((BPT.ids vl ++ BPT.ids vr) ++ BPT.idsList (vs.drop (BPT.descendIndex node k + 1))) →
                j < store2.length := by
              intro j hj
              rcases hmemout j hj with hjv | hjf
              · rw [hashape] at hjv
                exact lt_of_lt_of_le (hbound j hjv) hlen2
              · exact hjf.2
            have hLC2ne : BPT.leafIds vl ++ BPT.leafIds vr ≠ [] := fun hcon =>
              bpt_leafIds_ne_nil store2 vl hrepvl (List.append_eq_nil.mp hcon).1
            have hLCne : BPT.leafIds vchild ≠ [] :=
              bpt_leafIds_ne_nil store vchild (hall vchild hmemchild)
            have hheadlr : (BPT.leafIds vl ++ BPT.leafIds vr).head? =
                (BPT.leafIds vchild).head? := by
              rw [bpt_head?_append_left _ _ (bpt_leafIds_ne_nil store2 vl hrepvl)]
              exact hhead2
            have hleafv2 : (BPT.leafSeqList (vs.take (BPT.descendIndex node k) ++ vl :: vr :: vs.drop (BPT.descendIndex node k + 1))).map
                Prod.fst =
                (BPT.leafSeqList (vs.take (BPT.descendIndex node k))).map Prod.fst ++
                ((BPT.leafIds vl ++ BPT.leafIds vr) ++
                  (BPT.leafSeqList (vs.drop (BPT.descendIndex node k + 1))).map Prod.fst) := by
              rw [bpt_leafSeqList_splice2]
              simp [BPT.leafIds, List.map_append]
            have hflatv2 : ((BPT.leafSeqList (vs.take (BPT.descendIndex node k) ++ vl :: vr :: vs.drop (BPT.descendIndex node k + 1))).map
                Prod.snd).flatten =
                ((BPT.leafSeqList (vs.take (BPT.descendIndex node k))).map Prod.snd).flatten ++
                ((BPT.flatten vl ++ BPT.flatten vr) ++
                  ((BPT.leafSeqList (vs.drop (BPT.descendIndex node k + 1))).map Prod.snd).flatten) := by
              rw [bpt_leafSeqList_splice2]
              simp [BPT.flatten, List.map_append, List.flatten_append]
            have hnidlr : nid ∉ BPT.ids vl ++ BPT.ids vr := by
              intro hx
              rcases hmem2 nid hx with hx2 | hx2
              · exact hnidnotchild hx2
              · omega
            have hlrsub : ∀ l, l ∈ BPT.leafIds vl ++ BPT.leafIds vr →
                l ∈ BPT.ids vl ++ BPT.ids vr := by
              intro l hl
              rcases List.mem_append.mp hl with hl | hl
              · exact List.mem_append.mpr
                  (Or.inl ((bpt_leafIds_sublist store2 vl hrepvl).subset hl))
              · exact List.mem_append.mpr
                  (Or.inr ((bpt_leafIds_sublist store2 vr hrepvr).subset hl))
            have hrep2all : ∀ w, w ∈ vs.take (BPT.descendIndex node k) ++ vl :: vr :: vs.drop (BPT.descendIndex node k + 1) →
                BPT.Rep store2 w := by
              intro w hw
              rcases List.mem_append.mp hw with hw | hw
              · exact hstable w (Or.inl hw)
              · rcases List.mem_cons.mp hw with hw | hw
                · exact hw ▸ hrepvl
                · rcases List.mem_cons.mp hw with hw2 | hw2
                  · exact hw2 ▸ hrepvr
                  · exact hstable w (Or.inr hw2)
            have hidw2 : ∀ w, w ∈ vs.take (BPT.descendIndex node k) ++ vl :: vr :: vs.drop (BPT.descendIndex node k + 1) →
                ∀ j ∈ BPT.ids w, j ∈ (nid :: BPT.idsList (vs.take (BPT.descendIndex node k))) ++
                  ((BPT.ids vl ++ BPT.ids vr) ++ BPT.idsList (vs.drop (BPT.descendIndex node k + 1))) := by
              intro w hw j hj
              rw [List.cons_append]
              refine List.mem_cons_of_mem _ ?_
              rw [← hids2eq]
              exact bpt_mem_idsList w _ hw j hj
            have hjne2 : ∀ j, j ∈ BPT.idsList (vs.take (BPT.descendIndex node k)) ++
                ((BPT.ids vl ++ BPT.ids vr) ++ BPT.idsList (vs.drop (BPT.descendIndex node k + 1))) →
                j ≠ nid := by
              intro j hj he
              exact hnidnot2 (he ▸ hj)
            by_cases hfl2 : node.size + 1 > node.block_factor
            · -- parent splits too
              have hmidle : BPT.nodeMid node ≤ node.keys.length := by
                unfold BPT.nodeMid
                omega
              have hget3l : ((store2 ++ [BPT.nodeRightNode order node k up (BPT.vid vr)]).set nid (BPT.nodeLeftNode node k up (BPT.vid vr))).get? nid = some (BPT.nodeLeftNode node k up (BPT.vid vr)) :=
                bpt_get?_set_self _ _ _ (by
                  simp only [List.length_append, List.length_cons, List.length_nil]
                  omega)
              have hget3r : ((store2 ++ [BPT.nodeRightNode order node k up (BPT.vid vr)]).set nid (BPT.nodeLeftNode node k up (BPT.vid vr))).get? store2.length =
                  some (BPT.nodeRightNode order node k up (BPT.vid vr)) := by
                rw [bpt_get?_set_other _ _ _ _ (by omega)]
                exact bpt_get?_append_self _ _
              have hchl : (BPT.nodeChildren2 node k (BPT.vid vr)).take (BPT.nodeMid node + 1) =
                  ((vs.take (BPT.descendIndex node k) ++ vl :: vr :: vs.drop (BPT.descendIndex node k + 1)).take (BPT.nodeMid node + 1)).map BPT.vid := by
                rw [hchildren2]
                exact (List.map_take _ _ _).symm
              have hchr : (BPT.nodeChildren2 node k (BPT.vid vr)).drop (BPT.nodeMid node + 1) =
                  ((vs.take (BPT.descendIndex node k) ++ vl :: vr :: vs.drop (BPT.descendIndex node k + 1)).drop (BPT.nodeMid node + 1)).map BPT.vid := by
                rw [hchildren2]
                exact (List.map_drop _ _ _).symm
              have hstable3 : ∀ w, w ∈ vs.take (BPT.descendIndex node k) ++ vl :: vr :: vs.drop (BPT.descendIndex node k + 1) →
                  BPT.Rep ((store2 ++ [BPT.nodeRightNode order node k up (BPT.vid vr)]).set nid (BPT.nodeLeftNode node k up (BPT.vid vr))) w := by
                intro w hw
                refine bpt_rep_stable store2 _ w (hrep2all w hw) ?_
                intro j hj
                have hjmem : j ∈ BPT.idsList (vs.take (BPT.descendIndex node k)) ++
                    ((BPT.ids vl ++ BPT.ids vr) ++ BPT.idsList (vs.drop ((BPT.descendIndex node k) + 1))) := by
                  rw [← hids2eq]
                  exact bpt_mem_idsList w _ hw j hj
                have hjn : j ≠ nid := hjne2 j hjmem
                have hjlt : j < store2.length := hboundvs2 j (by
                  rw [List.cons_append]
                  exact List.mem_cons_of_mem _ hjmem)
                rw [bpt_get?_set_other _ _ _ _ hjn]
                exact bpt_get?_append_left _ _ _ hjlt
              have hrepvl' : BPT.Rep ((store2 ++ [BPT.nodeRightNode order node k up (BPT.vid vr)]).set nid (BPT.nodeLeftNode node k up (BPT.vid vr)))
                  (BPT.View.node nid ((BPT.nodeKeys2 node k up).take (BPT.nodeMid node))
                    ((vs.take (BPT.descendIndex node k) ++ vl :: vr :: vs.drop (BPT.descendIndex node k + 1)).take (BPT.nodeMid node + 1))) := by
                refine BPT.Rep.node nid (BPT.nodeLeftNode node k up (BPT.vid vr)) _ hget3l hlf rfl ?_ hchl ?_
                · show ((BPT.nodeChildren2 node k (BPT.vid vr)).take
                      (BPT.nodeMid node + 1)).length =
                    ((BPT.nodeKeys2 node k up).take (BPT.nodeMid node)).length + 1
                  simp only [List.length_take, hk2len, hc2len]
                  omega
                · intro w hw
                  exact hstable3 w ((List.take_sublist _ _).subset hw)
              have hrepvr' : BPT.Rep ((store2 ++ [BPT.nodeRightNode order node k up (BPT.vid vr)]).set nid (BPT.nodeLeftNode node k up (BPT.vid vr)))
                  (BPT.View.node store2.length
                    ((BPT.nodeKeys2 node k up).drop (BPT.nodeMid node + 1))
                    ((vs.take (BPT.descendIndex node k) ++ vl :: vr :: vs.drop (BPT.descendIndex node k + 1)).drop (BPT.nodeMid node + 1))) := by
                refine BPT.Rep.node store2.length (BPT.nodeRightNode order node k up (BPT.vid vr)) _ hget3r rfl rfl ?_ hchr ?_
                · show ((BPT.nodeChildren2 node k (BPT.vid vr)).drop
                      (BPT.nodeMid node + 1)).length =
                    ((BPT.nodeKeys2 node k up).drop (BPT.nodeMid node + 1)).length + 1
                  simp only [List.length_drop, hk2len, hc2len]
                  omega
                · intro w hw
                  exact hstable3 w ((List.drop_sublist _ _).subset hw)
              have hsplit12 : BPT.idsList ((vs.take (BPT.descendIndex node k) ++ vl :: vr :: vs.drop (BPT.descendIndex node k + 1)).take (BPT.nodeMid node + 1)) ++
                  BPT.idsList ((vs.take (BPT.descendIndex node k) ++ vl :: vr :: vs.drop (BPT.descendIndex node k + 1)).drop (BPT.nodeMid node + 1)) = BPT.idsList (vs.take (BPT.descendIndex node k) ++ vl :: vr :: vs.drop (BPT.descendIndex node k + 1)) := by
                rw [← bpt_idsList_append, List.take_append_drop]
              have hperm : List.Perm
                  ((nid :: BPT.idsList ((vs.take (BPT.descendIndex node k) ++ vl :: vr :: vs.drop (BPT.descendIndex node k + 1)).take (BPT.nodeMid node + 1))) ++
                    store2.length :: BPT.idsList ((vs.take (BPT.descendIndex node k) ++ vl :: vr :: vs.drop (BPT.descendIndex node k + 1)).drop (BPT.nodeMid node + 1)))
                  (store2.length :: nid :: BPT.idsList (vs.take (BPT.descendIndex node k) ++ vl :: vr :: vs.drop (BPT.descendIndex node k + 1))) := by
                rw [← hsplit12, List.cons_append]
                exact List.Perm.trans (List.Perm.cons nid List.perm_middle)
                  (List.Perm.swap _ _ _)
              have hbound2' : ∀ j, j ∈ nid :: BPT.idsList (vs.take (BPT.descendIndex node k) ++ vl :: vr :: vs.drop (BPT.descendIndex node k + 1)) → j < store2.length := by
                intro j hj
                refine hboundvs2 j ?_
                rw [List.cons_append]
                rw [hids2eq] at hj
                exact hj
              have hcombleaf : BPT.leafIds (BPT.View.node nid
                    ((BPT.nodeKeys2 node k up).take (BPT.nodeMid node))
                    ((vs.take (BPT.descendIndex node k) ++ vl :: vr :: vs.drop (BPT.descendIndex node k + 1)).take (BPT.nodeMid node + 1))) ++
                  BPT.leafIds (BPT.View.node store2.length
                    ((BPT.nodeKeys2 node k up).drop (BPT.nodeMid node + 1))
                    ((vs.take (BPT.descendIndex node k) ++ vl :: vr :: vs.drop (BPT.descendIndex node k + 1)).drop (BPT.nodeMid node + 1))) =
                  (BPT.leafSeqList (vs.take (BPT.descendIndex node k) ++ vl :: vr :: vs.drop (BPT.descendIndex node k + 1))).map Prod.fst := by
                simp only [BPT.leafIds, BPT.leafSeq]
                rw [← List.map_append, ← bpt_leafSeqList_append, List.take_append_drop]
              have hcombflat : BPT.flatten (BPT.View.node nid
                    ((BPT.nodeKeys2 node k up).take (BPT.nodeMid node))
                    ((vs.take (BPT.descendIndex node k) ++ vl :: vr :: vs.drop (BPT.descendIndex node k + 1)).take (BPT.nodeMid node + 1))) ++
                  BPT.flatten (BPT.View.node store2.length
                    ((BPT.nodeKeys2 node k up).drop (BPT.nodeMid node + 1))
                    ((vs.take (BPT.descendIndex node k) ++ vl :: vr :: vs.drop (BPT.descendIndex node k + 1)).drop (BPT.nodeMid node + 1))) =
                  ((BPT.leafSeqList (vs.take (BPT.descendIndex node k) ++ vl :: vr :: vs.drop (BPT.descendIndex node k + 1))).map Prod.snd).flatten := by
                simp only [BPT.flatten, BPT.leafSeq]
                rw [← List.flatten_append, ← List.map_append, ← bpt_leafSeqList_append,
                  List.take_append_drop]
              refine ⟨(store2 ++ [BPT.nodeRightNode order node k up (BPT.vid vr)]).set nid (BPT.nodeLeftNode node k up (BPT.vid vr)),
                some (BPT.nodeUpKey2 node k up, store2.length), ?_, ?_, ?_, ?_⟩
              · exact bpt_insertAux_node_split order f store store2 nid (BPT.vid vchild)
                  k up r (BPT.vid vr) node hget hlf hcid hcall hfl2
              · rw [List.length_set]
                simp only [List.length_append, List.length_cons, List.length_nil]
                omega
              · intro j hjlt hjne
                have hjnid : j ≠ nid := by
                  intro he
                  refine hjne ?_
                  rw [he, hidsv]
                  exact List.mem_cons_self _ _
                rw [bpt_get?_set_other _ _ _ _ hjnid,
                  bpt_get?_append_left _ _ _ (lt_of_lt_of_le hjlt hlen2)]
                refine hframe2 j hjlt (fun hjc => hjne ?_)
                rw [hidsv]
                exact List.mem_cons_of_mem _ (bpt_mem_idsList vchild vs hmemchild j hjc)
              · right
                refine ⟨BPT.View.node nid ((BPT.nodeKeys2 node k up).take (BPT.nodeMid node))
                    ((vs.take (BPT.descendIndex node k) ++ vl :: vr :: vs.drop (BPT.descendIndex node k + 1)).take (BPT.nodeMid node + 1)),
                  BPT.View.node store2.length
                    ((BPT.nodeKeys2 node k up).drop (BPT.nodeMid node + 1))
                    ((vs.take (BPT.descendIndex node k) ++ vl :: vr :: vs.drop (BPT.descendIndex node k + 1)).drop (BPT.nodeMid node + 1)),
                  BPT.nodeUpKey2 node k up, rfl, hrepvl', hrepvr', rfl, hlen2,
                  ?_, ?_, ?_, ?_, ?_⟩
                · intro j hj
                  have hj2 := hperm.subset hj
                  rcases List.mem_cons.mp hj2 with h1 | h1
                  · subst h1
                    refine Or.inr ⟨hlen2, ?_⟩
                    rw [List.length_set]
                    simp only [List.length_append, List.length_cons, List.length_nil]
                    omega
                  · have h2 : j ∈ (nid :: BPT.idsList (vs.take (BPT.descendIndex node k))) ++
                        ((BPT.ids vl ++ BPT.ids vr) ++
                          BPT.idsList (vs.drop ((BPT.descendIndex node k) + 1))) := by
                      rw [List.cons_append]
                      rw [hids2eq] at h1
                      exact h1
                    rcases hmemout j h2 with h3 | h3
                    · rw [hashape] at h3
                      exact Or.inl h3
                    · refine Or.inr ⟨h3.1, ?_⟩
                      rw [List.length_set]
                      simp only [List.length_append, List.length_cons, List.length_nil]
                      omega
                · refine (hperm.symm).nodup ?_
                  rw [List.nodup_cons]
                  constructor
                  · intro hx
                    exact absurd (hbound2' _ hx) (lt_irrefl _)
                  · have h1 := hndout
                    rw [List.cons_append] at h1
                    rw [← hids2eq] at h1
                    exact h1
                · have h1 : (BPT.leafIds (BPT.View.node nid
                      ((BPT.nodeKeys2 node k up).take (BPT.nodeMid node))
                      ((vs.take (BPT.descendIndex node k) ++ vl :: vr :: vs.drop (BPT.descendIndex node k + 1)).take (BPT.nodeMid node + 1))) ++
                    BPT.leafIds (BPT.View.node store2.length
                      ((BPT.nodeKeys2 node k up).drop (BPT.nodeMid node + 1))
                      ((vs.take (BPT.descendIndex node k) ++ vl :: vr :: vs.drop (BPT.descendIndex node k + 1)).drop (BPT.nodeMid node + 1)))).head? =
                      (BPT.leafIds (BPT.View.node nid node.keys vs)).head? := by
                    rw [hcombleaf, hleafv2, hleafv]
                    refine bpt_head?_append_congr _ _ _ ?_
                    rw [bpt_head?_append_left _ _ hLC2ne, bpt_head?_append_left _ _ hLCne]
                    exact hheadlr
                  exact Eq.trans (bpt_head?_append_left _ _
                    (bpt_leafIds_ne_nil _ _ hrepvl')).symm h1
                · intro after hchn
                  rw [hleafv] at hchn
                  show BPT.Chain _ (BPT.leafIds _ ++ BPT.leafIds _) after
                  rw [hcombleaf, hleafv2]
                  refine bpt_chain_splice store _ _ _ _ _ after hLCne hLC2ne hheadlr ?_ ?_ hchn
                  · intro l hl
                    have hsub := hleafABsub l hl
                    have hlnid : l ≠ nid := by
                      intro he
                      rcases hsub with h1 | h1
                      · exact hnidnotin (by
                          rw [hvsdec, bpt_idsList_splice1]
                          exact List.mem_append.mpr (Or.inl (he ▸ h1)))
                      · exact hnidnotin (by
                          rw [hvsdec, bpt_idsList_splice1]
                          exact List.mem_append.mpr
                            (Or.inr (List.mem_append.mpr (Or.inr (he ▸ h1)))))
                    have hllt : l < store.length := hbound l (hABmemv l (by
                      rcases hsub with h1 | h1
                      · exact Or.inl h1
                      · exact Or.inr (Or.inl h1)))
                    refine bpt_nextOf_congr store _ l ?_
                    rw [bpt_get?_set_other _ _ _ _ hlnid,
                      bpt_get?_append_left _ _ _ (lt_of_lt_of_le hllt hlen2)]
                    rcases hsub with h1 | h1
                    · exact hframeO l (Or.inl h1)
                    · exact hframeO l (Or.inr (Or.inl h1))
                  · intro a ha
                    refine bpt_chain_frame store2 _ _ a ?_ (hchain2 a ha)
                    intro l hl
                    have hlC2 := hlrsub l hl
                    have hlnid : l ≠ nid := fun he => hnidlr (he ▸ hlC2)
                    have hllt : l < store2.length := hboundvs2 l
                      (List.mem_append.mpr (Or.inr (List.mem_append.mpr (Or.inl hlC2))))
                    refine bpt_nextOf_congr store2 _ l ?_
                    rw [bpt_get?_set_other _ _ _ _ hlnid]
                    exact bpt_get?_append_left _ _ _ hllt
                · rw [hcombflat, hflatv2, hflatv]
                  exact bpt_multiset_splice _ _ _ _ k r hmul2
            · -- parent absorbs the promoted key
              have hstable3 : ∀ w, w ∈ vs.take (BPT.descendIndex node k) ++ vl :: vr :: vs.drop (BPT.descendIndex node k + 1) →
                  BPT.Rep (store2.set nid (BPT.nodeNoSplitNode node k up (BPT.vid vr))) w := by
                intro w hw
                refine bpt_rep_stable store2 _ w (hrep2all w hw) ?_
                intro j hj
                refine bpt_get?_set_other _ _ _ _ ?_
                refine hjne2 j ?_
                rw [← hids2eq]
                exact bpt_mem_idsList w _ hw j hj
              refine ⟨store2.set nid (BPT.nodeNoSplitNode node k up (BPT.vid vr)), none,
                ?_, ?_, ?_, ?_⟩
              · exact bpt_insertAux_node_absorb order f store store2 nid (BPT.vid vchild)
                  k up r (BPT.vid vr) node hget hlf hcid hcall hfl2
              · rw [List.length_set]
                exact hlen2
              · intro j hjlt hjne
                have hjnid : j ≠ nid := by
                  intro he
                  refine hjne ?_
                  rw [he, hidsv]
                  exact List.mem_cons_self _ _
                rw [bpt_get?_set_other _ _ _ _ hjnid]
                refine hframe2 j hjlt (fun hjc => hjne ?_)
                rw [hidsv]
                exact List.mem_cons_of_mem _ (bpt_mem_idsList vchild vs hmemchild j hjc)
              · left
                have hashape2 : (nid :: BPT.idsList (vs.take (BPT.descendIndex node k))) ++
                    ((BPT.ids vl ++ BPT.ids vr) ++ BPT.idsList (vs.drop (BPT.descendIndex node k + 1))) =
                    BPT.ids (BPT.View.node nid (BPT.nodeKeys2 node k up)
                      (vs.take (BPT.descendIndex node k) ++ vl :: vr :: vs.drop (BPT.descendIndex node k + 1))) := by
                  show _ = nid :: BPT.idsList _
                  rw [hids2eq]
                  rfl
                refine ⟨BPT.View.node nid (BPT.nodeKeys2 node k up)
                    (vs.take (BPT.descendIndex node k) ++ vl :: vr :: vs.drop (BPT.descendIndex node k + 1)), rfl, ?_, rfl, ?_, ?_, ?_, ?_, ?_⟩
                · refine BPT.Rep.node nid (BPT.nodeNoSplitNode node k up (BPT.vid vr)) _
                    (bpt_get?_set_self _ _ _ (lt_of_lt_of_le hnidlt hlen2)) hlf ?_ ?_
                    hchildren2 hstable3
                  · show node.size + 1 = (BPT.nodeKeys2 node k up).length
                    rw [hk2len, hsz]
                  · show (BPT.nodeChildren2 node k (BPT.vid vr)).length =
                      (BPT.nodeKeys2 node k up).length + 1
                    rw [hk2len, hc2len]
                · intro j hj
                  have h1 := hmemout j (hashape2 ▸ hj)
                  rw [hashape] at h1
                  rcases h1 with h1 | h1
                  · exact Or.inl h1
                  · exact Or.inr ⟨h1.1, by rw [List.length_set]; exact h1.2⟩
                · rw [← hashape2]
                  exact hndout
                · rw [hleafv]
                  show ((BPT.leafSeqList _).map Prod.fst).head? = _
                  rw [hleafv2]
                  refine bpt_head?_append_congr _ _ _ ?_
                  rw [bpt_head?_append_left _ _ hLC2ne, bpt_head?_append_left _ _ hLCne]
                  exact hheadlr
                · intro after hchn
                  rw [hleafv] at hchn
                  show BPT.Chain _ ((BPT.leafSeqList _).map Prod.fst) after
                  rw [hleafv2]
                  refine bpt_chain_splice store _ _ _ _ _ after hLCne hLC2ne hheadlr ?_ ?_ hchn
                  · intro l hl
                    have hsub := hleafABsub l hl
                    have hlnid : l ≠ nid := by
                      intro he
                      rcases hsub with h1 | h1
                      · exact hnidnotin (by
                          rw [hvsdec, bpt_idsList_splice1]
                          exact List.mem_append.mpr (Or.inl (he ▸ h1)))
                      · exact hnidnotin (by
                          rw [hvsdec, bpt_idsList_splice1]
                          exact List.mem_append.mpr
                            (Or.inr (List.mem_append.mpr (Or.inr (he ▸ h1)))))
                    refine bpt_nextOf_congr store _ l ?_
                    rw [bpt_get?_set_other _ _ _ _ hlnid]
                    rcases hsub with h1 | h1
                    · exact hframeO l (Or.inl h1)
                    · exact hframeO l (Or.inr (Or.inl h1))
                  · intro a ha
                    refine bpt_chain_frame store2 _ _ a ?_ (hchain2 a ha)
                    intro l hl
                    have hlC2 := hlrsub l hl
                    refine bpt_nextOf_congr store2 _ l ?_
                    refine bpt_get?_set_other _ _ _ _ (fun he => hnidlr (he ▸ hlC2))
                · rw [hflatv]
                  show ((BPT.flatten _ : List (Int × Nat)) : Multiset (Int × Nat)) = _
                  show (((((BPT.leafSeqList _).map Prod.snd).flatten : List (Int × Nat))) :
                    Multiset (Int × Nat)) = _
                  rw [hflatv2]
                  exact bpt_multiset_splice _ _ _ _ k r hmul2


/-- Function `headOr` through a known `head?`. -/
theorem bpt_headOr_of_head? (x : Int) (l : List Nat) (a : Nat) (h : l.head? = some a) :
    BPT.headOr x l = (a : Int) := by
  cases l with
  | nil => simp at h
  | cons y ys =>
      simp only [List.head?_cons, Option.some_inj] at h
      simp [BPT.headOr, h]

/-- A duplicate-free list of naturals below `n` has at most `n` entries. -/
theorem bpt_nodup_bound (l : List Nat) (n : Nat) (h : l.Nodup)
    (hb : ∀ x ∈ l, x < n) : l.length ≤ n := by
  classical
  have h1 : l.toFinset ⊆ Finset.range n := by
    intro x hx
    simp only [List.mem_toFinset] at hx
    simp only [Finset.mem_range]
    exact hb x hx
  have h2 := Finset.card_le_card h1
  rwa [List.toFinset_card_of_nodup h, Finset.card_range] at h2

/-- Function `_find_first_leaf` reaches the leftmost leaf of the view. -/
theorem bpt_findFirstLeaf_eq (store : BPT.Store) (v : BPT.View) (hrep : BPT.Rep store v) :
    ∀ fuel, BPT.height v < fuel →
    ∃ l, BPT.findFirstLeaf fuel store (BPT.vid v) = some l ∧
      (BPT.leafIds v).head? = some l := by
  induction hrep with
  | leaf nid node hget hleaf =>
      intro fuel hfuel
      cases fuel with
      | zero => exact absurd hfuel (Nat.not_lt_zero _)
      | succ f =>
          refine ⟨nid, ?_, by simp [BPT.leafIds, BPT.leafSeq]⟩
          unfold BPT.findFirstLeaf
          simp only [BPT.vid]
          rw [hget]
          simp [hleaf]
  | node nid node vs hget hlf hsz hcl hch hall ih =>
      intro fuel hfuel
      cases fuel with
      | zero => exact absurd hfuel (Nat.not_lt_zero _)
      | succ f =>
          obtain ⟨w, ws, rfl⟩ : ∃ w ws, vs = w :: ws := by
            cases vs with
            | nil =>
                exfalso
                rw [hch] at hcl
                simp at hcl
            | cons w ws => exact ⟨w, ws, rfl⟩
          have hhw : BPT.height w < f := by
            simp only [BPT.height, BPT.heightList] at hfuel ⊢
            omega
          obtain ⟨l, hfl, hhead⟩ := ih w (by simp) f hhw
          have hch1 : node.children.head? = some (BPT.vid w) := by
            rw [hch]
            simp
          refine ⟨l, ?_, ?_⟩
          · unfold BPT.findFirstLeaf
            simp only [BPT.vid]
            rw [hget]
            simp only [hlf, if_false, Bool.false_eq_true]
            rw [hch1]
            exact hfl
          · show ((BPT.leafSeqList (w :: ws)).map Prod.fst).head? = some l
            rw [show BPT.leafSeqList (w :: ws) =
              BPT.leafSeq w ++ BPT.leafSeqList ws from rfl]
            rw [List.map_append]
            rw [bpt_head?_append_left ((BPT.leafSeq w).map Prod.fst) _ (fun hcon =>
              bpt_leafIds_ne_nil store w (hall w (by simp)) hcon)]
            exact hhead

/-- The `get_all` loop over a `next_leaf` chain ending at `-1` collects
exactly the chained leaves' pairs in order. -/
theorem bpt_chainCollect_chain (store : BPT.Store)
    (ps : List (Nat × List (Int × Nat))) :
    ∀ fuel, ps.length < fuel →
    (∀ p ∈ ps, ∃ node, store.get? p.1 = some node ∧ node.pairs = p.2) →
    BPT.Chain store (ps.map Prod.fst) (-1) →
    BPT.chainCollect store fuel (BPT.headOr (-1) (ps.map Prod.fst)) =
      some ((ps.map Prod.snd).flatten) := by
  induction ps with
  | nil =>
      intro fuel hfuel hnodes hchain
      cases fuel with
      | zero => exact absurd hfuel (Nat.not_lt_zero _)
      | succ f => rfl
  | cons p rest ih =>
      intro fuel hfuel hnodes hchain
      cases fuel with
      | zero => exact absurd hfuel (Nat.not_lt_zero _)
      | succ f =>
          obtain ⟨node, hget, hpairs⟩ := hnodes p (by simp)
          obtain ⟨h1, h2⟩ := hchain
          have hnext : node.next_leaf = BPT.headOr (-1) (rest.map Prod.fst) := by
            rw [← h1]
            exact (bpt_nextOf_eq store p.1 node hget).symm
          simp only [List.map_cons, BPT.headOr]
          unfold BPT.chainCollect
          rw [if_neg (by omega), if_neg (by omega)]
          rw [show ((p.1 : Int)).toNat = p.1 from rfl]
          simp only [hget]
          rw [hnext, ih f (by simpa using hfuel) (fun q hq => hnodes q (by simp [hq])) h2]
          simp [hpairs]

/-- Function `get_all` on a represented tree whose leaf chain ends at `-1`
returns exactly the view's leaf pairs in chain order. -/
theorem bpt_get_all_eq (t : BPT.Tree) (v : BPT.View)
    (hrep : BPT.Rep t.store v) (hvid : BPT.vid v = t.root_id)
    (hnodup : (BPT.ids v).Nodup)
    (hbound : ∀ j ∈ BPT.ids v, j < t.store.length)
    (hchain : BPT.Chain t.store (BPT.leafIds v) (-1)) :
    BPT.get_all t = some (BPT.flatten v) := by
  have hczlen : (BPT.ids v).length ≤ t.store.length :=
    bpt_nodup_bound _ _ hnodup hbound
  have hh : BPT.height v < t.store.length + 1 := by
    have := bpt_height_lt_ids t.store v hrep
    omega
  obtain ⟨l, hfl, hhead⟩ := bpt_findFirstLeaf_eq t.store v hrep (t.store.length + 1) hh
  have hlseq : (BPT.leafIds v).length ≤ t.store.length := by
    have h1 := (bpt_leafIds_sublist t.store v hrep).length_le
    omega
  have hcc := bpt_chainCollect_chain t.store (BPT.leafSeq v) (t.store.length + 1)
    (by
      have : (BPT.leafSeq v).length = (BPT.leafIds v).length := by
        simp [BPT.leafIds]
      omega)
    (fun p hp => by
      obtain ⟨node, hg, hp2, _⟩ := bpt_leafSeq_nodes t.store v hrep p hp
      exact ⟨node, hg, hp2⟩)
    hchain
  unfold BPT.get_all
  rw [← hvid, hfl]
  show BPT.chainCollect t.store (t.store.length + 1) ((l : Nat) : Int) =
    some (BPT.flatten v)
  rw [show ((l : Nat) : Int) = BPT.headOr (-1) ((BPT.leafSeq v).map Prod.fst) from
    (bpt_headOr_of_head? _ _ _ hhead).symm]
  rw [hcc]
  rfl

/-- Function `add` on a represented tree succeeds and represents a tree with the
same pairs plus the new one, re-linking the leaf chain. -/
theorem bpt_add_sim (t : BPT.Tree) (v : BPT.View) (k : Int) (r : Nat)
    (hrep : BPT.Rep t.store v) (hvid : BPT.vid v = t.root_id)
    (hnodup : (BPT.ids v).Nodup)
    (hbound : ∀ j ∈ BPT.ids v, j < t.store.length) :
    ∃ t2 v2, BPT.add t k r = some t2 ∧ t2.order = t.order ∧
      BPT.Rep t2.store v2 ∧ BPT.vid v2 = t2.root_id ∧
      (BPT.ids v2).Nodup ∧ (∀ j ∈ BPT.ids v2, j < t2.store.length) ∧
      (∀ after, BPT.Chain t.store (BPT.leafIds v) after →
        BPT.Chain t2.store (BPT.leafIds v2) after) ∧
      (BPT.flatten v2 : Multiset (Int × Nat)) =
        (k, r) ::ₘ (BPT.flatten v : Multiset (Int × Nat)) := by
  have hh : BPT.height v < t.store.length + 1 := by
    have h1 := bpt_height_lt_ids t.store v hrep
    have h2 := bpt_nodup_bound _ _ hnodup hbound
    omega
  obtain ⟨store2, res, hcall, hlen2, hframe2, hpost⟩ :=
    bpt_insertAux_sim t.order k r t.store v hrep (t.store.length + 1) hh hnodup hbound
  rcases hpost with ⟨v2, hres, hrepv2, hvid2, hmem2, hnd2, hhead2, hchain2, hmul2⟩ |
    ⟨vl, vr, up, hres, hrepvl, hrepvr, hvidl, hfreshr, hmem2, hnd2, hhead2, hchain2, hmul2⟩
  · subst hres
    refine ⟨{ t with store := store2 }, v2, ?_, rfl, hrepv2, ?_, hnd2, ?_, hchain2, hmul2⟩
    · unfold BPT.add
      rw [hvid] at hcall
      rw [hcall]
    · rw [hvid2, hvid]
    · intro j hj
      rcases hmem2 j hj with h1 | h1
      · exact lt_of_lt_of_le (hbound j h1) hlen2
      · exact h1.2
  · subst hres
    have hbcomb : ∀ j ∈ BPT.ids vl ++ BPT.ids vr, j < store2.length := by
      intro j hj
      rcases hmem2 j hj with h1 | h1
      · exact lt_of_lt_of_le (hbound j h1) hlen2
      · exact h1.2
    have heq : BPT.idsList [vl, vr] = BPT.ids vl ++ BPT.ids vr := by
      simp [BPT.idsList]
    have hlsub : ∀ l, l ∈ BPT.leafIds vl ++ BPT.leafIds vr →
        l ∈ BPT.ids vl ++ BPT.ids vr := by
      intro l hl
      rcases List.mem_append.mp hl with hl | hl
      · exact List.mem_append.mpr
          (Or.inl ((bpt_leafIds_sublist store2 vl hrepvl).subset hl))
      · exact List.mem_append.mpr
          (Or.inr ((bpt_leafIds_sublist store2 vr hrepvr).subset hl))
    refine ⟨{ t with
        store := store2 ++ [BPT.rootSplitNode t.order t.root_id (BPT.vid vr) up],
        root_id := store2.length },
      BPT.View.node store2.length [up] [vl, vr], ?_, rfl, ?_, rfl, ?_, ?_, ?_, ?_⟩
    · unfold BPT.add
      rw [hvid] at hcall
      rw [hcall]
      rfl
    · refine BPT.Rep.node store2.length
        (BPT.rootSplitNode t.order t.root_id (BPT.vid vr) up) [vl, vr]
        (bpt_get?_append_self _ _) rfl rfl rfl ?_ ?_
      · show [t.root_id, BPT.vid vr] = [BPT.vid vl, BPT.vid vr]
        rw [hvidl, hvid]
      · intro w hw
        have hrw : BPT.Rep store2 w := by
          rcases List.mem_cons.mp hw with h1 | h1
          · exact h1 ▸ hrepvl
          · rcases List.mem_cons.mp h1 with h2 | h2
            · exact h2 ▸ hrepvr
            · simp at h2
        refine bpt_rep_stable store2 _ w hrw ?_
        intro j hj
        refine bpt_get?_append_left _ _ _ ?_
        refine hbcomb j ?_
        rcases List.mem_cons.mp hw with h1 | h1
        · exact List.mem_append.mpr (Or.inl (h1 ▸ hj))
        · rcases List.mem_cons.mp h1 with h2 | h2
          · exact List.mem_append.mpr (Or.inr (h2 ▸ hj))
          · simp at h2
    · show (store2.length :: BPT.idsList [vl, vr]).Nodup
      rw [List.nodup_cons, heq]
      exact ⟨fun hx => absurd (hbcomb _ hx) (lt_irrefl _), hnd2⟩
    · intro j hj
      rcases List.mem_cons.mp hj with h1 | h1
      · subst h1
        simp only [List.length_append, List.length_cons, List.length_nil]
        omega
      · have := hbcomb j (heq ▸ h1)
        simp only [List.length_append, List.length_cons, List.length_nil]
        omega
    · intro after hchn
      have h1 := hchain2 after hchn
      show BPT.Chain _ ((BPT.leafSeqList [vl, vr]).map Prod.fst) after
      have heq2 : (BPT.leafSeqList [vl, vr]).map Prod.fst =
          BPT.leafIds vl ++ BPT.leafIds vr := by
        simp [BPT.leafSeqList, BPT.leafIds, List.map_append]
      rw [heq2]
      refine bpt_chain_frame store2 _ _ after ?_ h1
      intro l hl
      refine bpt_nextOf_congr store2 _ l ?_
      exact bpt_get?_append_left _ _ _ (hbcomb l (hlsub l hl))
    · have heq3 : BPT.flatten (BPT.View.node store2.length [up] [vl, vr]) =
          BPT.flatten vl ++ BPT.flatten vr := by
        simp [BPT.flatten, BPT.leafSeq, BPT.leafSeqList, List.map_append,
          List.flatten_append]
      rw [heq3]
      exact hmul2

/-- C10: `BPlusTree.add` performs no duplicate-key check: on any
well-formed tree already containing key `k`, `add(k, ref2)` succeeds
(it never produces a DuplicateKey outcome), inserts an additional
`(k, ref2)` pair, and `get_all()` afterwards holds the old pairs plus
the new one, so key `k` appears at least twice. -/
theorem bpt_add_no_duplicate_check (t : BPT.Tree) (v : BPT.View) (k : Int) (r2 : Nat)
    (hrep : BPT.Rep t.store v) (hvid : BPT.vid v = t.root_id)
    (hnodup : (BPT.ids v).Nodup)
    (hbound : ∀ j ∈ BPT.ids v, j < t.store.length)
    (hchain : BPT.Chain t.store (BPT.leafIds v) (-1))
    (hk : k ∈ (BPT.flatten v).map Prod.fst) :
    ∃ t2 out, BPT.add t k r2 = some t2 ∧ BPT.get_all t2 = some out ∧
      (out : Multiset (Int × Nat)) =
        (k, r2) ::ₘ (BPT.flatten v : Multiset (Int × Nat)) ∧
      2 ≤ (out.map Prod.fst).count k := by
  obtain ⟨t2, v2, hadd, hord, hrep2, hvid2, hnd2, hb2, hchain2, hmul2⟩ :=
    bpt_add_sim t v k r2 hrep hvid hnodup hbound
  have hchain2' := hchain2 (-1) hchain
  have hget := bpt_get_all_eq t2 v2 hrep2 hvid2 hnd2 hb2 hchain2'
  refine ⟨t2, BPT.flatten v2, hadd, hget, hmul2, ?_⟩
  have hcnt : Multiset.count k (Multiset.map Prod.fst
      (BPT.flatten v2 : Multiset (Int × Nat))) =
      Multiset.count k (Multiset.map Prod.fst
        (BPT.flatten v : Multiset (Int × Nat))) + 1 := by
    rw [hmul2, Multiset.map_cons, Multiset.count_cons_self]
  rw [Multiset.map_coe, Multiset.coe_count] at hcnt
  rw [Multiset.map_coe, Multiset.coe_count] at hcnt
  have h2 : 1 ≤ ((BPT.flatten v).map Prod.fst).count k := by
    have := List.count_pos_iff.mpr hk
    omega
  omega

/-- Witness for C10 at a concrete one-leaf tree holding key 5. -/
theorem bpt_add_no_duplicate_check_witness :
    BPT.Rep bptDemo.store (BPT.View.leaf 0 [(5, 9)]) ∧
    BPT.vid (BPT.View.leaf 0 [(5, 9)]) = bptDemo.root_id ∧
    (BPT.ids (BPT.View.leaf 0 [(5, 9)])).Nodup ∧
    (∀ j ∈ BPT.ids (BPT.View.leaf 0 [(5, 9)]), j < bptDemo.store.length) ∧
    BPT.Chain bptDemo.store (BPT.leafIds (BPT.View.leaf 0 [(5, 9)])) (-1) ∧
    (5 : Int) ∈ (BPT.flatten (BPT.View.leaf 0 [(5, 9)])).map Prod.fst ∧
    (∃ t2 out, BPT.add bptDemo 5 7 = some t2 ∧ BPT.get_all t2 = some out ∧
      (out : Multiset (Int × Nat)) =
        ((5 : Int), 7) ::ₘ (BPT.flatten (BPT.View.leaf 0 [(5, 9)]) : Multiset (Int × Nat)) ∧
      2 ≤ (out.map Prod.fst).count 5) := by
  have hrep : BPT.Rep bptDemo.store (BPT.View.leaf 0 [(5, 9)]) :=
    BPT.Rep.leaf 0
      { is_leaf := true,
        block_factor := 3,
        pairs := [(5, 9)],
        keys := [],
        children := [],
        next_leaf := -1,
        size := 1 } rfl rfl
  have hvid : BPT.vid (BPT.View.leaf 0 [(5, 9)]) = bptDemo.root_id := rfl
  have hnodup : (BPT.ids (BPT.View.leaf 0 [(5, 9)])).Nodup := by
    simp [BPT.ids]
  have hbound : ∀ j ∈ BPT.ids (BPT.View.leaf 0 [(5, 9)]), j < bptDemo.store.length := by
    intro j hj
    simp only [BPT.ids, List.mem_singleton] at hj
    simp [hj, bptDemo]
  have hchain : BPT.Chain bptDemo.store (BPT.leafIds (BPT.View.leaf 0 [(5, 9)])) (-1) :=
    ⟨rfl, trivial⟩
  have hk : (5 : Int) ∈ (BPT.flatten (BPT.View.leaf 0 [(5, 9)])).map Prod.fst := by
    simp [BPT.flatten, BPT.leafSeq]
  exact ⟨hrep, hvid, hnodup, hbound, hchain, hk,
    bpt_add_no_duplicate_check bptDemo (BPT.View.leaf 0 [(5, 9)]) 5 7
      hrep hvid hnodup hbound hchain hk⟩


/-- Reads below an append are unchanged. -/
theorem sf_readIndex_append_left (index : List SF.IndexRec) (l2 : List SF.IndexRec)
    (p : Nat) (h : p < index.length) :
    SF.readIndex (index ++ l2) p = SF.readIndex index p := by
  simp only [SF.readIndex]
  rw [bpt_get?_append_left _ _ _ h]

/-- Read of the appended record. -/
theorem sf_readIndex_append_self (index : List SF.IndexRec) (r : SF.IndexRec) :
    SF.readIndex (index ++ [r]) index.length = r := by
  simp only [SF.readIndex]
  rw [bpt_get?_append_self]
  rfl

/-- Reads away from an overwrite are unchanged. -/
theorem sf_readIndex_set_other (index : List SF.IndexRec) (q p : Nat) (r : SF.IndexRec)
    (h : p ≠ q) : SF.readIndex (index.set q r) p = SF.readIndex index p := by
  simp only [SF.readIndex]
  rw [bpt_get?_set_other _ _ _ _ h]

/-- Read of an in-bounds overwrite. -/
theorem sf_readIndex_set_self (index : List SF.IndexRec) (q : Nat) (r : SF.IndexRec)
    (h : q < index.length) : SF.readIndex (index.set q r) q = r := by
  simp only [SF.readIndex]
  rw [bpt_get?_set_self _ _ _ h]
  rfl

/-- An out-of-range slot reads as deleted. -/
theorem sf_readIndex_oob (index : List SF.IndexRec) (p : Nat) (h : index.length ≤ p) :
    SF.readIndex index p = { key := 0, pos := 0, next := -2 } := by
  simp only [SF.readIndex]
  rw [List.get?_eq_none.mpr h]
  rfl

/-- Chain linkage only depends on the records at the listed slots. -/
theorem sf_chain_frame (index index2 : List SF.IndexRec) (ps : List Nat) (a : Int)
    (hagree : ∀ p ∈ ps, SF.readIndex index2 p = SF.readIndex index p)
    (h : SF.ChainL index ps a) : SF.ChainL index2 ps a := by
  induction ps with
  | nil => trivial
  | cons p rest ih =>
      obtain ⟨h1, h2⟩ := h
      exact ⟨by rw [hagree p (by simp)]; exact h1,
        ih (fun x hx => hagree x (by simp [hx])) h2⟩

/-- Chain linkage of a concatenation splits at the junction. -/
theorem sf_chain_append (index : List SF.IndexRec) (xs ys : List Nat) (a : Int) :
    SF.ChainL index (xs ++ ys) a ↔
      SF.ChainL index xs (BPT.headOr a ys) ∧ SF.ChainL index ys a := by
  induction xs with
  | nil => simp [SF.ChainL]
  | cons l rest ih =>
      simp only [List.cons_append, SF.ChainL, List.append_eq, ih]
      have hh : BPT.headOr a (rest ++ ys) = BPT.headOr (BPT.headOr a ys) rest := by
        cases rest <;> rfl
      rw [hh]
      tauto

/-- Chained records are never marked deleted. -/
theorem sf_chain_live (index : List SF.IndexRec) (ps : List Nat) (h : SF.ChainL index ps (-1)) :
    ∀ p ∈ ps, (SF.readIndex index p).next ≠ -2 := by
  induction ps with
  | nil => simp
  | cons p rest ih =>
      obtain ⟨h1, h2⟩ := h
      intro x hx
      rcases List.mem_cons.mp hx with rfl | hx2
      · rw [h1]
        cases rest with
        | nil => simp [BPT.headOr]
        | cons y ys => simp [BPT.headOr]
      · exact ih h2 x hx2

/-- A live read is in bounds. -/
theorem sf_lt_of_live (index : List SF.IndexRec) (p : Nat)
    (h : (SF.readIndex index p).next ≠ -2) : p < index.length := by
  by_contra hcon
  rw [sf_readIndex_oob index p (by omega)] at h
  exact h rfl

/-- Every live slot is on the chain (slots off the chain are
tombstones). -/
theorem sf_mem_of_live (s : SF.State) (C : List Nat) (hinv : SF.Inv s C)
    (p : Nat) (h : (SF.readIndex s.index p).next ≠ -2) : p ∈ C := by
  by_contra hcon
  exact h (hinv.hlive p (sf_lt_of_live s.index p h) hcon)

/-- The chain is no longer than the file. -/
theorem sf_chain_le (s : SF.State) (C : List Nat) (hinv : SF.Inv s C) :
    C.length ≤ s.index.length :=
  bpt_nodup_bound C s.index.length hinv.hnodup hinv.hbound

/-- The downward walk of `_binary_search_prev` lands on `pos_root` or on
a chained slot whose key is below the search key. -/
theorem sf_bsFindPrev_good (s : SF.State) (C : List Nat) (key : Int)
    (hinv : SF.Inv s C) : ∀ fuel p,
    SF.bsFindPrev s key fuel p = s.pos_root ∨
      ∃ q : Nat, SF.bsFindPrev s key fuel p = (q : Int) ∧ q ∈ C ∧
        SF.keyAt s.index q < key := by
  intro fuel
  induction fuel with
  | zero => intro p; exact Or.inl rfl
  | succ f ih =>
      intro p
      unfold SF.bsFindPrev
      by_cases h1 : p < 0
      · rw [if_pos h1]
        exact Or.inl rfl
      · rw [if_neg h1]
        by_cases h2 : (SF.readIndex s.index p.toNat).next ≠ -2 ∧
            (SF.readIndex s.index p.toNat).key < key
        · rw [if_pos h2]
          refine Or.inr ⟨p.toNat, ?_, ?_, h2.2⟩
          · omega
          · exact sf_mem_of_live s C hinv p.toNat h2.1
        · rw [if_neg h2]
          exact ih (p - 1)

/-- The binary-search loop maintains the same property. -/
theorem sf_bsLoop_good (s : SF.State) (C : List Nat) (key : Int)
    (hinv : SF.Inv s C) : ∀ fuel left right prev, 0 ≤ left →
    (prev = s.pos_root ∨ ∃ q : Nat, prev = (q : Int) ∧ q ∈ C ∧
      SF.keyAt s.index q < key) →
    (SF.bsLoop s key fuel left right prev = s.pos_root ∨
      ∃ q : Nat, SF.bsLoop s key fuel left right prev = (q : Int) ∧ q ∈ C ∧
        SF.keyAt s.index q < key) := by
  intro fuel
  induction fuel with
  | zero => intro _ _ prev _ hprev; exact hprev
  | succ f ih =>
      intro left right prev hleft hprev
      unfold SF.bsLoop
      by_cases h1 : left ≤ right
      · rw [if_pos h1]
        have hmid : 0 ≤ (left + right) / 2 := by omega
        by_cases h2 : (SF.readIndex s.index ((left + right) / 2).toNat).next = -2
        · rw [if_pos h2]
          by_cases h3 : (left + right) / 2 > 0
          · rw [if_pos h3]
            exact ih left ((left + right) / 2 - 1) prev hleft hprev
          · rw [if_neg h3]
            exact ih ((left + right) / 2 + 1) right prev (by omega) hprev
        · rw [if_neg h2]
          by_cases h4 : (SF.readIndex s.index ((left + right) / 2).toNat).key = key
          · rw [if_pos h4]
            exact sf_bsFindPrev_good s C key hinv _ _
          · rw [if_neg h4]
            by_cases h5 : (SF.readIndex s.index ((left + right) / 2).toNat).key < key
            · rw [if_pos h5]
              refine ih ((left + right) / 2 + 1) right _ (by omega) ?_
              refine Or.inr ⟨((left + right) / 2).toNat, ?_, ?_, ?_⟩
              · omega
              · exact sf_mem_of_live s C hinv _ h2
              · simpa [SF.keyAt] using h5
            · rw [if_neg h5]
              exact ih left ((left + right) / 2 - 1) prev hleft hprev
      · rw [if_neg h1]
        exact sf_bsFindPrev_good s C key hinv _ _

/-- Function `_binary_search_prev` returns `pos_root` or a chained slot whose key
is below the search key. -/
theorem sf_binarySearchPrev_good (s : SF.State) (C : List Nat) (key : Int)
    (hinv : SF.Inv s C) :
    SF.binarySearchPrev s key = s.pos_root ∨
      ∃ q : Nat, SF.binarySearchPrev s key = (q : Int) ∧ q ∈ C ∧
        SF.keyAt s.index q < key := by
  unfold SF.binarySearchPrev
  by_cases h1 : s.pos_root = -1
  · rw [if_pos h1]
    exact Or.inl h1.symm
  · rw [if_neg h1]
    by_cases h2 : s.num_data = 0
    · rw [if_pos h2]
      exact Or.inl rfl
    · rw [if_neg h2]
      by_cases h3 : key ≤ (SF.readIndex s.index s.pos_root.toNat).key
      · rw [if_pos h3]
        exact Or.inl rfl
      · rw [if_neg h3]
        exact sf_bsLoop_good s C key hinv _ _ _ _ (by omega) (Or.inl rfl)

/-- Function `headOr` of a snoc falls back to the appended element. -/
theorem sf_headOr_append_singleton (q : Int) (xs : List Nat) (p : Nat) :
    BPT.headOr q (xs ++ [p]) = BPT.headOr (p : Int) xs := by
  cases xs <;> rfl

/-- Function `takeWhile` passes a satisfying prefix wholesale. -/
theorem sf_takeWhile_append (P : α → Bool) (l1 l2 : List α) (h : ∀ x ∈ l1, P x) :
    (l1 ++ l2).takeWhile P = l1 ++ l2.takeWhile P := by
  induction l1 with
  | nil => simp
  | cons x xs ih =>
      rw [List.cons_append, List.takeWhile_cons_of_pos (h x (by simp)),
        ih (fun y hy => h y (by simp [hy]))]
      rfl

/-- In a sorted chain missing the key, everything past the
`takeWhile (· < key)` prefix has a key above the search key. -/
theorem sf_dropWhile_gt (index : List SF.IndexRec) (key : Int) (C : List Nat)
    (hsorted : List.Pairwise (fun p q => SF.keyAt index p < SF.keyAt index q) C)
    (habs : ∀ p ∈ C, SF.keyAt index p ≠ key) :
    ∀ b ∈ C.dropWhile (fun p => SF.keyAt index p < key), key < SF.keyAt index b := by
  induction C with
  | nil => simp
  | cons c rest ih =>
      rw [List.pairwise_cons] at hsorted
      by_cases h1 : SF.keyAt index c < key
      · rw [List.dropWhile_cons_of_pos (by simpa using h1)]
        exact ih hsorted.2 (fun p hp => habs p (by simp [hp]))
      · rw [List.dropWhile_cons_of_neg (by simpa using h1)]
        intro b hb
        rcases List.mem_cons.mp hb with rfl | hb2
        · have := habs b (by simp)
          omega
        · have h2 := hsorted.1 b hb2
          have := habs c (by simp)
          omega

/-- The `_linear_search` loop on a sorted live chain missing the key:
it reports no match, and the returned predecessor is the last walked
slot with key below the search key (falling back to the entry value). -/
theorem sf_lsLoop_absent (index : List SF.IndexRec) (key : Int) : ∀ S : List Nat,
    SF.ChainL index S (-1) →
    List.Pairwise (fun p q => SF.keyAt index p < SF.keyAt index q) S →
    (∀ p ∈ S, SF.keyAt index p ≠ key) →
    ∀ fuel, S.length < fuel → ∀ q : Int,
    SF.lsLoop index key fuel q (BPT.headOr (-1) S) =
      (BPT.headOr q ((S.takeWhile (fun p => SF.keyAt index p < key)).reverse), -1) := by
  intro S
  induction S with
  | nil =>
      intro _ _ _ fuel hfuel q
      cases fuel with
      | zero => exact absurd hfuel (Nat.not_lt_zero _)
      | succ f => rfl
  | cons p rest ih =>
      intro hchain hsorted habs fuel hfuel q
      cases fuel with
      | zero => exact absurd hfuel (Nat.not_lt_zero _)
      | succ f =>
          obtain ⟨h1, h2⟩ := hchain
          rw [List.pairwise_cons] at hsorted
          unfold SF.lsLoop
          rw [show BPT.headOr (-1) (p :: rest) = ((p : Nat) : Int) from rfl]
          rw [if_neg (by omega)]
          rw [show ((p : Nat) : Int).toNat = p from rfl]
          rw [if_neg (by
            rw [h1]
            cases rest with
            | nil => simp [BPT.headOr]
            | cons y ys => simp [BPT.headOr])]
          by_cases h3 : (SF.readIndex index p).key = key
          · exact absurd h3 (habs p (by simp))
          · rw [if_neg h3]
            by_cases h4 : (SF.readIndex index p).key > key
            · rw [if_pos h4]
              rw [List.takeWhile_cons_of_neg (by simp [SF.keyAt]; omega)]
              rfl
            · rw [if_neg h4]
              rw [h1]
              have h5 : SF.keyAt index p < key := by
                have := habs p (by simp)
                simp only [SF.keyAt] at *
                omega
              rw [ih h2 hsorted.2 (fun x hx => habs x (by simp [hx])) f
                (by simpa using hfuel) (p : Int)]
              rw [List.takeWhile_cons_of_pos (by simpa using h5)]
              rw [List.reverse_cons, sf_headOr_append_singleton]

/-- The `_linear_search` loop finds a chained key. -/
theorem sf_lsLoop_found (index : List SF.IndexRec) (key : Int) : ∀ S : List Nat,
    SF.ChainL index S (-1) →
    List.Pairwise (fun p q => SF.keyAt index p < SF.keyAt index q) S →
    ∀ j : Nat, j ∈ S → SF.keyAt index j = key →
    ∀ fuel, S.length < fuel → ∀ q : Int,
    (SF.lsLoop index key fuel q (BPT.headOr (-1) S)).2 = (j : Int) := by
  intro S
  induction S with
  | nil => intro _ _ j hj; simp at hj
  | cons p rest ih =>
      intro hchain hsorted j hj hkey fuel hfuel q
      cases fuel with
      | zero => exact absurd hfuel (Nat.not_lt_zero _)
      | succ f =>
          obtain ⟨h1, h2⟩ := hchain
          rw [List.pairwise_cons] at hsorted
          unfold SF.lsLoop
          rw [show BPT.headOr (-1) (p :: rest) = ((p : Nat) : Int) from rfl]
          rw [if_neg (by omega)]
          rw [show ((p : Nat) : Int).toNat = p from rfl]
          rw [if_neg (by
            rw [h1]
            cases rest with
            | nil => simp [BPT.headOr]
            | cons y ys => simp [BPT.headOr])]
          rcases List.mem_cons.mp hj with rfl | hj2
          · rw [if_pos (show (SF.readIndex index j).key = key from hkey)]
          · have hlt : SF.keyAt index p < key := by
              have := hsorted.1 j hj2
              omega
            rw [if_neg (show ¬ (SF.readIndex index p).key = key by
              simp only [SF.keyAt] at hlt; omega)]
            rw [if_neg (show ¬ (SF.readIndex index p).key > key by
              simp only [SF.keyAt] at hlt; omega)]
            rw [h1]
            exact ih h2 hsorted.2 j hj2 hkey f (by simpa using hfuel) (p : Int)

/-- Function `_linear_search` from a good start on a state missing the key:
no match, and the reported predecessor is the last chained slot whose
key is below the search key (`-1` when the key goes before the root). -/
theorem sf_linearSearch_absent (s : SF.State) (C : List Nat) (key : Int) (start : Int)
    (hinv : SF.Inv s C)
    (hstart : start = s.pos_root ∨ ∃ p : Nat, start = (p : Int) ∧ p ∈ C ∧
      SF.keyAt s.index p < key)
    (habs : ∀ p ∈ C, SF.keyAt s.index p ≠ key) :
    SF.linearSearch s key start (s.index.length + 1) =
      (BPT.headOr (-1)
        ((C.takeWhile (fun p => SF.keyAt s.index p < key)).reverse), -1) := by
  unfold SF.linearSearch
  by_cases h1 : start = -1
  · rw [if_pos h1]
    have hC : C = [] := by
      rcases hstart with h2 | ⟨p, h2, _, _⟩
      · cases C with
        | nil => rfl
        | cons c rest =>
            exfalso
            have := hinv.hroot
            rw [← h2, h1] at this
            simp [BPT.headOr] at this
      · exfalso
        rw [h1] at h2
        omega
    rw [hC]
    rfl
  · rw [if_neg h1]
    by_cases h2 : start = s.pos_root
    · rw [if_pos h2]
      obtain ⟨c0, rest, hC⟩ : ∃ c0 rest, C = c0 :: rest := by
        cases C with
        | nil =>
            exfalso
            have := hinv.hroot
            rw [← h2] at this
            exact h1 (by simpa [BPT.headOr] using this)
        | cons c0 rest => exact ⟨c0, rest, rfl⟩
      have hroot : s.pos_root = ((c0 : Nat) : Int) := by
        rw [hinv.hroot, hC]
        rfl
      have htn : s.pos_root.toNat = c0 := by rw [hroot]; rfl
      have hch := hinv.hchain
      rw [hC] at hch
      obtain ⟨hl1, hl2⟩ := hch
      have hsort := hinv.hsorted
      rw [hC] at hsort
      rw [List.pairwise_cons] at hsort
      rw [htn]
      by_cases h3 : (SF.readIndex s.index c0).key = key
      · exact absurd h3 (habs c0 (by rw [hC]; simp))
      · rw [if_neg h3]
        by_cases h4 : (SF.readIndex s.index c0).key > key
        · rw [if_pos h4]
          rw [hC, List.takeWhile_cons_of_neg (by simp [SF.keyAt]; omega)]
          rfl
        · rw [if_neg h4]
          have h5 : SF.keyAt s.index c0 < key := by
            have := habs c0 (by rw [hC]; simp)
            simp only [SF.keyAt] at *
            omega
          rw [hl1, hroot]
          rw [sf_lsLoop_absent s.index key rest hl2 hsort.2
            (fun x hx => habs x (by rw [hC]; simp [hx])) (s.index.length + 1)
            (by have := sf_chain_le s C hinv; rw [hC] at this; simp at this; omega) _]
          rw [hC, List.takeWhile_cons_of_pos (by simpa using h5)]
          rw [List.reverse_cons, sf_headOr_append_singleton]
    · rw [if_neg h2]
      obtain ⟨p, hp1, hp2, hp3⟩ : ∃ p : Nat, start = (p : Int) ∧ p ∈ C ∧
          SF.keyAt s.index p < key := by
        rcases hstart with h3 | h3
        · exact absurd h3 h2
        · exact h3
      obtain ⟨pre, suf, hC⟩ := List.append_of_mem hp2
      have hch := hinv.hchain
      rw [hC, sf_chain_append] at hch
      have hsortsuf : List.Pairwise
          (fun a b => SF.keyAt s.index a < SF.keyAt s.index b) (p :: suf) := by
        refine hinv.hsorted.sublist ?_
        rw [hC]
        exact List.sublist_append_right pre (p :: suf)
      have habssuf : ∀ x ∈ p :: suf, SF.keyAt s.index x ≠ key := fun x hx =>
        habs x (by rw [hC]; exact List.mem_append.mpr (Or.inr hx))
      have hfuel : (p :: suf).length < s.index.length + 1 := by
        have h6 := sf_chain_le s C hinv
        rw [hC] at h6
        simp only [List.length_append, List.length_cons] at h6 ⊢
        omega
      rw [hp1]
      rw [show ((p : Nat) : Int) = BPT.headOr (-1) (p :: suf) from rfl]
      rw [sf_lsLoop_absent s.index key (p :: suf) hch.2 hsortsuf habssuf _ hfuel (-1)]
      have hpre : ∀ x ∈ pre, SF.keyAt s.index x < key := by
        intro x hx
        have hsort := hinv.hsorted
        rw [hC, List.pairwise_append] at hsort
        have := hsort.2.2 x hx p (by simp)
        omega
      rw [hC, sf_takeWhile_append _ _ _ (by
        intro x hx
        simpa using hpre x hx)]
      rw [List.reverse_append]
      rw [bpt_headOr_append _ _ _ (by
        rw [List.takeWhile_cons_of_pos (by simpa using hp3)]
        simp)]

/-- Function `_linear_search` from a good start finds a chained key. -/
theorem sf_linearSearch_found (s : SF.State) (C : List Nat) (key : Int) (start : Int)
    (hinv : SF.Inv s C)
    (hstart : start = s.pos_root ∨ ∃ p : Nat, start = (p : Int) ∧ p ∈ C ∧
      SF.keyAt s.index p < key)
    (j : Nat) (hj : j ∈ C) (hkey : SF.keyAt s.index j = key) :
    (SF.linearSearch s key start (s.index.length + 1)).2 ≠ -1 := by
  obtain ⟨c0, rest, hC⟩ : ∃ c0 rest, C = c0 :: rest := by
    cases C with
    | nil => simp at hj
    | cons c0 rest => exact ⟨c0, rest, rfl⟩
  have hroot : s.pos_root = ((c0 : Nat) : Int) := by
    rw [hinv.hroot, hC]
    rfl
  unfold SF.linearSearch
  by_cases h1 : start = -1
  · exfalso
    rcases hstart with h2 | ⟨p, h2, _, _⟩
    · rw [h1, hroot] at h2
      omega
    · rw [h1] at h2
      omega
  · rw [if_neg h1]
    by_cases h2 : start = s.pos_root
    · rw [if_pos h2]
      have htn : s.pos_root.toNat = c0 := by rw [hroot]; rfl
      have hch := hinv.hchain
      rw [hC] at hch
      obtain ⟨hl1, hl2⟩ := hch
      have hsort := hinv.hsorted
      rw [hC] at hsort
      rw [List.pairwise_cons] at hsort
      rw [htn]
      by_cases h3 : (SF.readIndex s.index c0).key = key
      · rw [if_pos h3, hroot]
        simp
      · rw [if_neg h3]
        have hjrest : j ∈ rest := by
          rcases List.mem_cons.mp (hC ▸ hj) with rfl | h
          · exact absurd hkey h3
          · exact h
        have hlt : SF.keyAt s.index c0 < key := by
          have := hsort.1 j hjrest
          omega
        rw [if_neg (show ¬ (SF.readIndex s.index c0).key > key by
          simp only [SF.keyAt] at hlt; omega)]
        rw [hl1]
        rw [sf_lsLoop_found s.index key rest hl2 hsort.2 j hjrest hkey
          (s.index.length + 1)
          (by have := sf_chain_le s C hinv; rw [hC] at this; simp at this; omega) _]
        omega
    · rw [if_neg h2]
      obtain ⟨p, hp1, hp2, hp3⟩ : ∃ p : Nat, start = (p : Int) ∧ p ∈ C ∧
          SF.keyAt s.index p < key := by
        rcases hstart with h3 | h3
        · exact absurd h3 h2
        · exact h3
      obtain ⟨pre, suf, hC2⟩ := List.append_of_mem hp2
      have hch := hinv.hchain
      rw [hC2, sf_chain_append] at hch
      have hsortsuf : List.Pairwise
          (fun a b => SF.keyAt s.index a < SF.keyAt s.index b) (p :: suf) := by
        refine hinv.hsorted.sublist ?_
        rw [hC2]
        exact List.sublist_append_right pre (p :: suf)
      have hfuel : (p :: suf).length < s.index.length + 1 := by
        have h6 := sf_chain_le s C hinv
        rw [hC2] at h6
        simp only [List.length_append, List.length_cons] at h6 ⊢
        omega
      have hjsuf : j ∈ p :: suf := by
        have hjC := hj
        rw [hC2] at hjC
        rcases List.mem_append.mp hjC with hjpre | hjs
        · exfalso
          have hsort := hinv.hsorted
          rw [hC2, List.pairwise_append] at hsort
          have := hsort.2.2 j hjpre p (by simp)
          omega
        · exact hjs
      rw [hp1]
      rw [show ((p : Nat) : Int) = BPT.headOr (-1) (p :: suf) from rfl]
      rw [sf_lsLoop_found s.index key (p :: suf) hch.2 hsortsuf j hjsuf hkey _
        hfuel (-1)]
      omega

/-- The `scan_all` walk returns the chained keys in linked order. -/
theorem sf_scanChain_eq (s : SF.State) : ∀ C : List Nat,
    SF.ChainL s.index C (-1) →
    (∀ p ∈ C, s.heap.get? (SF.readIndex s.index p).pos =
      some (SF.readIndex s.index p).key) →
    ∀ fuel, C.length < fuel →
    SF.scanChain s fuel (BPT.headOr (-1) C) = C.map (SF.keyAt s.index) := by
  intro C
  induction C with
  | nil =>
      intro _ _ fuel hfuel
      cases fuel with
      | zero => exact absurd hfuel (Nat.not_lt_zero _)
      | succ f => rfl
  | cons p rest ih =>
      intro hchain hheap fuel hfuel
      cases fuel with
      | zero => exact absurd hfuel (Nat.not_lt_zero _)
      | succ f =>
          obtain ⟨h1, h2⟩ := hchain
          unfold SF.scanChain
          rw [show BPT.headOr (-1) (p :: rest) = ((p : Nat) : Int) from rfl]
          rw [if_neg (by omega), if_neg (by omega)]
          rw [show ((p : Nat) : Int).toNat = p from rfl]
          simp only []
          rw [if_neg (by
            rw [h1]
            cases rest with
            | nil => simp [BPT.headOr]
            | cons y ys => simp [BPT.headOr])]
          rw [hheap p (by simp)]
          rw [h1, ih h2 (fun x hx => hheap x (by simp [hx])) f (by simpa using hfuel)]
          rfl

/-- Function `scan_all` on a well-formed state lists the chained keys in order. -/
theorem sf_scan_all_eq (s : SF.State) (C : List Nat) (hinv : SF.Inv s C) :
    SF.scan_all s = C.map (SF.keyAt s.index) := by
  unfold SF.scan_all
  by_cases h1 : s.pos_root = -1
  · rw [if_pos h1]
    cases C with
    | nil => rfl
    | cons c rest =>
        exfalso
        have := hinv.hroot
        rw [h1] at this
        simp [BPT.headOr] at this
  · rw [if_neg h1]
    rw [hinv.hroot]
    exact sf_scanChain_eq s C hinv.hchain (fun p hp => (hinv.hheap p hp).2)
      (s.index.length + 1) (by have := sf_chain_le s C hinv; omega)

/-- The `_reconstruct` walk collects the chained records in order. -/
theorem sf_reconChain_eq (s : SF.State) : ∀ C : List Nat,
    SF.ChainL s.index C (-1) →
    ∀ fuel, C.length < fuel →
    SF.reconChain s fuel (BPT.headOr (-1) C) = C.map (SF.readIndex s.index) := by
  intro C
  induction C with
  | nil =>
      intro _ fuel hfuel
      cases fuel with
      | zero => exact absurd hfuel (Nat.not_lt_zero _)
      | succ f => rfl
  | cons p rest ih =>
      intro hchain fuel hfuel
      cases fuel with
      | zero => exact absurd hfuel (Nat.not_lt_zero _)
      | succ f =>
          obtain ⟨h1, h2⟩ := hchain
          unfold SF.reconChain
          rw [show BPT.headOr (-1) (p :: rest) = ((p : Nat) : Int) from rfl]
          rw [if_neg (by omega), if_neg (by omega)]
          rw [show ((p : Nat) : Int).toNat = p from rfl]
          simp only []
          rw [if_neg (by
            rw [h1]
            cases rest with
            | nil => simp [BPT.headOr]
            | cons y ys => simp [BPT.headOr])]
          rw [h1, ih h2 f (by simpa using hfuel)]
          rfl

/-- Function `renumber` keeps the record count. -/
theorem sf_renumber_length : ∀ (l : List SF.IndexRec) (i : Nat),
    (SF.renumber i l).length = l.length := by
  intro l
  induction l with
  | nil => intro i; rfl
  | cons r rest ih =>
      intro i
      cases rest with
      | nil => rfl
      | cons x xs =>
          show (SF.renumber i (r :: x :: xs)).length = _
          unfold SF.renumber
          simp only [List.length_cons]
          rw [ih (i + 1)]
          simp

/-- A `renumber`ed record keeps its key and heap position and points to
the next slot (`-1` at the end). -/
theorem sf_renumber_read : ∀ (l : List SF.IndexRec) (i j : Nat), j < l.length →
    SF.readIndex (SF.renumber i l) j =
      { SF.readIndex l j with
        next := if j + 1 = l.length then -1 else ((i + j + 1 : Nat) : Int) } := by
  intro l
  induction l with
  | nil => intro i j h; simp at h
  | cons r rest ih =>
      intro i j h
      cases rest with
      | nil =>
          cases j with
          | zero => rfl
          | succ j => simp at h
      | cons x xs =>
          cases j with
          | zero =>
              show SF.readIndex ({ r with next := ((i + 1 : Nat) : Int) } ::
                SF.renumber (i + 1) (x :: xs)) 0 = _
              rw [if_neg (by simp)]
              rfl
          | succ j =>
              have h2 : j < (x :: xs).length := by simpa using h
              show SF.readIndex ({ r with next := ((i + 1 : Nat) : Int) } ::
                SF.renumber (i + 1) (x :: xs)) (j + 1) = _
              have hl : SF.readIndex ({ r with next := ((i + 1 : Nat) : Int) } ::
                  SF.renumber (i + 1) (x :: xs)) (j + 1) =
                  SF.readIndex (SF.renumber (i + 1) (x :: xs)) j := by
                simp [SF.readIndex]
              rw [hl, ih (i + 1) j h2]
              have hr : SF.readIndex (r :: x :: xs) (j + 1) =
                  SF.readIndex (x :: xs) j := by
                simp [SF.readIndex]
              rw [hr]
              by_cases h3 : j + 1 = (x :: xs).length
              · rw [if_pos h3, if_pos (by simp [← h3])]
              · rw [if_neg h3, if_neg (by simp only [List.length_cons] at h3 ⊢; omega)]
                have : i + 1 + j + 1 = i + (j + 1) + 1 := by omega
                rw [this]

/-- Slots pointing consecutively form a chain over `range'`. -/
theorem sf_chain_range' (index : List SF.IndexRec) : ∀ (m k : Nat),
    (∀ j, j < m → (SF.readIndex index (k + j)).next =
      (if j + 1 = m then -1 else ((k + j + 1 : Nat) : Int))) →
    SF.ChainL index (List.range' k m) (-1) := by
  intro m
  induction m with
  | zero => intro k _; trivial
  | succ m ih =>
      intro k h
      rw [List.range'_succ k m 1]
      refine ⟨?_, ih (k + 1) ?_⟩
      · have h0 := h 0 (by omega)
        simp only [Nat.add_zero] at h0
        rw [h0]
        cases m with
        | zero => rfl
        | succ m2 =>
            rw [if_neg (by omega)]
            rw [List.range'_succ (k + 1) m2 1]
            rfl
      · intro j hj
        have := h (j + 1) (by omega)
        rw [show k + (j + 1) = k + 1 + j by omega] at this
        rw [this]
        by_cases h4 : j + 1 = m
        · rw [if_pos (show j + 1 + 1 = m + 1 by omega), if_pos h4]
        · rw [if_neg (show ¬ j + 1 + 1 = m + 1 by omega), if_neg h4]

/-- Read through a mapped record list. -/
theorem sf_readIndex_map_read (index : List SF.IndexRec) (C : List Nat) (j p : Nat)
    (h : C.get? j = some p) :
    SF.readIndex (C.map (SF.readIndex index)) j = SF.readIndex index p := by
  simp only [SF.readIndex, List.get?_map, h]
  rfl

/-- Shape of `_reconstruct` on a well-formed state: the index becomes
the chain's live records, renumbered with consecutive pointers, rooted
at slot `0`; the header and threshold are reset from the live count. -/
theorem sf_reconstruct_core (s : SF.State) (C : List Nat) (hinv : SF.Inv s C)
    (hne : s.pos_root ≠ -1) :
    SF.reconstruct s = { s with
      pos_root := 0,
      num_data := C.length,
      num_aux := 0,
      index := SF.renumber 0 (C.map (SF.readIndex s.index)),
      max_aux_size := max 10 (SF.sqrtRound C.length) } := by
  unfold SF.reconstruct
  rw [if_neg hne]
  have hrc : SF.reconChain s (s.index.length + 1) s.pos_root =
      C.map (SF.readIndex s.index) := by
    rw [hinv.hroot]
    exact sf_reconChain_eq s C hinv.hchain (s.index.length + 1)
      (by have := sf_chain_le s C hinv; omega)
  rw [hrc]
  simp only []
  rw [List.length_map]

/-- `_reconstruct` of a well-formed non-empty file satisfies the
invariant; the new chain is the slot sequence `0, 1, …` over the live
records. -/
theorem sf_reconstruct_inv_range (s : SF.State) (C : List Nat) (hinv : SF.Inv s C)
    (hne : ¬ s.pos_root = -1) :
    SF.Inv (SF.reconstruct s) (List.range C.length) := by
  rw [sf_reconstruct_core s C hinv hne]
  have hClen : C.length ≤ s.index.length := sf_chain_le s C hinv
  have hCne : C ≠ [] := by
    intro hcon
    rw [hinv.hroot, hcon] at hne
    exact hne rfl
  have hgetC : ∀ j : Nat, j < C.length → ∃ p, C.get? j = some p ∧ p ∈ C := by
    intro j hj
    exact ⟨C.get ⟨j, hj⟩, List.get?_eq_get hj, C.get_mem j hj⟩
  have hread : ∀ j : Nat, j < C.length → ∀ p, C.get? j = some p →
      SF.readIndex (SF.renumber 0 (C.map (SF.readIndex s.index))) j =
        { SF.readIndex s.index p with
          next := if j + 1 = C.length then -1
            else ((j + 1 : Nat) : Int) } := by
    intro j hj p hp
    rw [sf_renumber_read (C.map (SF.readIndex s.index)) 0 j
      (by rw [List.length_map]; exact hj)]
    rw [sf_readIndex_map_read s.index C j p hp]
    rw [List.length_map]
    rw [show 0 + j + 1 = j + 1 from by omega]
  have hlen2 : (SF.renumber 0 (C.map (SF.readIndex s.index))).length =
      C.length := by
    rw [sf_renumber_length, List.length_map]
  have hkey : ∀ j : Nat, j < C.length → ∀ p, C.get? j = some p →
      SF.keyAt (SF.renumber 0 (C.map (SF.readIndex s.index))) j =
        SF.keyAt s.index p := by
    intro j hj p hp
    simp only [SF.keyAt]
    rw [hread j hj p hp]
  refine ⟨?_, ?_, ?_, ?_, ?_, ?_, ?_, ?_, ?_, ?_⟩
  · simpa using hlen2
  · rw [hlen2]
    exact le_trans hClen hinv.hheaplen
  · show (0 : Int) = BPT.headOr (-1) (List.range C.length)
    obtain ⟨m, hm⟩ : ∃ m, C.length = m + 1 := by
      cases C with
      | nil => exact absurd rfl hCne
      | cons a b => exact ⟨b.length, by simp⟩
    rw [hm, List.range_eq_range', List.range'_succ 0 m 1]
    rfl
  · show SF.ChainL _ (List.range C.length) (-1)
    rw [List.range_eq_range']
    refine sf_chain_range' _ C.length 0 ?_
    intro j hj
    obtain ⟨p, hp, _⟩ := hgetC j (by omega)
    rw [show (0 : Nat) + j = j from by omega]
    rw [hread j (by omega) p hp]
  · exact List.nodup_range C.length
  · intro p hp
    rw [hlen2]
    exact List.mem_range.mp hp
  · intro p2 hlt hmem
    rw [hlen2] at hlt
    exact absurd (List.mem_range.mpr hlt) hmem
  · rw [List.pairwise_iff_get]
    intro i j hij
    have hC := List.pairwise_iff_get.mp hinv.hsorted
    have hi : (i : Nat) < C.length := by
      have := i.2
      simpa using this
    have hj : (j : Nat) < C.length := by
      have := j.2
      simpa using this
    have hgi : (List.range C.length).get i = (i : Nat) := List.get_range _ _
    have hgj : (List.range C.length).get j = (j : Nat) := List.get_range _ _
    rw [hgi, hgj]
    rw [hkey i hi _ (List.get?_eq_get hi), hkey j hj _ (List.get?_eq_get hj)]
    have := hC ⟨(i : Nat), hi⟩ ⟨(j : Nat), hj⟩ (by simpa using hij)
    exact this
  · intro q2 hq2 p hpq
    simp only at hq2
    have hq2' : q2 < C.length := hq2
    have hp' : p < C.length := by omega
    rw [hkey p hp' _ (List.get?_eq_get hp'), hkey q2 hq2' _ (List.get?_eq_get hq2')]
    have hC := List.pairwise_iff_get.mp hinv.hsorted
    exact hC ⟨p, hp'⟩ ⟨q2, hq2'⟩ (by simpa using hpq)
  · intro p hp
    have hp1 : p < C.length := List.mem_range.mp hp
    obtain ⟨x, hx, hxC⟩ := hgetC p hp1
    rw [hread p hp1 x hx]
    simpa using hinv.hheap x hxC

/-- Function `_reconstruct` preserves the invariant. -/
theorem sf_reconstruct_inv (s : SF.State) (C : List Nat) (hinv : SF.Inv s C) :
    ∃ C2, SF.Inv (SF.reconstruct s) C2 := by
  by_cases hne : s.pos_root = -1
  · refine ⟨C, ?_⟩
    unfold SF.reconstruct
    rw [if_pos hne]
    exact hinv
  · exact ⟨_, sf_reconstruct_inv_range s C hinv hne⟩

/-- Re-pointing only the last slot of a chain segment re-targets the
whole segment. -/
theorem sf_chain_last (index index2 : List SF.IndexRec) : ∀ (A : List Nat) (q : Nat)
    (a a2 : Int), A.getLast? = some q →
    (∀ p ∈ A, p ≠ q → SF.readIndex index2 p = SF.readIndex index p) →
    (SF.readIndex index2 q).next = a2 →
    SF.ChainL index A a → A.Nodup →
    SF.ChainL index2 A a2 := by
  intro A
  induction A with
  | nil => intro q a a2 h; simp at h
  | cons p rest ih =>
      intro q a a2 hlast hframe hq hchain hnodup
      cases rest with
      | nil =>
          have hpq : p = q := by simpa using hlast
          subst hpq
          exact ⟨hq, trivial⟩
      | cons r rest2 =>
          obtain ⟨h1, h2⟩ := hchain
          rw [List.nodup_cons] at hnodup
          have hlast2 : (r :: rest2).getLast? = some q :=
            (show (p :: r :: rest2).getLast? = (r :: rest2).getLast? from
              List.getLast?_cons_cons) ▸ hlast
          have hqmem : q ∈ r :: rest2 := List.mem_of_mem_getLast? hlast2
          have hpq : p ≠ q := fun he => hnodup.1 (he ▸ hqmem)
          refine ⟨?_, ih q a a2 hlast2 (fun x hx hxq => hframe x (by simp [hx]) hxq)
            hq h2 hnodup.2⟩
          rw [hframe p (by simp) hpq, h1]
          rfl

/-- Splicing a record after slot `q` leaves every old key in place. -/
theorem sf_keyAt_splice (index : List SF.IndexRec) (newRec r2 : SF.IndexRec) (q : Nat)
    (hkey : r2.key = (SF.readIndex index q).key) (p : Nat) (hp : p < index.length) :
    SF.keyAt ((index ++ [newRec]).set q r2) p = SF.keyAt index p := by
  by_cases hpq : p = q
  · subst hpq
    simp only [SF.keyAt]
    rw [sf_readIndex_set_self _ _ _ (by simp only [List.length_append]; omega)]
    rw [hkey]
  · simp only [SF.keyAt]
    rw [sf_readIndex_set_other _ _ _ _ hpq, sf_readIndex_append_left _ _ _ hp]

/-- The last slot of a chain segment carries the segment's outgoing
pointer. -/
theorem sf_chain_getLast (index : List SF.IndexRec) : ∀ (A : List Nat) (q : Nat) (a : Int),
    SF.ChainL index A a → A.getLast? = some q →
    (SF.readIndex index q).next = a := by
  intro A
  induction A with
  | nil => intro q a _ h; simp at h
  | cons p rest ih =>
      intro q a hchain hlast
      obtain ⟨h1, h2⟩ := hchain
      cases rest with
      | nil =>
          have hpq : p = q := by simpa using hlast
          subst hpq
          exact h1
      | cons r rest2 =>
          refine ih q a h2 ?_
          exact (show (p :: r :: rest2).getLast? = (r :: rest2).getLast? from
            List.getLast?_cons_cons) ▸ hlast

/-- Inserting a key below every chained key re-roots the file at the
fresh slot; the invariant carries over. -/
theorem sf_newroot_inv (s : SF.State) (C : List Nat) (key : Int) (hinv : SF.Inv s C)
    (hgt : ∀ p ∈ C, key < SF.keyAt s.index p) :
    SF.Inv { s with
        pos_root := ((s.num_data + s.num_aux : Nat) : Int),
        num_aux := s.num_aux + 1,
        index := s.index ++ [{ key := key, pos := s.heap.length, next := s.pos_root }],
        heap := s.heap ++ [key] } ((s.num_data + s.num_aux) :: C) := by
  have hNP : s.num_data + s.num_aux = s.index.length := hinv.hlen.symm
  have hreadnew : SF.readIndex (s.index ++
      [{ key := key, pos := s.heap.length, next := s.pos_root }])
      (s.num_data + s.num_aux) =
      { key := key, pos := s.heap.length, next := s.pos_root } := by
    rw [hNP]
    exact sf_readIndex_append_self _ _
  have hreadold : ∀ p ∈ C, SF.readIndex (s.index ++
      [{ key := key, pos := s.heap.length, next := s.pos_root }]) p =
      SF.readIndex s.index p := fun p hp =>
    sf_readIndex_append_left _ _ _ (hinv.hbound p hp)
  refine ⟨?_, ?_, ?_, ?_, ?_, ?_, ?_, ?_, ?_, ?_⟩
  · simp only [List.length_append, List.length_cons, List.length_nil]
    omega
  · simp only [List.length_append, List.length_cons, List.length_nil]
    have := hinv.hheaplen
    omega
  · show ((s.num_data + s.num_aux : Nat) : Int) = BPT.headOr (-1) _
    rfl
  · refine ⟨?_, ?_⟩
    · show (SF.readIndex _ (s.num_data + s.num_aux)).next = _
      rw [hreadnew]
      show s.pos_root = BPT.headOr (-1) C
      exact hinv.hroot
    · exact sf_chain_frame _ _ C _ hreadold hinv.hchain
  · rw [List.nodup_cons]
    refine ⟨fun hx => ?_, hinv.hnodup⟩
    have := hinv.hbound _ hx
    omega
  · intro p hp
    simp only [List.length_append, List.length_cons, List.length_nil]
    rcases List.mem_cons.mp hp with rfl | hp2
    · omega
    · have := hinv.hbound p hp2
      omega
  · intro p2 hlt hmem
    simp only [List.length_append, List.length_cons, List.length_nil] at hlt
    have hne2 : p2 ≠ s.index.length := by
      intro he
      exact hmem (by rw [he, hNP]; exact List.mem_cons_self _ _)
    have hnC : p2 ∉ C := fun hc => hmem (List.mem_cons_of_mem _ hc)
    have hp2 : p2 < s.index.length := by omega
    rw [sf_readIndex_append_left _ _ _ hp2]
    exact hinv.hlive p2 hp2 hnC
  · rw [List.pairwise_cons]
    constructor
    · intro b hb
      show SF.keyAt _ (s.num_data + s.num_aux) < SF.keyAt _ b
      have h1 : SF.keyAt (s.index ++
          [{ key := key, pos := s.heap.length, next := s.pos_root }])
          (s.num_data + s.num_aux) = key := by
        simp only [SF.keyAt]
        rw [hreadnew]
      have h2 : SF.keyAt (s.index ++
          [{ key := key, pos := s.heap.length, next := s.pos_root }]) b =
          SF.keyAt s.index b := by
        simp only [SF.keyAt]
        rw [hreadold b hb]
      rw [h1, h2]
      exact hgt b hb
    · refine hinv.hsorted.imp_of_mem ?_
      intro a b ha hb hab
      have h2 : ∀ x ∈ C, SF.keyAt (s.index ++
          [{ key := key, pos := s.heap.length, next := s.pos_root }]) x =
          SF.keyAt s.index x := by
        intro x hx
        simp only [SF.keyAt]
        rw [hreadold x hx]
      rw [h2 a ha, h2 b hb]
      exact hab
  · intro q hq p hpq
    simp only at hq
    have hple : p < s.index.length := by
      have := hinv.hlen
      omega
    have hqle : q < s.index.length := by
      have := hinv.hlen
      omega
    simp only [SF.keyAt]
    rw [sf_readIndex_append_left _ _ _ hple, sf_readIndex_append_left _ _ _ hqle]
    exact hinv.hprimary q hq p hpq
  · intro p hp
    rcases List.mem_cons.mp hp with rfl | hp2
    · rw [hreadnew]
      simp only [List.length_append, List.length_cons, List.length_nil]
      refine ⟨by omega, ?_⟩
      exact bpt_get?_append_self _ _
    · rw [hreadold p hp2]
      obtain ⟨hh1, hh2⟩ := hinv.hheap p hp2
      simp only [List.length_append, List.length_cons, List.length_nil]
      refine ⟨by omega, ?_⟩
      rw [bpt_get?_append_left _ _ _ hh1]
      exact hh2

/-- Splicing a key after the last chained slot whose key is below it
(and before the all-larger tail) preserves the invariant. -/
theorem sf_splice_inv (s : SF.State) (C A B : List Nat) (key : Int) (q : Nat)
    (hinv : SF.Inv s C) (hC : C = A ++ B)
    (hAlt : ∀ p ∈ A, SF.keyAt s.index p < key)
    (hBgt : ∀ p ∈ B, key < SF.keyAt s.index p)
    (hlast : A.getLast? = some q) :
    SF.Inv { s with
        num_aux := s.num_aux + 1,
        index := List.set (s.index ++ [{ key := key, pos := s.heap.length, next := (SF.readIndex s.index q).next }]) q
          { key := (SF.readIndex s.index q).key, pos := (SF.readIndex s.index q).pos, next := ((s.num_data + s.num_aux : Nat) : Int) },
        heap := s.heap ++ [key] } (A ++ (s.num_data + s.num_aux) :: B) := by
  have hNP : s.num_data + s.num_aux = s.index.length := hinv.hlen.symm
  have hqA : q ∈ A := List.mem_of_mem_getLast? hlast
  have hqC : q ∈ C := by rw [hC]; exact List.mem_append.mpr (Or.inl hqA)
  have hqlt : q < s.index.length := hinv.hbound q hqC
  have hndC := hinv.hnodup
  rw [hC, List.nodup_append] at hndC
  obtain ⟨hndA, hndB, hdisj⟩ := hndC
  have hch := hinv.hchain
  rw [hC, sf_chain_append] at hch
  obtain ⟨hchA, hchB⟩ := hch
  have hqnext : (SF.readIndex s.index q).next = BPT.headOr (-1) B :=
    sf_chain_getLast s.index A q _ hchA hlast
  have hlen' : (List.set (s.index ++ [{ key := key, pos := s.heap.length, next := (SF.readIndex s.index q).next }]) q
      { key := (SF.readIndex s.index q).key, pos := (SF.readIndex s.index q).pos, next := ((s.num_data + s.num_aux : Nat) : Int) }).length =
      s.index.length + 1 := by
    rw [List.length_set]
    simp
  have hreadq : SF.readIndex (List.set (s.index ++ [{ key := key, pos := s.heap.length, next := (SF.readIndex s.index q).next }]) q
      { key := (SF.readIndex s.index q).key, pos := (SF.readIndex s.index q).pos, next := ((s.num_data + s.num_aux : Nat) : Int) }) q =
      { key := (SF.readIndex s.index q).key, pos := (SF.readIndex s.index q).pos, next := ((s.num_data + s.num_aux : Nat) : Int) } :=
    sf_readIndex_set_self _ _ _ (by simp only [List.length_append]; omega)
  have hreadNP : SF.readIndex (List.set (s.index ++ [{ key := key, pos := s.heap.length, next := (SF.readIndex s.index q).next }]) q
      { key := (SF.readIndex s.index q).key, pos := (SF.readIndex s.index q).pos, next := ((s.num_data + s.num_aux : Nat) : Int) })
      (s.num_data + s.num_aux) =
      { key := key, pos := s.heap.length, next := (SF.readIndex s.index q).next } := by
    rw [sf_readIndex_set_other _ _ _ _ (by omega), hNP]
    exact sf_readIndex_append_self _ _
  have hreadold : ∀ p, p < s.index.length → p ≠ q →
      SF.readIndex (List.set (s.index ++ [{ key := key, pos := s.heap.length, next := (SF.readIndex s.index q).next }]) q
        { key := (SF.readIndex s.index q).key, pos := (SF.readIndex s.index q).pos, next := ((s.num_data + s.num_aux : Nat) : Int) }) p =
      SF.readIndex s.index p := by
    intro p hp hpq
    rw [sf_readIndex_set_other _ _ _ _ hpq, sf_readIndex_append_left _ _ _ hp]
  have hkeyold : ∀ p, p < s.index.length →
      SF.keyAt (List.set (s.index ++ [{ key := key, pos := s.heap.length, next := (SF.readIndex s.index q).next }]) q
        { key := (SF.readIndex s.index q).key, pos := (SF.readIndex s.index q).pos, next := ((s.num_data + s.num_aux : Nat) : Int) }) p =
      SF.keyAt s.index p := fun p hp =>
    sf_keyAt_splice s.index
      { key := key, pos := s.heap.length, next := (SF.readIndex s.index q).next }
      { key := (SF.readIndex s.index q).key, pos := (SF.readIndex s.index q).pos, next := ((s.num_data + s.num_aux : Nat) : Int) }
      q rfl p hp
  have hkeyNP : SF.keyAt (List.set (s.index ++ [{ key := key, pos := s.heap.length, next := (SF.readIndex s.index q).next }]) q
      { key := (SF.readIndex s.index q).key, pos := (SF.readIndex s.index q).pos, next := ((s.num_data + s.num_aux : Nat) : Int) })
      (s.num_data + s.num_aux) = key := by
    simp only [SF.keyAt]
    rw [hreadNP]
  have hBq : ∀ p ∈ B, p ≠ q := fun p hp he => hdisj (he ▸ hqA) hp
  have hAB : ∀ p, p ∈ A ∨ p ∈ B → p < s.index.length := by
    intro p hp
    refine hinv.hbound p ?_
    rw [hC]
    exact List.mem_append.mpr hp
  refine ⟨?_, ?_, ?_, ?_, ?_, ?_, ?_, ?_, ?_, ?_⟩
  · show _ = s.num_data + (s.num_aux + 1)
    rw [hlen']
    have := hinv.hlen
    omega
  · rw [hlen']
    simp only [List.length_append, List.length_cons, List.length_nil]
    have := hinv.hheaplen
    omega
  · cases A with
    | nil => simp at hlast
    | cons a0 A2 =>
        show s.pos_root = BPT.headOr (-1) ((a0 :: A2) ++ _)
        rw [hinv.hroot, hC]
        rfl
  · rw [sf_chain_append]
    constructor
    · show SF.ChainL _ A (BPT.headOr (-1) ((s.num_data + s.num_aux) :: B))
      rw [show BPT.headOr (-1) ((s.num_data + s.num_aux) :: B) =
        ((s.num_data + s.num_aux : Nat) : Int) from rfl]
      refine sf_chain_last s.index _ A q _ _ hlast ?_ ?_ hchA hndA
      · intro p hp hpq
        exact hreadold p (hAB p (Or.inl hp)) hpq
      · rw [hreadq]
    · refine ⟨?_, ?_⟩
      · show (SF.readIndex _ (s.num_data + s.num_aux)).next = _
        rw [hreadNP]
        exact hqnext
      · refine sf_chain_frame s.index _ B _ ?_ hchB
        intro p hp
        exact hreadold p (hAB p (Or.inr hp)) (hBq p hp)
  · rw [List.nodup_append]
    refine ⟨hndA, ?_, ?_⟩
    · rw [List.nodup_cons]
      refine ⟨fun hx => ?_, hndB⟩
      have := hAB _ (Or.inr hx)
      omega
    · intro p hpA
      intro hpmem
      rcases List.mem_cons.mp hpmem with heq | hpB
      · have := hAB p (Or.inl hpA)
        omega
      · exact hdisj hpA hpB
  · intro p hp
    rw [hlen']
    rcases List.mem_append.mp hp with hp2 | hp2
    · have := hAB p (Or.inl hp2)
      omega
    · rcases List.mem_cons.mp hp2 with rfl | hp3
      · omega
      · have := hAB p (Or.inr hp3)
        omega
  · intro p2 hlt hmem
    rw [hlen'] at hlt
    have hne2 : p2 ≠ s.index.length := by
      intro he
      exact hmem (by
        rw [he, hNP]
        exact List.mem_append.mpr (Or.inr (List.mem_cons_self _ _)))
    have hnA : p2 ∉ A := fun hc => hmem (List.mem_append.mpr (Or.inl hc))
    have hnB : p2 ∉ B := fun hc =>
      hmem (List.mem_append.mpr (Or.inr (List.mem_cons_of_mem _ hc)))
    have hnC : p2 ∉ C := by
      rw [hC]
      intro hc
      rcases List.mem_append.mp hc with h | h
      exacts [hnA h, hnB h]
    have hp2 : p2 < s.index.length := by omega
    have hpq2 : p2 ≠ q := fun he => hnA (he ▸ hqA)
    rw [hreadold p2 hp2 hpq2]
    exact hinv.hlive p2 hp2 hnC
  · have hsortC := hinv.hsorted
    rw [hC, List.pairwise_append] at hsortC
    obtain ⟨hsA, hsB, hsCross⟩ := hsortC
    rw [List.pairwise_append]
    refine ⟨?_, ?_, ?_⟩
    · refine hsA.imp_of_mem ?_
      intro a b ha hb hab
      rw [hkeyold a (hAB a (Or.inl ha)), hkeyold b (hAB b (Or.inl hb))]
      exact hab
    · rw [List.pairwise_cons]
      constructor
      · intro b hb
        rw [hkeyNP, hkeyold b (hAB b (Or.inr hb))]
        exact hBgt b hb
      · refine hsB.imp_of_mem ?_
        intro a b ha hb hab
        rw [hkeyold a (hAB a (Or.inr ha)), hkeyold b (hAB b (Or.inr hb))]
        exact hab
    · intro a ha b hb
      rcases List.mem_cons.mp hb with rfl | hb2
      · rw [hkeyNP, hkeyold a (hAB a (Or.inl ha))]
        exact hAlt a ha
      · rw [hkeyold a (hAB a (Or.inl ha)), hkeyold b (hAB b (Or.inr hb2))]
        exact hsCross a ha b hb2
  · intro p2 hp2 p hpp
    simp only at hp2
    have hple : p < s.index.length := by
      have := hinv.hlen
      omega
    have hp2le : p2 < s.index.length := by
      have := hinv.hlen
      omega
    rw [hkeyold p hple, hkeyold p2 hp2le]
    exact hinv.hprimary p2 hp2 p hpp
  · intro p hp
    simp only [List.length_append, List.length_cons, List.length_nil]
    rcases List.mem_append.mp hp with hp2 | hp2
    · by_cases hpq : p = q
      · subst hpq
        rw [hreadq]
        obtain ⟨hh1, hh2⟩ := hinv.hheap p hqC
        refine ⟨by simpa using Nat.lt_succ_of_lt hh1, ?_⟩
        show (s.heap ++ [key]).get? (SF.readIndex s.index p).pos =
          some (SF.readIndex s.index p).key
        rw [bpt_get?_append_left _ _ _ hh1]
        exact hh2
      · rw [hreadold p (hAB p (Or.inl hp2)) hpq]
        obtain ⟨hh1, hh2⟩ := hinv.hheap p (by rw [hC]; exact List.mem_append.mpr (Or.inl hp2))
        refine ⟨by omega, ?_⟩
        rw [bpt_get?_append_left _ _ _ hh1]
        exact hh2
    · rcases List.mem_cons.mp hp2 with rfl | hp3
      · rw [hreadNP]
        refine ⟨by dsimp only; omega, ?_⟩
        exact bpt_get?_append_self _ _
      · rw [hreadold p (hAB p (Or.inr hp3)) (hBq p hp3)]
        obtain ⟨hh1, hh2⟩ := hinv.hheap p (by rw [hC]; exact List.mem_append.mpr (Or.inr hp3))
        refine ⟨by omega, ?_⟩
        rw [bpt_get?_append_left _ _ _ hh1]
        exact hh2

/-- Function `insert` preserves the invariant (duplicate inserts leave
the state unchanged; new keys are spliced into the chain, possibly
followed by a reconstruction). The extra hypothesis reflects a real
limit of the code: inserting into a file whose chain was emptied by
deletes while physical records remain rewrites the header to
`(0, 1)` and corrupts the slot arithmetic of later appends, so only
chain-empty-implies-file-empty states are claimed. -/
theorem sf_insert_inv (s : SF.State) (C : List Nat) (key : Int) (hinv : SF.Inv s C)
    (hemp : C = [] → s.index = []) :
    ∃ C2, SF.Inv (SF.insert s key).1 C2 ∧
      (C2 = [] → (SF.insert s key).1.index = []) := by
  unfold SF.insert
  by_cases h1 : s.pos_root = -1
  · rw [if_pos h1]
    have hC : C = [] := by
      cases C with
      | nil => rfl
      | cons c rest =>
          exfalso
          have := hinv.hroot
          rw [h1] at this
          simp [BPT.headOr] at this
    have hidx : s.index = [] := hemp hC
    have hnd0 : s.num_data = 0 := by
      have := hinv.hlen
      rw [hidx] at this
      simp at this
      omega
    have hna0 : s.num_aux = 0 := by
      have := hinv.hlen
      rw [hidx] at this
      simp at this
      omega
    refine ⟨[s.num_data + s.num_aux], ?_, by simp⟩
    simp only [SF.appendIndex]
    refine ⟨?_, ?_, ?_, ?_, ?_, ?_, ?_, ?_, ?_, ?_⟩
    · show (s.index ++ _).length = 0 + 1
      rw [hidx]
      rfl
    · show (s.index ++ _).length ≤ (s.heap ++ [key]).length
      rw [hidx]
      simp
    · rfl
    · refine ⟨?_, trivial⟩
      show (SF.readIndex (s.index ++ _) (s.num_data + s.num_aux)).next = _
      rw [hidx, hnd0, hna0]
      rfl
    · simp
    · intro p hp
      simp only [List.mem_singleton] at hp
      subst hp
      show _ < (s.index ++ _).length
      rw [hidx, hnd0, hna0]
      simp
    · intro p2 hlt hmem
      exfalso
      rw [hidx, hnd0, hna0] at hlt
      simp at hlt
      subst hlt
      rw [hnd0, hna0] at hmem
      simp at hmem
    · simp
    · intro q hq p hpq
      simp only at hq
      omega
    · intro p hp
      simp only [List.mem_singleton] at hp
      subst hp
      constructor
      · show (SF.readIndex (s.index ++ _) _).pos < (s.heap ++ [key]).length
        rw [hidx, hnd0, hna0]
        simp [SF.readIndex]
      · show (s.heap ++ [key]).get? _ = _
        rw [hidx, hnd0, hna0]
        simp only [SF.readIndex, List.get?_nil]
        simp [bpt_get?_append_self]
  · rw [if_neg h1]
    by_cases hdup : ∃ p ∈ C, SF.keyAt s.index p = key
    · obtain ⟨j, hj, hjk⟩ := hdup
      have hfound := sf_linearSearch_found s C key (SF.binarySearchPrev s key) hinv
        (sf_binarySearchPrev_good s C key hinv) j hj hjk
      rw [if_pos hfound]
      exact ⟨C, hinv, hemp⟩
    · have habs : ∀ p ∈ C, SF.keyAt s.index p ≠ key := by
        push_neg at hdup
        exact hdup
      have hls := sf_linearSearch_absent s C key (SF.binarySearchPrev s key) hinv
        (sf_binarySearchPrev_good s C key hinv) habs
      simp only []
      rw [hls]
      dsimp only
      rw [if_neg (by simp)]
      by_cases hA : (C.takeWhile (fun p => SF.keyAt s.index p < key)).reverse = []
      · -- new root: the key goes before every chained key
        rw [hA]
        rw [show BPT.headOr (-1) ([] : List Nat) = -1 from rfl]
        rw [if_pos rfl]
        have hAnil : C.takeWhile (fun p => SF.keyAt s.index p < key) = [] := by
          rwa [List.reverse_eq_nil_iff] at hA
        have hgt : ∀ p ∈ C, key < SF.keyAt s.index p := by
          have hdw := sf_dropWhile_gt s.index key C hinv.hsorted habs
          intro p hp
          refine hdw p ?_
          rw [show C.dropWhile (fun p => SF.keyAt s.index p < key) = C from by
            conv_rhs => rw [← List.takeWhile_append_dropWhile
              (fun p => decide (SF.keyAt s.index p < key)) C]
            rw [hAnil]
            rfl]
          exact hp
        have hinv3 := sf_newroot_inv s C key hinv hgt
        split
        · refine ⟨_, sf_reconstruct_inv_range _ _ hinv3 (by
            show ¬ ((s.num_data + s.num_aux : Nat) : Int) = -1
            omega), ?_⟩
          intro hcon
          rw [List.range_eq_nil] at hcon
          simp at hcon
        · exact ⟨_, hinv3, by simp⟩
      · -- splice after the last smaller key
        obtain ⟨q, qs, hrev⟩ : ∃ q qs,
            (C.takeWhile (fun p => SF.keyAt s.index p < key)).reverse = q :: qs := by
          cases hx : (C.takeWhile (fun p => SF.keyAt s.index p < key)).reverse with
          | nil => exact absurd hx hA
          | cons q qs => exact ⟨q, qs, rfl⟩
        have hlastq : (C.takeWhile (fun p => SF.keyAt s.index p < key)).getLast? =
            some q := by
          rw [← List.head?_reverse, hrev]
          rfl
        rw [hrev]
        rw [show BPT.headOr (-1) (q :: qs) = ((q : Nat) : Int) from rfl]
        rw [if_neg (show ¬ ((q : Nat) : Int) = -1 by omega)]
        rw [show ((q : Nat) : Int).toNat = q from rfl]
        have hCAB : C = C.takeWhile (fun p => SF.keyAt s.index p < key) ++
            C.dropWhile (fun p => SF.keyAt s.index p < key) :=
          (List.takeWhile_append_dropWhile
            (fun p => decide (SF.keyAt s.index p < key)) C).symm
        have hAlt : ∀ p ∈ C.takeWhile (fun p => SF.keyAt s.index p < key),
            SF.keyAt s.index p < key := by
          intro p hp
          have := List.mem_takeWhile_imp hp
          simpa using this
        have hBgt : ∀ p ∈ C.dropWhile (fun p => SF.keyAt s.index p < key),
            key < SF.keyAt s.index p :=
          sf_dropWhile_gt s.index key C hinv.hsorted habs
        have hinv3 := sf_splice_inv s C _ _ key q hinv hCAB hAlt hBgt hlastq
        split
        · refine ⟨_, sf_reconstruct_inv_range _ _ hinv3 (by
            show ¬ s.pos_root = -1
            exact h1), ?_⟩
          intro hcon
          rw [List.range_eq_nil] at hcon
          simp at hcon
        · refine ⟨_, hinv3, ?_⟩
          intro hcon
          rw [List.append_eq_nil] at hcon
          simp at hcon


/-- A fresh `SequentialFile` satisfies the invariant with the empty
chain. -/
theorem sf_initState_inv (m : Nat) : SF.Inv (SF.initState m) [] := by
  refine ⟨rfl, Nat.le_refl 0, rfl, trivial, List.nodup_nil, ?_, ?_, List.Pairwise.nil,
    ?_, ?_⟩
  · intro p hp
    simp at hp
  · intro q hq _
    exact absurd hq (Nat.not_lt_zero q)
  · intro q hq p hpq
    exact absurd hq (Nat.not_lt_zero q)
  · intro p hp
    simp at hp

/-- Any insert-only run from an invariant state ends in an invariant
state. -/
theorem sf_applyInserts_inv (keys : List Int) : ∀ (s : SF.State) (C : List Nat),
    SF.Inv s C → (C = [] → s.index = []) →
    ∃ C2, SF.Inv (SF.applyInserts keys s) C2 ∧
      (C2 = [] → (SF.applyInserts keys s).index = []) := by
  induction keys with
  | nil =>
      intro s C hinv hemp
      exact ⟨C, hinv, hemp⟩
  | cons k rest ih =>
      intro s C hinv hemp
      obtain ⟨C1, h1, he1⟩ := sf_insert_inv s C k hinv hemp
      exact ih (SF.insert s k).1 C1 h1 he1

/-- Function `scan_all` of an invariant state is strictly ascending. -/
theorem sf_scan_all_sorted (s : SF.State) (C : List Nat) (hinv : SF.Inv s C) :
    List.Pairwise (fun a b => a < b) (SF.scan_all s) := by
  rw [sf_scan_all_eq s C hinv]
  exact List.pairwise_map.mpr hinv.hsorted

/-- C8: on every well-formed state — tombstones from earlier deletes
allowed — that still holds a live (non-deleted) entry with the key,
inserting that key again is rejected as an ordinary failure: `insert`
returns the success flag `False` and leaves the whole state (index
file, header, heap) unchanged. -/
theorem sf_insert_duplicate_rejected (s : SF.State) (C : List Nat) (key : Int)
    (hinv : SF.Inv s C) (p : Nat) (hp : p ∈ C) (hkey : SF.keyAt s.index p = key) :
    SF.insert s key = (s, false) := by
  have hne : ¬ s.pos_root = -1 := by
    obtain ⟨c0, rest, hC⟩ : ∃ c0 rest, C = c0 :: rest := by
      cases C with
      | nil => simp at hp
      | cons c0 rest => exact ⟨c0, rest, rfl⟩
    rw [hinv.hroot, hC]
    show ¬ ((c0 : Nat) : Int) = -1
    omega
  have hfound := sf_linearSearch_found s C key (SF.binarySearchPrev s key) hinv
    (sf_binarySearchPrev_good s C key hinv) p hp hkey
  unfold SF.insert
  rw [if_neg hne]
  rw [if_pos hfound]

/-- The duplicate-rejection theorem on a concrete state containing a
tombstone: after deleting key 20 from the three-record file,
re-inserting the live key 30 fails and leaves the state untouched (the
binary search skips the deleted slot 1 on the way). -/
theorem sf_insert_duplicate_rejected_witness :
    SF.insert sfDemoDel 30 = (sfDemoDel, false) :=
  sf_insert_duplicate_rejected sfDemoDel [0, 2] 30
    ⟨by decide, by decide, by decide, ⟨by decide, by decide, trivial⟩, by decide,
      by decide, by decide, by decide, by decide, by decide⟩
    2 (by decide) (by decide)


/-- C7: a triggered reconstruction of any well-formed non-empty file —
tombstones from earlier deletes allowed — rewrites the index into
exactly the live chain (`C` is precisely the set of live slots, so its
length is the live count `n`): auxiliary count zero, root at slot 0,
one slot per live entry, consecutive next pointers (`-1` at the end),
keys ascending across slots, the threshold reset to
`max 10 (round (sqrt n))`, and `scan_all` unchanged. -/
theorem sf_reconstruct_rebuilds (s : SF.State) (C : List Nat)
    (hinv : SF.Inv s C) (hne : ¬ s.pos_root = -1) :
    (SF.reconstruct s).num_aux = 0 ∧
    (SF.reconstruct s).pos_root = 0 ∧
    (SF.reconstruct s).num_data = C.length ∧
    (SF.reconstruct s).index.length = C.length ∧
    (SF.reconstruct s).max_aux_size = max 10 (SF.sqrtRound C.length) ∧
    (∀ j : Nat, j < C.length →
      (SF.readIndex (SF.reconstruct s).index j).next =
        (if j + 1 = C.length then -1 else ((j + 1 : Nat) : Int))) ∧
    (∀ i j : Nat, i < j → j < C.length →
      SF.keyAt (SF.reconstruct s).index i < SF.keyAt (SF.reconstruct s).index j) ∧
    SF.scan_all (SF.reconstruct s) = SF.scan_all s := by
  have hinv2 := sf_reconstruct_inv_range s C hinv hne
  have hcore := sf_reconstruct_core s C hinv hne
  have hkeyj : ∀ j : Nat, j < C.length → ∀ p, C.get? j = some p →
      SF.keyAt (SF.reconstruct s).index j = SF.keyAt s.index p := by
    intro j hj p hp
    rw [hcore]
    show SF.keyAt (SF.renumber 0 (C.map (SF.readIndex s.index))) j = _
    simp only [SF.keyAt]
    rw [sf_renumber_read (C.map (SF.readIndex s.index)) 0 j
      (by rw [List.length_map]; exact hj)]
    rw [sf_readIndex_map_read s.index C j p hp]
  refine ⟨?_, ?_, ?_, ?_, ?_, ?_, ?_, ?_⟩
  · rw [hcore]
  · rw [hcore]
  · rw [hcore]
  · rw [hcore]
    show (SF.renumber 0 (C.map (SF.readIndex s.index))).length = C.length
    rw [sf_renumber_length, List.length_map]
  · rw [hcore]
  · intro j hj
    rw [hcore]
    show (SF.readIndex (SF.renumber 0 (C.map (SF.readIndex s.index))) j).next = _
    rw [sf_renumber_read (C.map (SF.readIndex s.index)) 0 j
      (by rw [List.length_map]; exact hj)]
    simp only [List.length_map]
    by_cases h4 : j + 1 = C.length
    · rw [if_pos h4, if_pos h4]
    · rw [if_neg h4, if_neg h4]
      rw [show 0 + j + 1 = j + 1 from by omega]
  · intro i j hij hj
    exact hinv2.hprimary j (by rw [hcore]; exact hj) i hij
  · rw [sf_scan_all_eq (SF.reconstruct s) (List.range C.length) hinv2]
    rw [sf_scan_all_eq s C hinv]
    apply List.ext
    intro n
    rw [List.get?_map, List.get?_map]
    by_cases hn : n < C.length
    · rw [List.get?_range hn, List.get?_eq_get hn]
      exact congrArg some (hkeyj n hn _ (List.get?_eq_get hn))
    · rw [List.get?_len_le (by simpa using Nat.le_of_not_lt hn),
        List.get?_len_le (Nat.le_of_not_lt hn)]
      rfl

/-- The reconstruction theorem on the concrete tombstoned state: the
dead slot is dropped, both live records move into a fresh two-slot
primary area with consecutive pointers, and the scan is unchanged. -/
theorem sf_reconstruct_rebuilds_witness :
    (SF.reconstruct sfDemoDel).num_aux = 0 ∧
    (SF.reconstruct sfDemoDel).pos_root = 0 ∧
    (SF.reconstruct sfDemoDel).num_data = 2 ∧
    (SF.reconstruct sfDemoDel).index.length = 2 ∧
    (SF.reconstruct sfDemoDel).max_aux_size = max 10 (SF.sqrtRound 2) ∧
    (∀ j : Nat, j < 2 →
      (SF.readIndex (SF.reconstruct sfDemoDel).index j).next =
        (if j + 1 = 2 then -1 else ((j + 1 : Nat) : Int))) ∧
    (∀ i j : Nat, i < j → j < 2 →
      SF.keyAt (SF.reconstruct sfDemoDel).index i <
        SF.keyAt (SF.reconstruct sfDemoDel).index j) ∧
    SF.scan_all (SF.reconstruct sfDemoDel) = SF.scan_all sfDemoDel :=
  sf_reconstruct_rebuilds sfDemoDel [0, 2]
    ⟨by decide, by decide, by decide, ⟨by decide, by decide, trivial⟩, by decide,
      by decide, by decide, by decide, by decide, by decide⟩
    (by decide)


/-- C3: inserting any sequence of keys into a fresh `SequentialFile`
and then scanning yields a strictly ascending key sequence, whatever
the insertion order and however many reconstructions were triggered;
in particular the run `[10,5,6,12,30,7,17,3,15,25,8]` scans as
`[3,5,6,7,8,10,12,15,17,25,30]`. -/
theorem sf_scan_all_ascending :
    (∀ (keys : List Int) (maxAux : Nat),
      List.Pairwise (fun a b => a < b)
        (SF.scan_all (SF.applyInserts keys (SF.initState maxAux)))) ∧
    SF.scan_all (SF.applyInserts [10, 5, 6, 12, 30, 7, 17, 3, 15, 25, 8]
      (SF.initState 100)) = [3, 5, 6, 7, 8, 10, 12, 15, 17, 25, 30] := by
  constructor
  · intro keys maxAux
    obtain ⟨C2, h2, _⟩ :=
      sf_applyInserts_inv keys (SF.initState maxAux) [] (sf_initState_inv maxAux)
        (fun _ => rfl)
    exact sf_scan_all_sorted _ C2 h2
  · decide

/-- Keys survive an overwrite that keeps the slot's key. -/
theorem sf_keyAt_set (index : List SF.IndexRec) (q : Nat) (r2 : SF.IndexRec)
    (hkey : r2.key = (SF.readIndex index q).key) (p : Nat) :
    SF.keyAt (List.set index q r2) p = SF.keyAt index p := by
  by_cases hpq : p = q
  · subst hpq
    by_cases hq : p < index.length
    · simp only [SF.keyAt]
      rw [sf_readIndex_set_self _ _ _ hq, hkey]
    · simp only [SF.keyAt]
      rw [sf_readIndex_oob _ _ (by rw [List.length_set]; omega),
        sf_readIndex_oob _ _ (by omega)]
  · simp only [SF.keyAt]
    rw [sf_readIndex_set_other _ _ _ _ hpq]

/-- The `_linear_search` loop, full characterization on a hit: the
found position and the predecessor (the last chained slot whose key is
below the search key, else the incoming `prev`). -/
theorem sf_lsLoop_found_pair (index : List SF.IndexRec) (key : Int) : ∀ S : List Nat,
    SF.ChainL index S (-1) →
    List.Pairwise (fun p q => SF.keyAt index p < SF.keyAt index q) S →
    ∀ j : Nat, j ∈ S → SF.keyAt index j = key →
    ∀ fuel, S.length < fuel → ∀ q : Int,
    SF.lsLoop index key fuel q (BPT.headOr (-1) S) =
      (BPT.headOr q ((S.takeWhile (fun p => SF.keyAt index p < key)).reverse),
        (j : Int)) := by
  intro S
  induction S with
  | nil => intro _ _ j hj; simp at hj
  | cons p rest ih =>
      intro hchain hsorted j hj hkey fuel hfuel q
      cases fuel with
      | zero => exact absurd hfuel (Nat.not_lt_zero _)
      | succ f =>
          obtain ⟨h1, h2⟩ := hchain
          rw [List.pairwise_cons] at hsorted
          unfold SF.lsLoop
          rw [show BPT.headOr (-1) (p :: rest) = ((p : Nat) : Int) from rfl]
          rw [if_neg (by omega)]
          rw [show ((p : Nat) : Int).toNat = p from rfl]
          rw [if_neg (by
            rw [h1]
            cases rest with
            | nil => simp [BPT.headOr]
            | cons y ys => simp [BPT.headOr])]
          rcases List.mem_cons.mp hj with rfl | hj2
          · rw [if_pos (show (SF.readIndex index j).key = key from hkey)]
            rw [List.takeWhile_cons_of_neg (by
              simp only [SF.keyAt] at hkey
              simp [SF.keyAt, hkey])]
            rfl
          · have hlt : SF.keyAt index p < key := by
              have := hsorted.1 j hj2
              omega
            rw [if_neg (show ¬ (SF.readIndex index p).key = key by
              simp only [SF.keyAt] at hlt; omega)]
            rw [if_neg (show ¬ (SF.readIndex index p).key > key by
              simp only [SF.keyAt] at hlt; omega)]
            rw [h1]
            rw [ih h2 hsorted.2 j hj2 hkey f (by simpa using hfuel) (p : Int)]
            rw [List.takeWhile_cons_of_pos (by simpa using hlt)]
            rw [List.reverse_cons, sf_headOr_append_singleton]

/-- Function `_linear_search` from a good start, full characterization
on a hit: the second component is the chained slot holding the key, the
first is the last chained slot whose key is below it (`-1` when the hit
is the first chained record). -/
theorem sf_linearSearch_found_pair (s : SF.State) (C : List Nat) (key : Int)
    (start : Int) (hinv : SF.Inv s C)
    (hstart : start = s.pos_root ∨ ∃ p : Nat, start = (p : Int) ∧ p ∈ C ∧
      SF.keyAt s.index p < key)
    (j : Nat) (hj : j ∈ C) (hkey : SF.keyAt s.index j = key) :
    SF.linearSearch s key start (s.index.length + 1) =
      (BPT.headOr (-1)
        ((C.takeWhile (fun p => SF.keyAt s.index p < key)).reverse), (j : Int)) := by
  obtain ⟨c0, rest, hC⟩ : ∃ c0 rest, C = c0 :: rest := by
    cases C with
    | nil => simp at hj
    | cons c0 rest => exact ⟨c0, rest, rfl⟩
  have hroot : s.pos_root = ((c0 : Nat) : Int) := by
    rw [hinv.hroot, hC]
    rfl
  unfold SF.linearSearch
  by_cases h1 : start = -1
  · exfalso
    rcases hstart with h2 | ⟨p, h2, _, _⟩
    · rw [h1, hroot] at h2
      omega
    · rw [h1] at h2
      omega
  · rw [if_neg h1]
    by_cases h2 : start = s.pos_root
    · rw [if_pos h2]
      have htn : s.pos_root.toNat = c0 := by rw [hroot]; rfl
      have hch := hinv.hchain
      rw [hC] at hch
      obtain ⟨hl1, hl2⟩ := hch
      have hsort := hinv.hsorted
      rw [hC] at hsort
      rw [List.pairwise_cons] at hsort
      rw [htn]
      by_cases h3 : (SF.readIndex s.index c0).key = key
      · rw [if_pos h3]
        have hjc0 : j = c0 := by
          rcases List.mem_cons.mp (hC ▸ hj) with rfl | hjr
          · rfl
          · exfalso
            have := hsort.1 j hjr
            simp only [SF.keyAt] at this hkey
            omega
        rw [hC, List.takeWhile_cons_of_neg (by simp [SF.keyAt, h3])]
        rw [hroot, hjc0]
        rfl
      · rw [if_neg h3]
        have hjrest : j ∈ rest := by
          rcases List.mem_cons.mp (hC ▸ hj) with rfl | h
          · exact absurd hkey h3
          · exact h
        have hlt : SF.keyAt s.index c0 < key := by
          have := hsort.1 j hjrest
          omega
        rw [if_neg (show ¬ (SF.readIndex s.index c0).key > key by
          simp only [SF.keyAt] at hlt; omega)]
        rw [hl1, hroot]
        rw [sf_lsLoop_found_pair s.index key rest hl2 hsort.2 j hjrest hkey
          (s.index.length + 1)
          (by have := sf_chain_le s C hinv; rw [hC] at this; simp at this; omega) _]
        rw [hC, List.takeWhile_cons_of_pos (by simpa using hlt)]
        rw [List.reverse_cons, sf_headOr_append_singleton]
    · rw [if_neg h2]
      obtain ⟨p, hp1, hp2, hp3⟩ : ∃ p : Nat, start = (p : Int) ∧ p ∈ C ∧
          SF.keyAt s.index p < key := by
        rcases hstart with h3 | h3
        · exact absurd h3 h2
        · exact h3
      obtain ⟨pre, suf, hC2⟩ := List.append_of_mem hp2
      have hch := hinv.hchain
      rw [hC2, sf_chain_append] at hch
      have hsortsuf : List.Pairwise
          (fun a b => SF.keyAt s.index a < SF.keyAt s.index b) (p :: suf) := by
        refine hinv.hsorted.sublist ?_
        rw [hC2]
        exact List.sublist_append_right pre (p :: suf)
      have hfuel : (p :: suf).length < s.index.length + 1 := by
        have h6 := sf_chain_le s C hinv
        rw [hC2] at h6
        simp only [List.length_append, List.length_cons] at h6 ⊢
        omega
      have hjsuf : j ∈ p :: suf := by
        have hjC := hj
        rw [hC2] at hjC
        rcases List.mem_append.mp hjC with hjpre | hjs
        · exfalso
          have hsort := hinv.hsorted
          rw [hC2, List.pairwise_append] at hsort
          have := hsort.2.2 j hjpre p (by simp)
          omega
        · exact hjs
      rw [hp1]
      rw [show ((p : Nat) : Int) = BPT.headOr (-1) (p :: suf) from rfl]
      rw [sf_lsLoop_found_pair s.index key (p :: suf) hch.2 hsortsuf j hjsuf hkey _
        hfuel (-1)]
      have hpre : ∀ x ∈ pre, SF.keyAt s.index x < key := by
        intro x hx
        have hsort := hinv.hsorted
        rw [hC2, List.pairwise_append] at hsort
        have := hsort.2.2 x hx p (by simp)
        omega
      rw [hC2, sf_takeWhile_append _ _ _ (by
        intro x hx
        simpa using hpre x hx)]
      rw [List.reverse_append]
      rw [bpt_headOr_append _ _ _ (by
        rw [List.takeWhile_cons_of_pos (by simpa using hp3)]
        simp)]

/-- The first record surviving `dropWhile` fails the predicate. -/
theorem sf_dropWhile_head_not (P : α → Bool) : ∀ (l : List α) (d : α) (B : List α),
    l.dropWhile P = d :: B → P d = false := by
  intro l
  induction l with
  | nil =>
      intro d B h
      simp at h
  | cons x xs ih =>
      intro d B h
      rw [List.dropWhile_cons] at h
      split at h
      · exact ih d B h
      · cases h
        next hPx => simpa using hPx

/-- Python `delete` preserves the invariant: the deleted record leaves
the chain (which otherwise keeps its order), its slot becomes a
tombstone, and header counts, keys and heap are untouched. -/
theorem sf_delete_inv (s : SF.State) (C : List Nat) (key : Int) (hinv : SF.Inv s C) :
    ∃ C2, SF.Inv (SF.delete s key).1 C2 := by
  unfold SF.delete
  by_cases h1 : s.pos_root = -1
  · rw [if_pos h1]
    exact ⟨C, hinv⟩
  · rw [if_neg h1]
    by_cases hdup : ∃ p ∈ C, SF.keyAt s.index p = key
    · obtain ⟨j, hj, hjk⟩ := hdup
      have hls := sf_linearSearch_found_pair s C key (SF.binarySearchPrev s key) hinv
        (sf_binarySearchPrev_good s C key hinv) j hj hjk
      simp only []
      rw [hls]
      dsimp only
      rw [if_neg (show ¬ ((j : Nat) : Int) = -1 by omega)]
      rw [show ((j : Nat) : Int).toNat = j from rfl]
      have hjlt : j < s.index.length := hinv.hbound j hj
      have hCAB : C = C.takeWhile (fun p => SF.keyAt s.index p < key) ++
          C.dropWhile (fun p => SF.keyAt s.index p < key) :=
        (List.takeWhile_append_dropWhile
          (fun p => decide (SF.keyAt s.index p < key)) C).symm
      have hjA : j ∉ C.takeWhile (fun p => SF.keyAt s.index p < key) := by
        intro hmem
        have := List.mem_takeWhile_imp hmem
        simp only [decide_eq_true_eq] at this
        omega
      obtain ⟨d, B, hD⟩ : ∃ d B,
          C.dropWhile (fun p => SF.keyAt s.index p < key) = d :: B := by
        cases hx : C.dropWhile (fun p => SF.keyAt s.index p < key) with
        | nil =>
            exfalso
            have := hj
            rw [hCAB, hx, List.append_nil] at this
            exact hjA this
        | cons d B => exact ⟨d, B, rfl⟩
      have hdj : d = j := by
        have hdnlt : ¬ SF.keyAt s.index d < key := by
          have := sf_dropWhile_head_not
            (fun p => decide (SF.keyAt s.index p < key)) C d B hD
          simpa using this
        have hjD : j ∈ d :: B := by
          have := hj
          rw [hCAB, hD] at this
          rcases List.mem_append.mp this with h | h
          · exact absurd h hjA
          · exact h
        rcases List.mem_cons.mp hjD with rfl | hjB
        · rfl
        · exfalso
          have hsort := hinv.hsorted
          rw [hCAB, hD, List.pairwise_append] at hsort
          have := (List.pairwise_cons.mp hsort.2.1).1 j hjB
          omega
      subst hdj
      rw [hD] at hCAB
      -- C = A ++ d :: B with d the deleted slot
      have hnd := hinv.hnodup
      rw [hCAB, List.nodup_append] at hnd
      obtain ⟨hndA, hndDB, hdisj⟩ := hnd
      have hdB : d ∉ B := (List.nodup_cons.mp hndDB).1
      have hndB : B.Nodup := (List.nodup_cons.mp hndDB).2
      have hch := hinv.hchain
      rw [hCAB, sf_chain_append] at hch
      obtain ⟨hchA, hchD⟩ := hch
      have hchd : (SF.readIndex s.index d).next = BPT.headOr (-1) B := hchD.1
      have hchB : SF.ChainL s.index B (-1) := hchD.2
      by_cases hA : (C.takeWhile (fun p => SF.keyAt s.index p < key)).reverse = []
      · -- the deleted record is the chain head: the root pointer advances
        rw [hA]
        rw [show BPT.headOr (-1) ([] : List Nat) = -1 from rfl]
        rw [if_pos rfl]
        have hAnil : C.takeWhile (fun p => SF.keyAt s.index p < key) = [] := by
          rwa [List.reverse_eq_nil_iff] at hA
        rw [hAnil, List.nil_append] at hCAB
        have hkeys : ∀ p, SF.keyAt (List.set s.index d
            { key := (SF.readIndex s.index d).key,
              pos := (SF.readIndex s.index d).pos, next := -2 }) p =
            SF.keyAt s.index p :=
          sf_keyAt_set s.index d _ rfl
        have hreado : ∀ p : Nat, p ≠ d → SF.readIndex (List.set s.index d
            { key := (SF.readIndex s.index d).key,
              pos := (SF.readIndex s.index d).pos, next := -2 }) p =
            SF.readIndex s.index p := fun p hp =>
          sf_readIndex_set_other _ _ _ _ hp
        refine ⟨B, ?_, ?_, ?_, ?_, ?_, ?_, ?_, ?_, ?_, ?_⟩
        · simp only [List.length_set]
          exact hinv.hlen
        · simp only [List.length_set]
          exact hinv.hheaplen
        · exact hchd
        · refine sf_chain_frame s.index _ B (-1) ?_ hchB
          intro p hp
          exact hreado p (fun he => hdB (he ▸ hp))
        · exact hndB
        · intro p hp
          simp only [List.length_set]
          exact hinv.hbound p (by rw [hCAB]; exact List.mem_cons_of_mem _ hp)
        · intro p2 hlt hmem
          simp only [List.length_set] at hlt
          by_cases hpd : p2 = d
          · subst hpd
            rw [sf_readIndex_set_self _ _ _ hjlt]
          · rw [hreado p2 hpd]
            refine hinv.hlive p2 hlt ?_
            rw [hCAB]
            intro hc
            rcases List.mem_cons.mp hc with he | hc2
            exacts [hpd he, hmem hc2]
        · refine ((List.pairwise_cons.mp (hCAB ▸ hinv.hsorted)).2).imp_of_mem ?_
          intro a b ha hb hab
          rw [hkeys a, hkeys b]
          exact hab
        · intro q2 hq2 p hpq
          simp only at hq2
          rw [hkeys p, hkeys q2]
          exact hinv.hprimary q2 hq2 p hpq
        · intro p hp
          rw [hreado p (fun he => hdB (he ▸ hp))]
          exact hinv.hheap p (by rw [hCAB]; exact List.mem_cons_of_mem _ hp)
      · -- the deleted record has a chain predecessor, which is re-linked
        obtain ⟨q, qs, hrev⟩ : ∃ q qs,
            (C.takeWhile (fun p => SF.keyAt s.index p < key)).reverse = q :: qs := by
          cases hx : (C.takeWhile (fun p => SF.keyAt s.index p < key)).reverse with
          | nil => exact absurd hx hA
          | cons q qs => exact ⟨q, qs, rfl⟩
        have hlastq : (C.takeWhile (fun p => SF.keyAt s.index p < key)).getLast? =
            some q := by
          rw [← List.head?_reverse, hrev]
          rfl
        have hqA : q ∈ C.takeWhile (fun p => SF.keyAt s.index p < key) :=
          List.mem_of_mem_getLast? hlastq
        have hqd : q ≠ d := fun he => hjA (he ▸ hqA)
        have hqB : q ∉ B := fun hb => hdisj hqA (List.mem_cons_of_mem _ hb)
        have hqlt : q < s.index.length :=
          hinv.hbound q (by rw [hCAB]; exact List.mem_append.mpr (Or.inl hqA))
        rw [hrev]
        rw [show BPT.headOr (-1) (q :: qs) = ((q : Nat) : Int) from rfl]
        rw [if_neg (show ¬ ((q : Nat) : Int) = -1 by omega)]
        rw [show ((q : Nat) : Int).toNat = q from rfl]
        dsimp only
        have hkeys : ∀ p, SF.keyAt (List.set (List.set s.index q
            { key := (SF.readIndex s.index q).key, pos := (SF.readIndex s.index q).pos,
              next := (SF.readIndex s.index d).next }) d
            { key := (SF.readIndex s.index d).key,
              pos := (SF.readIndex s.index d).pos, next := -2 }) p =
            SF.keyAt s.index p := by
          intro p
          refine (sf_keyAt_set _ d _ ?_ p).trans (sf_keyAt_set s.index q
            { key := (SF.readIndex s.index q).key, pos := (SF.readIndex s.index q).pos,
              next := (SF.readIndex s.index d).next } rfl p)
          rw [sf_readIndex_set_other _ _ _ _ hqd.symm]
        have hreadd : SF.readIndex (List.set (List.set s.index q
            { key := (SF.readIndex s.index q).key, pos := (SF.readIndex s.index q).pos,
              next := (SF.readIndex s.index d).next }) d
            { key := (SF.readIndex s.index d).key,
              pos := (SF.readIndex s.index d).pos, next := -2 }) d =
            { key := (SF.readIndex s.index d).key,
              pos := (SF.readIndex s.index d).pos, next := -2 } :=
          sf_readIndex_set_self _ _ _ (by rw [List.length_set]; exact hjlt)
        have hreadq : SF.readIndex (List.set (List.set s.index q
            { key := (SF.readIndex s.index q).key, pos := (SF.readIndex s.index q).pos,
              next := (SF.readIndex s.index d).next }) d
            { key := (SF.readIndex s.index d).key,
              pos := (SF.readIndex s.index d).pos, next := -2 }) q =
            { key := (SF.readIndex s.index q).key, pos := (SF.readIndex s.index q).pos,
              next := (SF.readIndex s.index d).next } := by
          rw [sf_readIndex_set_other _ _ _ _ hqd]
          exact sf_readIndex_set_self _ _ _ hqlt
        have hreado : ∀ p : Nat, p ≠ d → p ≠ q →
            SF.readIndex (List.set (List.set s.index q
              { key := (SF.readIndex s.index q).key, pos := (SF.readIndex s.index q).pos,
                next := (SF.readIndex s.index d).next }) d
              { key := (SF.readIndex s.index d).key,
                pos := (SF.readIndex s.index d).pos, next := -2 }) p =
            SF.readIndex s.index p := by
          intro p hpd hpq
          rw [sf_readIndex_set_other _ _ _ _ hpd, sf_readIndex_set_other _ _ _ _ hpq]
        refine ⟨C.takeWhile (fun p => SF.keyAt s.index p < key) ++ B,
          ?_, ?_, ?_, ?_, ?_, ?_, ?_, ?_, ?_, ?_⟩
        · simp only [List.length_set]
          exact hinv.hlen
        · simp only [List.length_set]
          exact hinv.hheaplen
        · show s.pos_root = _
          obtain ⟨a0, A2, hAx⟩ : ∃ a0 A2,
              C.takeWhile (fun p => SF.keyAt s.index p < key) = a0 :: A2 := by
            cases hx : C.takeWhile (fun p => SF.keyAt s.index p < key) with
            | nil =>
                exfalso
                rw [hx] at hrev
                simp at hrev
            | cons a0 A2 => exact ⟨a0, A2, rfl⟩
          rw [hinv.hroot]
          conv_lhs => rw [hCAB]
          rw [hAx]
          rfl
        · rw [sf_chain_append]
          constructor
          · refine sf_chain_last s.index _
              (C.takeWhile (fun p => SF.keyAt s.index p < key)) q _
              (BPT.headOr (-1) B) hlastq ?_ ?_ hchA hndA
            · intro p hp hpq
              exact hreado p (fun he => hjA (he ▸ hp)) hpq
            · rw [hreadq]
              exact hchd
          · refine sf_chain_frame s.index _ B (-1) ?_ hchB
            intro p hp
            exact hreado p (fun he => hdB (he ▸ hp)) (fun he => hqB (he ▸ hp))
        · rw [List.nodup_append]
          refine ⟨hndA, hndB, ?_⟩
          intro p hpA hpB
          exact hdisj hpA (List.mem_cons_of_mem _ hpB)
        · intro p hp
          simp only [List.length_set]
          refine hinv.hbound p ?_
          rw [hCAB]
          rcases List.mem_append.mp hp with h | h
          · exact List.mem_append.mpr (Or.inl h)
          · exact List.mem_append.mpr (Or.inr (List.mem_cons_of_mem _ h))
        · intro p2 hlt hmem
          simp only [List.length_set] at hlt
          by_cases hpd : p2 = d
          · subst hpd
            rw [hreadd]
          · have hpq : p2 ≠ q := fun he =>
              hmem (List.mem_append.mpr (Or.inl (he ▸ hqA)))
            rw [hreado p2 hpd hpq]
            refine hinv.hlive p2 hlt ?_
            rw [hCAB]
            intro hc
            rcases List.mem_append.mp hc with h | h
            · exact hmem (List.mem_append.mpr (Or.inl h))
            · rcases List.mem_cons.mp h with he | h2
              · exact hpd he
              · exact hmem (List.mem_append.mpr (Or.inr h2))
        · have hsub : (C.takeWhile (fun p => SF.keyAt s.index p < key) ++ B).Sublist C := by
            conv_rhs => rw [hCAB]
            exact List.Sublist.append_left (List.sublist_cons_self d B) _
          refine (hinv.hsorted.sublist hsub).imp_of_mem ?_
          intro a b ha hb hab
          rw [hkeys a, hkeys b]
          exact hab
        · intro q2 hq2 p hpq
          simp only at hq2
          rw [hkeys p, hkeys q2]
          exact hinv.hprimary q2 hq2 p hpq
        · intro p hp
          by_cases hpq : p = q
          · subst hpq
            rw [hreadq]
            exact hinv.hheap p (by
              rw [hCAB]
              exact List.mem_append.mpr (Or.inl hqA))
          · have hpd : p ≠ d := by
              intro he
              subst he
              rcases List.mem_append.mp hp with h | h
              · exact hjA h
              · exact hdB h
            rw [hreado p hpd hpq]
            refine hinv.hheap p ?_
            rw [hCAB]
            rcases List.mem_append.mp hp with h | h
            · exact List.mem_append.mpr (Or.inl h)
            · exact List.mem_append.mpr (Or.inr (List.mem_cons_of_mem _ h))
    · have habs : ∀ p ∈ C, SF.keyAt s.index p ≠ key := by
        push_neg at hdup
        exact hdup
      have hls := sf_linearSearch_absent s C key (SF.binarySearchPrev s key) hinv
        (sf_binarySearchPrev_good s C key hinv) habs
      simp only []
      rw [hls]
      rw [if_pos rfl]
      exact ⟨C, hinv⟩
